import Mathlib

/-!
Verification of `scripts/ensure-integrity.js`, the workspace dependency-integrity
checker.  The script is embedded shallowly: JavaScript plain objects used as
string-keyed maps become insertion-ordered association lists, the process-wide
`seenDeps` cache and the on-disk manifests become explicit state threaded through
pure functions, and the two external collaborators — the version lookup
`getDependency` and the source-file scan plus TypeScript import extraction — are
taken as function parameters.  Manifest files on disk are modelled by their parsed
records: the serializer (`sort-package-json` + `JSON.stringify`) is deterministic
and injective on records, so the script's textual change-comparison coincides with
record equality.  The aggregator's generated `index.ts` is kept as genuine text,
since the script manipulates it with `split`/`slice`/`indexOf`/`join`.
-/

namespace EnsureIntegrity

/-! ### Association lists modelling JavaScript objects

JavaScript object semantics: string keys, insertion order preserved, assignment
to an existing key keeps its position, assignment to a new key appends, `delete`
removes the entry.  A JS object never holds a duplicate key; well-formedness of
the embedding therefore tracks `Nodup` key lists where proofs need it. -/

abbrev DepMap := List (String × String)

/-- `m[k]` for a JS object: the value at key `k`, if present. -/
def lookupA (m : DepMap) (k : String) : Option String :=
  match m with
  | [] => none
  | (a, b) :: t => if a = k then some b else lookupA t k

/-- `m[k] = v` for a JS object: overwrite in place, or append a new key. -/
def setA (m : DepMap) (k v : String) : DepMap :=
  match m with
  | [] => [(k, v)]
  | (a, b) :: t => if a = k then (a, v) :: t else (a, b) :: setA t k v

/-- `delete m[k]` for a JS object. -/
def eraseA (m : DepMap) (k : String) : DepMap :=
  match m with
  | [] => []
  | (a, b) :: t => if a = k then t else (a, b) :: eraseA t k

/-- `Object.keys(m)`. -/
def keysA (m : DepMap) : List String := m.map Prod.fst

/-- `k in m`: the key-membership test used on the `seenDeps` cache. -/
def hasKey (m : DepMap) (k : String) : Bool :=
  match m with
  | [] => false
  | (a, _) :: t => a = k || hasKey t k

/-- Truthiness test `m[k]` as the script applies it to version-spec maps:
an absent key and the empty string are both falsy. -/
def lookupT (m : DepMap) (k : String) : Option String :=
  match lookupA m k with
  | some v => if v = "" then none else some v
  | none => none

/-! ### Character-list utilities mirroring the JavaScript string operations -/

/-- `s.split(sep)` on character lists: JavaScript split semantics
(never returns an empty list; `"".split(c)` is `[""]`). -/
def splitOnC (sep : Char) : List Char → List (List Char)
  | [] => [[]]
  | c :: rest =>
    if c = sep then [] :: splitOnC sep rest
    else
      match splitOnC sep rest with
      | [] => [[c]]
      | g :: gs => (c :: g) :: gs

/-- `parts.join(sep)` on character lists. -/
def joinC (sep : Char) : List (List Char) → List Char
  | [] => []
  | [l] => l
  | l :: ls => l ++ sep :: joinC sep ls

/-- `index.split('\n')` as the script uses it on the aggregator index source. -/
def splitLines (s : String) : List String :=
  (splitOnC '\n' s.toList).map String.mk

/-- `lines.join('\n')`. -/
def joinLines (ls : List String) : String :=
  String.mk (joinC '\n' (ls.map String.toList))

/-- Bool prefix test on character lists. -/
def isPre (nd hay : List Char) : Bool :=
  match nd, hay with
  | [], _ => true
  | _ :: _, [] => false
  | a :: as, b :: bs => a = b && isPre as bs

/-- Bool contiguous-substring test; `hay.indexOf(nd) !== -1` in the script. -/
def containsL (hay nd : List Char) : Bool :=
  isPre nd hay ||
    match hay with
    | [] => false
    | _ :: t => containsL t nd

/-- Substring test on strings. -/
def containsSub (hay nd : String) : Bool :=
  containsL hay.toList nd.toList

/-- JavaScript default string comparison (code-unit lexicographic), as a Bool. -/
def lexLe (a b : List Char) : Bool :=
  match a, b with
  | [], _ => true
  | _ :: _, [] => false
  | x :: xs, y :: ys => if x = y then lexLe xs ys else decide (x.val < y.val)

/-- Insert into a sorted list: one step of the model of `Array.prototype.sort`. -/
def insortStr (x : String) : List String → List String
  | [] => [x]
  | y :: ys => if lexLe x.toList y.toList then x :: y :: ys else y :: insortStr x ys

/-- `names.sort()`: JavaScript default lexicographic sort. -/
def sortStr (l : List String) : List String := l.foldr insortStr []

/-- `Array.from(new Set(imports))`: deduplicate keeping first occurrences. -/
def dedup (l : List String) : List String :=
  l.foldl (fun acc x => if x ∈ acc then acc else acc ++ [x]) []

/-! ### Data model -/

/-- A package manifest as the script loads it from `package.json`: name, version
and the two dependency maps.  All other manifest fields are carried through
untouched by the script and are omitted. -/
structure Package where
  name : String
  version : String
  dependencies : DepMap
  devDependencies : DepMap
deriving Repr, DecidableEq

/-- The hard-coded name of the aggregator ("all-packages") meta package. -/
def aggName : String := "@jupyterlab/all-packages"

/-- The `MISSING` exception table from the script. -/
def MISSING : List (String × List String) :=
  [("@jupyterlab/buildutils", ["path"])]

/-- The `UNUSED` exception table from the script. -/
def UNUSED : List (String × List String) :=
  [("@jupyterlab/apputils-extension", ["es6-promise"]),
   ("@jupyterlab/theme-dark-extension", ["font-awesome"]),
   ("@jupyterlab/theme-light-extension", ["font-awesome"]),
   ("@jupyterlab/vega2-extension", ["d3", "vega", "vega-lite"])]

/-- `TBL[pkgName]` with the script's `TBL[p] && TBL[p].indexOf(n) !== -1`
pattern: an absent package behaves as the empty exception list. -/
def excList (tbl : List (String × List String)) (p : String) : List String :=
  match tbl with
  | [] => []
  | (a, l) :: t => if a = p then l else excList t p

/-- The on-disk state a run starts from and leaves behind: every workspace
package manifest (in manifest-scan enumeration order), the root manifest's
`devDependencies`, and the text of the aggregator's generated index source. -/
structure DiskState where
  pkgs : List Package
  rootDev : DepMap
  indexText : String
deriving Repr, DecidableEq

/-- The state threaded through one run: in-memory package records (`pkgData`),
their on-disk counterparts, the in-memory and on-disk root `devDependencies`,
the aggregator index text on disk, and the process-wide `seenDeps` cache. -/
structure WorkState where
  mem : List Package
  disk : List Package
  rootDev : DepMap
  rootDisk : DepMap
  indexText : String
  cache : DepMap
deriving Repr, DecidableEq

/-- `pkgData[n]` (and `require` of a manifest already loaded): the first
package with the given name. -/
def findP (ps : List Package) (n : String) : Option Package :=
  match ps with
  | [] => none
  | p :: t => if p.name = n then some p else findP t n

/-- Replace the package named `n` (in-place object mutation in the script). -/
def setP (ps : List Package) (n : String) (q : Package) : List Package :=
  match ps with
  | [] => []
  | p :: t => if p.name = n then q :: t else p :: setP t n q

/-! ### The reconciliation engine -/

/-- `if (!(name in seenDeps)) seenDeps[name] = getDependency(name)`. -/
def resolveDep (gd : String → String) (cache : DepMap) (n : String) : DepMap :=
  if hasKey cache n then cache else cache ++ [(n, gd n)]

/-- One step of the consistency loops of `ensurePackage`: resolve `n` through
the cache and write the cached spec into the map. -/
def normStep (gd : String → String) : DepMap × DepMap → String → DepMap × DepMap
  | (deps, cache), n =>
    let cache' := resolveDep gd cache n
    (setA deps n ((lookupA cache' n).getD ""), cache')

/-- The "verify dependencies are consistent" loop: every key of the map is
re-pointed at the canonical cached version-spec. -/
def normalizeMap (gd : String → String) (deps cache : DepMap) : DepMap × DepMap :=
  (keysA deps).foldl (normStep gd) (deps, cache)

/-- One step of the missing-dependency loop over the normalized import names. -/
def missStep (gd : String → String) (missExc : List String) :
    DepMap × DepMap × List String → String → DepMap × DepMap × List String
  | (deps, cache, msgs), n =>
    if n ∈ missExc then (deps, cache, msgs)
    else if n = "." ∨ n = ".." then (deps, cache, msgs)
    else if (lookupT deps n).isSome then (deps, cache, msgs)
    else
      let cache' := resolveDep gd cache n
      (setA deps n ((lookupA cache' n).getD ""), cache',
        msgs ++ ["Missing dependency: " ++ n])

/-- One step of the unused-dependency loop over the snapshot of `deps` keys. -/
def unusedStep (unusedExc : List String) (names : List String) :
    DepMap × List String → String → DepMap × List String
  | (deps, msgs), n =>
    if n ∈ unusedExc then (deps, msgs)
    else if n ∈ names then (deps, msgs)
    else (eraseA deps n, msgs ++ ["Unused dependency: " ++ n])

/-- Normalization of a raw import specifier to a package identity:
`parts = name.split('/')`; a specifier starting with `@` keeps two segments,
anything else keeps the first segment.  (For a scoped specifier without a
slash JavaScript produces the literal `undefined` as the second segment.) -/
def normalizeImport (s : String) : String :=
  let parts := splitOnC '/' s.toList
  if s.toList.head? = some '@' then
    String.mk (parts.getD 0 [] ++ '/' :: parts.getD 1 "undefined".toList)
  else
    String.mk (parts.getD 0 [])

/-- The generated aggregator line for one package: `'import "' + name + '";\n'`. -/
def importLine (n : String) : String := "import \"" ++ n ++ "\";\n"

/-- The TypeScript import extractor applied to the aggregator's generated index
source: every line of the shape `import "N";` contributes its literal specifier
`N`.  This models the external parser collaborator on the restricted grammar the
generator emits (a text line `import "N";` is exactly an import declaration with
module specifier `N`). -/
def parseImportLine (l : List Char) : Option (List Char) :=
  if l.take 8 = "import \"".toList ∧ 10 ≤ l.length ∧
      l.drop (l.length - 2) = "\";".toList then
    some ((l.drop 8).take (l.length - 10))
  else none

/-- All import specifiers of the generated index text. -/
def extractIndex (idx : String) : List String :=
  (splitOnC '\n' idx.toList).filterMap (fun l => (parseImportLine l).map String.mk)

/-- The normalized package-identity list of a package's source files: the raw
specifiers of all files, deduplicated (`new Set`), sorted (`Array.sort`), and
each normalized to its package identity. -/
def importNames (fls : List (List String)) : List String :=
  (sortStr (dedup fls.flatten)).map normalizeImport

/-- Persist one package manifest (state part): write only when the canonical
serialized form differs from what is on disk. -/
def persistSt (st : WorkState) (pkgName : String) (data : Package) : WorkState :=
  if findP st.disk pkgName = some data then st
  else { st with disk := setP st.disk pkgName data }

/-- Persist one package manifest (message part): report
`"Package data changed"` exactly when the write happened. -/
def persistMsgs (st : WorkState) (pkgName : String) (data : Package)
    (msgs : List String) : List String :=
  if findP st.disk pkgName = some data then msgs
  else msgs ++ ["Package data changed"]

/-- Accumulator of the `ensureAllPackages` loop: the aggregator's dependency
map, the regenerated index lines, and the messages so far. -/
structure SyncAcc where
  aggDeps : DepMap
  lines : List String
  msgs : List String
deriving Repr, DecidableEq

/-- One step of `ensureAllPackages` for a candidate package `q`: skip the
aggregator itself; otherwise ensure a dependency entry (defaulting to a caret
range of `q`'s version), check the old index text references `q.name`, push the
generated import line, and record an `"Updated"` finding if either check failed. -/
def syncStep (index : String) (acc : SyncAcc) (q : Package) : SyncAcc :=
  if q.name = aggName then acc
  else
    let hit := (lookupT acc.aggDeps q.name).isSome
    let deps' := if hit then acc.aggDeps else setA acc.aggDeps q.name ("^" ++ q.version)
    let valid := hit && containsSub index q.name
    { aggDeps := deps',
      lines := acc.lines ++ [importLine q.name],
      msgs := if valid then acc.msgs else acc.msgs ++ ["Updated: " ++ q.name] }

/-- The synchronizer fold over the whole workspace: the aggregator's
dependency map, the regenerated index lines (three preserved header lines
followed by one generated import per other package), and the `"Updated"`
findings. -/
def syncAccOf (st : WorkState) (agg : Package) : SyncAcc :=
  st.mem.foldl (syncStep st.indexText)
    ⟨agg.dependencies, (splitLines st.indexText).take 3, []⟩

/-- The aggregator record after synchronization. -/
def aggAfter (st : WorkState) (agg : Package) : Package :=
  { agg with dependencies := (syncAccOf st agg).aggDeps }

/-- State part of `ensureAllPackages`: update the aggregator record, persist
its manifest if changed, and rewrite the index source if its regenerated text
differs. -/
def syncStateAfter (st : WorkState) (agg : Package) : WorkState :=
  let st' := persistSt { st with mem := setP st.mem aggName (aggAfter st agg) }
    aggName (aggAfter st agg)
  if joinLines (syncAccOf st agg).lines = st.indexText then st'
  else { st' with indexText := joinLines (syncAccOf st agg).lines }

/-- Message part of `ensureAllPackages`. -/
def syncMsgsOf (st : WorkState) (agg : Package) : List String :=
  let m := persistMsgs { st with mem := setP st.mem aggName (aggAfter st agg) }
    aggName (aggAfter st agg) (syncAccOf st agg).msgs
  if joinLines (syncAccOf st agg).lines = st.indexText then m
  else m ++ ["Index changed"]

/-- `ensureAllPackages`: synchronize the aggregator package with the whole
workspace.  The model assumes the workspace enumeration and the
`packages/*` glob agree (the repository's lerna configuration) and that the
aggregator manifest object is the workspace record of that name (Node's
`require` cache yields the same object in the script). -/
def ensureAllPackages (st : WorkState) : WorkState × List String :=
  match findP st.mem aggName with
  | none => (st, [])
  | some agg => (syncStateAfter st agg, syncMsgsOf st agg)

/-- The record after version normalization (step 1 of the validator). -/
def normData (gd : String → String) (cache : DepMap) (data : Package) : Package :=
  { data with
    dependencies := (normalizeMap gd data.dependencies cache).1
    devDependencies := (normalizeMap gd data.devDependencies
      (normalizeMap gd data.dependencies cache).2).1 }

/-- The cache after version normalization of both maps. -/
def normCache (gd : String → String) (cache : DepMap) (data : Package) : DepMap :=
  (normalizeMap gd data.devDependencies
    (normalizeMap gd data.dependencies cache).2).2

/-- The state after version normalization of one package. -/
def normStage (gd : String → String) (st : WorkState) (pkgName : String)
    (data : Package) : WorkState :=
  { st with
    mem := setP st.mem pkgName (normData gd st.cache data)
    cache := normCache gd st.cache data }

/-- The missing-dependency loop (step 4) on a dependency map. -/
def missOut (gd : String → String) (pkgName : String) (names : List String)
    (cache : DepMap) (deps : DepMap) : DepMap × DepMap × List String :=
  names.foldl (missStep gd (excList MISSING pkgName)) (deps, cache, [])

/-- The unused-dependency loop (step 5) over the key snapshot of a map. -/
def unusedOut (pkgName : String) (names : List String) (deps : DepMap) :
    DepMap × List String :=
  (keysA deps).foldl (unusedStep (excList UNUSED pkgName) names) (deps, [])

/-- Steps 4–5 of the validator (missing- and unused-dependency detection) on a
dependency map, producing the final map, the cache, and the findings. -/
def checkDeps (gd : String → String) (pkgName : String) (names : List String)
    (cache : DepMap) (deps : DepMap) : DepMap × DepMap × List String :=
  ((unusedOut pkgName names (missOut gd pkgName names cache deps).1).1,
   (missOut gd pkgName names cache deps).2.1,
   (missOut gd pkgName names cache deps).2.2 ++
     (unusedOut pkgName names (missOut gd pkgName names cache deps).1).2)

/-- The record visible to steps 3–6 of the validator: the current in-memory
record of the package, refetched after the synchronizer may have replaced it
(in the script, object aliasing makes this automatic). -/
def dataAt (st2 : WorkState) (pkgName : String) (data1 : Package) : Package :=
  (findP st2.mem pkgName).getD data1

/-- The dependency map, cache and findings after steps 4–5. -/
def ckOf (gd : String → String) (files : String → String → List (List String))
    (pkgName : String) (st2 : WorkState) (data1 : Package) :
    DepMap × DepMap × List String :=
  checkDeps gd pkgName (importNames (files st2.indexText pkgName)) st2.cache
    (dataAt st2 pkgName data1).dependencies

/-- The record after steps 4–5. -/
def data3Of (gd : String → String) (files : String → String → List (List String))
    (pkgName : String) (st2 : WorkState) (data1 : Package) : Package :=
  { dataAt st2 pkgName data1 with
    dependencies := (ckOf gd files pkgName st2 data1).1 }

/-- The working state after steps 4–5. -/
def st3Of (gd : String → String) (files : String → String → List (List String))
    (pkgName : String) (st2 : WorkState) (data1 : Package) : WorkState :=
  { st2 with
    mem := setP st2.mem pkgName (data3Of gd files pkgName st2 data1)
    cache := (ckOf gd files pkgName st2 data1).2.1 }

/-- Steps 3–6 of the validator, after normalization (and, for the aggregator,
synchronization): glob the source files, skip straight to the persist when
there are none, and otherwise run the missing- and unused-dependency checks
before persisting. -/
def validateRest (gd : String → String)
    (files : String → String → List (List String)) (pkgName : String)
    (st2 : WorkState) (msgs1 : List String) (data1 : Package) :
    WorkState × List String :=
  if (files st2.indexText pkgName).isEmpty then
    (persistSt st2 pkgName (dataAt st2 pkgName data1),
     persistMsgs st2 pkgName (dataAt st2 pkgName data1) msgs1)
  else
    (persistSt (st3Of gd files pkgName st2 data1) pkgName
       (data3Of gd files pkgName st2 data1),
     persistMsgs (st3Of gd files pkgName st2 data1) pkgName
       (data3Of gd files pkgName st2 data1)
       (msgs1 ++ (ckOf gd files pkgName st2 data1).2.2))

/-- `ensurePackage`: the per-package integrity validator.  `gd` is the external
version lookup; `files` is the source-scan plus import-extraction collaborator,
given the current aggregator index text (the script re-reads source files after
the synchronizer may have rewritten the index) and the package name, and
returning the raw import-specifier list of each matched source file. -/
def ensurePackage (gd : String → String)
    (files : String → String → List (List String))
    (st : WorkState) (pkgName : String) : WorkState × List String :=
  match findP st.mem pkgName with
  | none => (st, [])
  | some data =>
    if pkgName = aggName then
      validateRest gd files pkgName
        (ensureAllPackages (normStage gd st pkgName data)).1
        (ensureAllPackages (normStage gd st pkgName data)).2
        (normData gd st.cache data)
    else
      validateRest gd files pkgName (normStage gd st pkgName data) []
        (normData gd st.cache data)

/-- The root `devDependencies` map after hoisting every package's
`devDependencies` into it (last writer wins on a collision). -/
def topDev (st : WorkState) : DepMap :=
  st.mem.foldl (fun r p => p.devDependencies.foldl
    (fun r' kv => setA r' kv.1 kv.2) r) st.rootDev

/-- `ensureTop`: hoist every package's `devDependencies` into the root
manifest's `devDependencies`, persist the root manifest if it changed, and
report `"updated"` if so. -/
def ensureTop (st : WorkState) : WorkState × Option String :=
  if topDev st = st.rootDisk then ({ st with rootDev := topDev st }, none)
  else ({ st with rootDev := topDev st, rootDisk := topDev st }, some "updated")

/-- The structured report of one run: the optional `"top"` entry followed by
the per-package message lists (only non-empty ones), in processing order. -/
structure Report where
  top : Option String
  pkgMsgs : List (String × List String)
deriving Repr, DecidableEq

/-- The per-package validation loop of `ensureIntegrity`: validate each named
package in order, collecting the non-empty message lists in processing
order. -/
def runPackages (gd : String → String)
    (files : String → String → List (List String)) :
    WorkState → List String → WorkState × List (String × List String)
  | st, [] => (st, [])
  | st, n :: ns =>
    ((runPackages gd files (ensurePackage gd files st n).1 ns).1,
     (if (ensurePackage gd files st n).2.isEmpty then []
      else [(n, (ensurePackage gd files st n).2)]) ++
       (runPackages gd files (ensurePackage gd files st n).1 ns).2)

/-- Load the in-memory working state from disk at the start of a run; the
`seenDeps` cache starts empty. -/
def initWork (ds : DiskState) : WorkState :=
  { mem := ds.pkgs, disk := ds.pkgs, rootDev := ds.rootDev, rootDisk := ds.rootDev,
    indexText := ds.indexText, cache := [] }

/-- `ensureIntegrity`: one full run.  Load the workspace, hoist the root
manifest, validate every package in load order, and return the final on-disk
state together with the findings report. -/
def ensureIntegrity (gd : String → String)
    (files : String → String → List (List String)) (ds : DiskState) :
    DiskState × Report :=
  (⟨(runPackages gd files (ensureTop (initWork ds)).1
       (ds.pkgs.map Package.name)).1.disk,
    (runPackages gd files (ensureTop (initWork ds)).1
       (ds.pkgs.map Package.name)).1.rootDisk,
    (runPackages gd files (ensureTop (initWork ds)).1
       (ds.pkgs.map Package.name)).1.indexText⟩,
   ⟨(ensureTop (initWork ds)).2,
    (runPackages gd files (ensureTop (initWork ds)).1
       (ds.pkgs.map Package.name)).2⟩)

/-- The source-file collaborator as the repository is actually laid out: the
aggregator's `src/` directory contains the generated `index.ts` (so its glob
result includes the current index text's imports) next to any other source
files; every other package's source files are independent of the index. -/
def stdGlob (base : String → List (List String)) :
    String → String → List (List String) :=
  fun idx n => if n = aggName then extractIndex idx :: base n else base n

/-! ### Lemmas about the association-list operations -/

theorem lookupA_setA_self (m : DepMap) (k v : String) :
    lookupA (setA m k v) k = some v := by
  induction m with
  | nil => simp [setA, lookupA]
  | cons kv t ih =>
    obtain ⟨a, b⟩ := kv
    by_cases h : a = k <;> simp [setA, lookupA, h, ih]

theorem lookupA_setA_ne (m : DepMap) (k v k' : String) (h : k' ≠ k) :
    lookupA (setA m k v) k' = lookupA m k' := by
  have h' : ¬ k = k' := fun hh => h hh.symm
  induction m with
  | nil => simp [setA, lookupA, h']
  | cons kv t ih =>
    obtain ⟨a, b⟩ := kv
    by_cases ha : a = k
    · subst ha
      simp [setA, lookupA, h']
    · by_cases ha' : a = k'
      · subst ha'
        simp [setA, lookupA, ha, h']
      · simp [setA, lookupA, ha, ha', ih]

theorem keysA_setA_of_mem (m : DepMap) (k v : String) (h : k ∈ keysA m) :
    keysA (setA m k v) = keysA m := by
  induction m with
  | nil => simp [keysA] at h
  | cons kv t ih =>
    obtain ⟨a, b⟩ := kv
    by_cases ha : a = k
    · simp [setA, keysA, ha]
    · simp only [keysA, List.map_cons, List.mem_cons] at h
      rcases h with h | h
      · exact absurd h.symm ha
      · simpa [setA, keysA, ha] using ih h

theorem keysA_setA_of_not_mem (m : DepMap) (k v : String) (h : k ∉ keysA m) :
    keysA (setA m k v) = keysA m ++ [k] := by
  induction m with
  | nil => simp [setA, keysA]
  | cons kv t ih =>
    obtain ⟨a, b⟩ := kv
    simp only [keysA, List.map_cons, List.mem_cons] at h
    push_neg at h
    have ha : ¬ a = k := fun hh => h.1 hh.symm
    have ih' := ih h.2
    simp only [keysA] at ih'
    simp [setA, keysA, ha, ih']

theorem mem_keysA_setA (m : DepMap) (k v k' : String) :
    k' ∈ keysA (setA m k v) ↔ k' ∈ keysA m ∨ k' = k := by
  by_cases h : k ∈ keysA m
  · rw [keysA_setA_of_mem m k v h]
    constructor
    · exact Or.inl
    · rintro (hh | rfl) <;> [exact hh; exact h]
  · rw [keysA_setA_of_not_mem m k v h]
    simp

theorem nodup_keysA_setA (m : DepMap) (k v : String) (h : (keysA m).Nodup) :
    (keysA (setA m k v)).Nodup := by
  by_cases hm : k ∈ keysA m
  · rwa [keysA_setA_of_mem m k v hm]
  · rw [keysA_setA_of_not_mem m k v hm]
    simpa [List.nodup_append] using ⟨h, hm⟩

theorem lookupA_isSome_iff (m : DepMap) (k : String) :
    (lookupA m k).isSome = true ↔ k ∈ keysA m := by
  induction m with
  | nil => simp [lookupA, keysA]
  | cons kv t ih =>
    obtain ⟨a, b⟩ := kv
    by_cases h : a = k
    · simp [lookupA, keysA, h]
    · have h' : ¬ k = a := fun hh => h hh.symm
      simp [lookupA, keysA, h, h', ih]

theorem lookupA_eq_none_iff (m : DepMap) (k : String) :
    lookupA m k = none ↔ k ∉ keysA m := by
  rw [← lookupA_isSome_iff]
  cases lookupA m k <;> simp

theorem lookupA_mem (m : DepMap) (k v : String) (h : lookupA m k = some v) :
    (k, v) ∈ m := by
  induction m with
  | nil => simp [lookupA] at h
  | cons kv t ih =>
    obtain ⟨a, b⟩ := kv
    by_cases ha : a = k
    · subst ha
      simp only [lookupA, if_pos, Option.some.injEq, reduceIte] at h
      subst h; exact List.mem_cons_self _ _
    · simp only [lookupA, if_neg ha] at h
      exact List.mem_cons_of_mem _ (ih h)

theorem hasKey_iff (m : DepMap) (k : String) :
    hasKey m k = true ↔ k ∈ keysA m := by
  induction m with
  | nil => simp [hasKey, keysA]
  | cons kv t ih =>
    obtain ⟨a, b⟩ := kv
    by_cases h : a = k
    · simp [hasKey, keysA, h]
    · have h' : ¬ k = a := fun hh => h hh.symm
      simp [hasKey, keysA, h, h', ih]

theorem lookupA_append (m l : DepMap) (k : String) :
    lookupA (m ++ l) k =
      match lookupA m k with
      | some v => some v
      | none => lookupA l k := by
  induction m with
  | nil => simp [lookupA]
  | cons kv t ih =>
    obtain ⟨a, b⟩ := kv
    by_cases h : a = k <;> simp [lookupA, h, ih]

theorem mem_setA (m : DepMap) (k v : String) (kv : String × String)
    (h : kv ∈ setA m k v) : kv ∈ m ∨ kv = (k, v) := by
  induction m with
  | nil => simp [setA] at h; exact Or.inr h
  | cons hd t ih =>
    obtain ⟨a, b⟩ := hd
    by_cases ha : a = k
    · subst ha
      simp only [setA, reduceIte, List.mem_cons] at h
      rcases h with h | h
      · exact Or.inr h
      · exact Or.inl (List.mem_cons_of_mem _ h)
    · simp only [setA, if_neg ha, List.mem_cons] at h
      rcases h with h | h
      · exact Or.inl (List.mem_cons.mpr (Or.inl h))
      · rcases ih h with h' | h'
        · exact Or.inl (List.mem_cons_of_mem _ h')
        · exact Or.inr h'

theorem setA_eq_self (m : DepMap) (k v : String) (h : lookupA m k = some v) :
    setA m k v = m := by
  induction m with
  | nil => simp [lookupA] at h
  | cons kv t ih =>
    obtain ⟨a, b⟩ := kv
    by_cases ha : a = k
    · subst ha
      simp only [lookupA, reduceIte, Option.some.injEq] at h
      simp [setA, h]
    · simp only [lookupA, if_neg ha] at h
      simp [setA, ha, ih h]

theorem lookupA_eraseA_ne (m : DepMap) (k k' : String) (h : k' ≠ k) :
    lookupA (eraseA m k) k' = lookupA m k' := by
  induction m with
  | nil => simp [eraseA]
  | cons kv t ih =>
    obtain ⟨a, b⟩ := kv
    by_cases ha : a = k
    · subst ha
      have ha' : ¬ a = k' := fun hh => h hh.symm
      simp [eraseA, lookupA, ha']
    · simp [eraseA, lookupA, ha, ih]

theorem lookupA_eraseA_self (m : DepMap) (k : String) (h : (keysA m).Nodup) :
    lookupA (eraseA m k) k = none := by
  induction m with
  | nil => simp [eraseA, lookupA]
  | cons kv t ih =>
    obtain ⟨a, b⟩ := kv
    simp only [keysA, List.map_cons, List.nodup_cons] at h
    by_cases ha : a = k
    · subst ha
      simp only [eraseA, if_pos rfl]
      rw [lookupA_eq_none_iff]
      exact h.1
    · simp [eraseA, lookupA, ha, ih h.2]

theorem keysA_eraseA_sublist (m : DepMap) (k : String) :
    List.Sublist (keysA (eraseA m k)) (keysA m) := by
  induction m with
  | nil => simp [eraseA]
  | cons kv t ih =>
    obtain ⟨a, b⟩ := kv
    by_cases ha : a = k
    · simp only [eraseA, if_pos ha, keysA, List.map_cons]
      exact List.sublist_cons_self a (List.map Prod.fst t)
    · simp only [eraseA, if_neg ha, keysA, List.map_cons]
      exact List.Sublist.cons₂ a ih

theorem nodup_keysA_eraseA (m : DepMap) (k : String) (h : (keysA m).Nodup) :
    (keysA (eraseA m k)).Nodup :=
  (keysA_eraseA_sublist m k).nodup h

theorem mem_eraseA (m : DepMap) (k : String) (kv : String × String)
    (h : kv ∈ eraseA m k) : kv ∈ m := by
  induction m with
  | nil => simp [eraseA] at h
  | cons hd t ih =>
    obtain ⟨a, b⟩ := hd
    by_cases ha : a = k
    · simp only [eraseA, if_pos ha] at h
      exact List.mem_cons_of_mem _ h
    · simp only [eraseA, if_neg ha, List.mem_cons] at h
      rcases h with rfl | h
      · exact List.mem_cons_self _ _
      · exact List.mem_cons_of_mem _ (ih h)

theorem lookupT_eq_some_iff (m : DepMap) (k v : String) :
    lookupT m k = some v ↔ lookupA m k = some v ∧ v ≠ "" := by
  unfold lookupT
  cases h : lookupA m k with
  | none => simp
  | some w =>
    by_cases hw : w = "" <;> simp [hw] <;> aesop

theorem lookupT_isSome_of_lookupA (m : DepMap) (k v : String)
    (h : lookupA m k = some v) (hv : v ≠ "") : (lookupT m k).isSome = true := by
  unfold lookupT
  rw [h]
  simp [hv]

/-! ### Lemmas about the dependency cache -/

/-- Invariant of the `seenDeps` cache: every cached entry is the external
lookup's answer for its name. -/
def CacheWF (gd : String → String) (c : DepMap) : Prop :=
  ∀ kv ∈ c, kv.2 = gd kv.1

theorem cacheWF_nil (gd : String → String) : CacheWF gd [] := by
  intro kv h
  simp at h

theorem cacheWF_resolveDep (gd : String → String) (c : DepMap) (n : String)
    (h : CacheWF gd c) : CacheWF gd (resolveDep gd c n) := by
  unfold resolveDep
  by_cases hk : hasKey c n
  · simpa [hk]
  · simp only [hk, if_neg, Bool.false_eq_true, not_false_eq_true]
    intro kv hkv
    rcases List.mem_append.mp hkv with hkv | hkv
    · exact h kv hkv
    · simp at hkv
      subst hkv
      rfl

theorem lookupA_resolveDep_self (gd : String → String) (c : DepMap) (n : String)
    (h : CacheWF gd c) : lookupA (resolveDep gd c n) n = some (gd n) := by
  unfold resolveDep
  by_cases hk : hasKey c n
  · simp only [hk, if_pos]
    have hmem : n ∈ keysA c := (hasKey_iff c n).mp hk
    obtain ⟨v, hv⟩ := Option.isSome_iff_exists.mp ((lookupA_isSome_iff c n).mpr hmem)
    rw [hv]
    have := h (n, v) (lookupA_mem c n v hv)
    simp at this
    rw [this]
  · simp only [hk, Bool.false_eq_true, if_neg, not_false_eq_true]
    rw [lookupA_append]
    have : lookupA c n = none := by
      rw [lookupA_eq_none_iff]
      exact fun hm => hk ((hasKey_iff c n).mpr hm)
    rw [this]
    simp [lookupA]

/-! ### Lemmas about package lookup and replacement -/

theorem findP_mem (ps : List Package) (n : String) (p : Package)
    (h : findP ps n = some p) : p ∈ ps ∧ p.name = n := by
  induction ps with
  | nil => simp [findP] at h
  | cons q t ih =>
    by_cases hq : q.name = n
    · simp only [findP, if_pos hq, Option.some.injEq] at h
      subst h
      exact ⟨List.mem_cons_self _ _, hq⟩
    · simp only [findP, if_neg hq] at h
      exact ⟨List.mem_cons_of_mem _ (ih h).1, (ih h).2⟩

theorem findP_setP_self (ps : List Package) (n : String) (p q : Package)
    (h : findP ps n = some p) (hq : q.name = n) :
    findP (setP ps n q) n = some q := by
  induction ps with
  | nil => simp [findP] at h
  | cons r t ih =>
    by_cases hr : r.name = n
    · simp [setP, findP, hr, hq]
    · simp only [findP, if_neg hr] at h
      simp [setP, findP, hr, ih h]

theorem findP_setP_ne (ps : List Package) (n n' : String) (q : Package)
    (hq : q.name = n) (h : n' ≠ n) :
    findP (setP ps n q) n' = findP ps n' := by
  have hn : ¬ n = n' := fun hh => h hh.symm
  have hq' : ¬ q.name = n' := fun hh => h (hh.symm.trans hq)
  induction ps with
  | nil => simp [setP, findP]
  | cons r t ih =>
    by_cases hr : r.name = n
    · have hr' : ¬ r.name = n' := fun hh => h (hh.symm.trans hr)
      simp [setP, findP, hr, hq', hr', hn]
    · by_cases hr' : r.name = n'
      · simp [setP, findP, hr, hr', h]
      · simp [setP, findP, hr, hr', ih]

theorem setP_eq_self (ps : List Package) (n : String) (p : Package)
    (h : findP ps n = some p) : setP ps n p = ps := by
  induction ps with
  | nil => rfl
  | cons r t ih =>
    by_cases hr : r.name = n
    · simp only [findP, if_pos hr, Option.some.injEq] at h
      subst h
      simp [setP, hr]
    · simp only [findP, if_neg hr] at h
      simp [setP, hr, ih h]

theorem map_name_setP (ps : List Package) (n : String) (q : Package)
    (hq : q.name = n) : (setP ps n q).map Package.name = ps.map Package.name := by
  induction ps with
  | nil => rfl
  | cons r t ih =>
    by_cases hr : r.name = n
    · simp [setP, hr, hq]
    · simp [setP, hr, ih]

theorem mem_setP (ps : List Package) (n : String) (q p : Package)
    (h : p ∈ setP ps n q) : p ∈ ps ∨ p = q := by
  induction ps with
  | nil => simp [setP] at h
  | cons r t ih =>
    by_cases hr : r.name = n
    · simp only [setP, if_pos hr, List.mem_cons] at h
      rcases h with rfl | h
      · exact Or.inr rfl
      · exact Or.inl (List.mem_cons_of_mem _ h)
    · simp only [setP, if_neg hr, List.mem_cons] at h
      rcases h with rfl | h
      · exact Or.inl (List.mem_cons_self _ _)
      · rcases ih h with h' | h'
        · exact Or.inl (List.mem_cons_of_mem _ h')
        · exact Or.inr h'

/-! ### String helpers for message discrimination -/

theorem string_append_left_inj (p a b : String) (h : p ++ a = p ++ b) : a = b := by
  have h' := congrArg String.data h
  rw [String.data_append, String.data_append] at h'
  exact String.ext (List.append_cancel_left h')

theorem string_append_ne_of_take3 (p q a b : String)
    (hp : 3 ≤ p.data.length) (hq : 3 ≤ q.data.length)
    (h3 : p.data.take 3 ≠ q.data.take 3) : p ++ a ≠ q ++ b := by
  intro h
  have h' := congrArg (fun s => s.data.take 3) h
  simp only [String.data_append] at h'
  rw [List.take_append_of_le_length hp, List.take_append_of_le_length hq] at h'
  exact h3 h'

theorem missing_ne_unused (a b : String) :
    "Missing dependency: " ++ a ≠ "Unused dependency: " ++ b :=
  string_append_ne_of_take3 _ _ a b (by decide) (by decide) (by decide)

theorem missing_ne_updated (a b : String) :
    "Missing dependency: " ++ a ≠ "Updated: " ++ b :=
  string_append_ne_of_take3 _ _ a b (by decide) (by decide) (by decide)

theorem unused_ne_updated (a b : String) :
    "Unused dependency: " ++ a ≠ "Updated: " ++ b :=
  string_append_ne_of_take3 _ _ a b (by decide) (by decide) (by decide)

theorem missing_ne_pdc (a : String) :
    "Missing dependency: " ++ a ≠ "Package data changed" := by
  have := string_append_ne_of_take3 "Missing dependency: " "Package data changed" a ""
    (by decide) (by decide) (by decide)
  simpa using this

theorem unused_ne_pdc (a : String) :
    "Unused dependency: " ++ a ≠ "Package data changed" := by
  have := string_append_ne_of_take3 "Unused dependency: " "Package data changed" a ""
    (by decide) (by decide) (by decide)
  simpa using this

theorem missing_ne_index (a : String) :
    "Missing dependency: " ++ a ≠ "Index changed" := by
  have := string_append_ne_of_take3 "Missing dependency: " "Index changed" a ""
    (by decide) (by decide) (by decide)
  simpa using this

theorem unused_ne_index (a : String) :
    "Unused dependency: " ++ a ≠ "Index changed" := by
  have := string_append_ne_of_take3 "Unused dependency: " "Index changed" a ""
    (by decide) (by decide) (by decide)
  simpa using this

theorem caret_ne_empty (v : String) : "^" ++ v ≠ "" := by
  intro h
  have h' := congrArg String.data h
  simp [String.data_append] at h'

/-! ### Characterization of the normalization loop -/

/-- Re-pointing every entry of a map at the canonical resolved version. -/
def mapVals (gd : String → String) (m : DepMap) : DepMap :=
  m.map (fun kv => (kv.1, gd kv.1))

theorem keysA_mapVals (gd : String → String) (m : DepMap) :
    keysA (mapVals gd m) = keysA m := by
  induction m with
  | nil => rfl
  | cons kv t ih =>
    obtain ⟨a, b⟩ := kv
    have hcons : mapVals gd ((a, b) :: t) = (a, gd a) :: mapVals gd t := rfl
    rw [hcons]
    simp only [keysA, List.map_cons]
    exact congrArg (a :: ·) ih

theorem mem_mapVals (gd : String → String) (m : DepMap) (kv : String × String)
    (h : kv ∈ mapVals gd m) : kv.2 = gd kv.1 ∧ kv.1 ∈ keysA m := by
  simp only [mapVals, List.mem_map] at h
  obtain ⟨⟨a, b⟩, hab, rfl⟩ := h
  exact ⟨rfl, List.mem_map.mpr ⟨(a, b), hab, rfl⟩⟩

theorem lookupA_mapVals (gd : String → String) (m : DepMap) (k : String) :
    lookupA (mapVals gd m) k = (lookupA m k).map (fun _ => gd k) := by
  induction m with
  | nil => simp [mapVals, lookupA]
  | cons kv t ih =>
    obtain ⟨a, b⟩ := kv
    have hcons : mapVals gd ((a, b) :: t) = (a, gd a) :: mapVals gd t := rfl
    rw [hcons]
    by_cases h : a = k
    · subst h
      simp [lookupA]
    · simp only [lookupA, if_neg h]
      exact ih

theorem mapVals_eq_self (gd : String → String) (m : DepMap)
    (h : ∀ kv ∈ m, kv.2 = gd kv.1) : mapVals gd m = m := by
  induction m with
  | nil => rfl
  | cons kv t ih =>
    obtain ⟨a, b⟩ := kv
    have hb : b = gd a := h (a, b) (List.mem_cons_self _ _)
    simp only [mapVals, List.map_cons]
    rw [← hb]
    have := ih (fun kv hkv => h kv (List.mem_cons_of_mem _ hkv))
    simp only [mapVals] at this
    rw [this]

/-- The per-key update the normalization loop applies, abstracted from the
cache state. -/
def applyAll (gd : String → String) (ks : List String) (m : DepMap) : DepMap :=
  ks.foldl (fun d k => setA d k (gd k)) m

theorem normFold_eq_applyAll (gd : String → String) (ks : List String) :
    ∀ (deps cache : DepMap), CacheWF gd cache →
    (ks.foldl (normStep gd) (deps, cache)).1 = applyAll gd ks deps ∧
      CacheWF gd (ks.foldl (normStep gd) (deps, cache)).2 := by
  induction ks with
  | nil => intro deps cache hc; exact ⟨rfl, hc⟩
  | cons k t ih =>
    intro deps cache hc
    have hwf := cacheWF_resolveDep gd cache k hc
    have hlk := lookupA_resolveDep_self gd cache k hc
    have hstep : normStep gd (deps, cache) k =
        (setA deps k (gd k), resolveDep gd cache k) := by
      simp [normStep, hlk]
    rw [List.foldl_cons, hstep]
    exact ih (setA deps k (gd k)) (resolveDep gd cache k) hwf

theorem applyAll_cons_of_not_mem (gd : String → String) (ks : List String)
    (a w : String) (t : DepMap) (h : a ∉ ks) :
    applyAll gd ks ((a, w) :: t) = (a, w) :: applyAll gd ks t := by
  induction ks generalizing t with
  | nil => rfl
  | cons k kt ih =>
    have hk : ¬ a = k := fun hh => h (by simp [hh])
    have h' : a ∉ kt := fun hh => h (List.mem_cons_of_mem _ hh)
    have hset : setA ((a, w) :: t) k (gd k) = (a, w) :: setA t k (gd k) := by
      simp [setA, hk]
    show applyAll gd kt (setA ((a, w) :: t) k (gd k)) =
      (a, w) :: applyAll gd kt (setA t k (gd k))
    rw [hset]
    exact ih (setA t k (gd k)) h'

theorem applyAll_keysA (gd : String → String) (m : DepMap)
    (h : (keysA m).Nodup) : applyAll gd (keysA m) m = mapVals gd m := by
  induction m with
  | nil => rfl
  | cons kv t ih =>
    obtain ⟨a, b⟩ := kv
    simp only [keysA, List.map_cons, List.nodup_cons] at h
    simp only [keysA, List.map_cons, mapVals]
    simp only [applyAll, List.foldl_cons, setA, reduceIte]
    have step : applyAll gd (List.map Prod.fst t) ((a, gd a) :: t) =
        (a, gd a) :: applyAll gd (List.map Prod.fst t) t :=
      applyAll_cons_of_not_mem gd _ a (gd a) t h.1
    simp only [applyAll] at step
    rw [step]
    have := ih h.2
    simp only [applyAll, keysA, mapVals] at this
    rw [this]

theorem normalizeMap_spec (gd : String → String) (deps cache : DepMap)
    (hc : CacheWF gd cache) (hnd : (keysA deps).Nodup) :
    (normalizeMap gd deps cache).1 = mapVals gd deps ∧
      CacheWF gd (normalizeMap gd deps cache).2 := by
  have h := normFold_eq_applyAll gd (keysA deps) deps cache hc
  refine ⟨?_, h.2⟩
  rw [normalizeMap] at *
  rw [h.1, applyAll_keysA gd deps hnd]

/-! ### Lemmas about the missing-dependency detection fold -/

/-- The missing-dependency finding text for an identity. -/
def missMsg (x : String) : String := "Missing dependency: " ++ x

theorem missMsg_inj (x y : String) (h : missMsg x = missMsg y) : x = y :=
  string_append_left_inj _ x y h

/-- Whenever `x` is excepted, relative, or already truthy in the map, the
missing-dependency loop leaves its entry and its finding count alone. -/
theorem missFold_preserve (gd : String → String) (exc : List String)
    (ns : List String) :
    ∀ (deps cache : DepMap) (msgs : List String) (x : String),
    (x ∈ exc ∨ x = "." ∨ x = ".." ∨ (lookupT deps x).isSome = true) →
    lookupA (ns.foldl (missStep gd exc) (deps, cache, msgs)).1 x = lookupA deps x ∧
    (ns.foldl (missStep gd exc) (deps, cache, msgs)).2.2.count (missMsg x) =
      msgs.count (missMsg x) := by
  induction ns with
  | nil => intro deps cache msgs x _; exact ⟨rfl, rfl⟩
  | cons n t ih =>
    intro deps cache msgs x hx
    rw [List.foldl_cons]
    by_cases hexc : n ∈ exc
    · rw [show missStep gd exc (deps, cache, msgs) n = (deps, cache, msgs) by
        simp [missStep, hexc]]
      exact ih deps cache msgs x hx
    · by_cases hdot : n = "." ∨ n = ".."
      · rw [show missStep gd exc (deps, cache, msgs) n = (deps, cache, msgs) by
          simp [missStep, hexc, hdot]]
        exact ih deps cache msgs x hx
      · by_cases htr : (lookupT deps n).isSome = true
        · rw [show missStep gd exc (deps, cache, msgs) n = (deps, cache, msgs) by
            simp [missStep, hexc, hdot, htr]]
          exact ih deps cache msgs x hx
        · have hnx : n ≠ x := by
            rintro rfl
            rcases hx with h | h | h | h
            · exact hexc h
            · exact hdot (Or.inl h)
            · exact hdot (Or.inr h)
            · exact htr h
          rw [show missStep gd exc (deps, cache, msgs) n =
              (setA deps n ((lookupA (resolveDep gd cache n) n).getD ""),
                resolveDep gd cache n, msgs ++ [missMsg n]) by
            simp [missStep, hexc, hdot, htr, missMsg]]
          have hx' : x ∈ exc ∨ x = "." ∨ x = ".." ∨
              (lookupT (setA deps n ((lookupA (resolveDep gd cache n) n).getD "")) x).isSome
                = true := by
            rcases hx with h | h | h | h
            · exact Or.inl h
            · exact Or.inr (Or.inl h)
            · exact Or.inr (Or.inr (Or.inl h))
            · refine Or.inr (Or.inr (Or.inr ?_))
              unfold lookupT at h ⊢
              rw [lookupA_setA_ne deps n _ x (fun hh => hnx hh.symm)]
              exact h
          obtain ⟨h1, h2⟩ := ih _ _ _ x hx'
          refine ⟨?_, ?_⟩
          · rw [h1, lookupA_setA_ne deps n _ x (fun hh => hnx hh.symm)]
          · rw [h2, List.count_append]
            have : (missMsg x ≠ missMsg n) := fun hh => hnx (missMsg_inj _ _ hh).symm
            simp [List.count_singleton', this]

/-- A genuinely missing identity is added at the canonical version, with
exactly one new finding. -/
theorem missFold_triggers (gd : String → String) (exc : List String)
    (ns : List String) :
    ∀ (deps cache : DepMap) (msgs : List String) (x : String),
    CacheWF gd cache → gd x ≠ "" →
    x ∈ ns → x ∉ exc → x ≠ "." → x ≠ ".." → lookupT deps x = none →
    lookupA (ns.foldl (missStep gd exc) (deps, cache, msgs)).1 x = some (gd x) ∧
    (ns.foldl (missStep gd exc) (deps, cache, msgs)).2.2.count (missMsg x) =
      msgs.count (missMsg x) + 1 := by
  induction ns with
  | nil => intro deps cache msgs x _ _ hmem _ _ _ _; simp at hmem
  | cons n t ih =>
    intro deps cache msgs x hc hgd hmem hexc hd1 hd2 hnone
    rw [List.foldl_cons]
    by_cases hnx : n = x
    · subst hnx
      have htr : ¬ (lookupT deps n).isSome = true := by rw [hnone]; simp
      have hdot : ¬ (n = "." ∨ n = "..") := by
        rintro (h | h)
        exacts [hd1 h, hd2 h]
      rw [show missStep gd exc (deps, cache, msgs) n =
          (setA deps n ((lookupA (resolveDep gd cache n) n).getD ""),
            resolveDep gd cache n, msgs ++ [missMsg n]) by
        simp [missStep, hexc, hdot, htr, missMsg]]
      have hval : (lookupA (resolveDep gd cache n) n).getD "" = gd n := by
        rw [lookupA_resolveDep_self gd cache n hc]
        rfl
      rw [hval]
      have hsome : (lookupT (setA deps n (gd n)) n).isSome = true := by
        unfold lookupT
        rw [lookupA_setA_self]
        simp [hgd]
      obtain ⟨h1, h2⟩ := missFold_preserve gd exc t (setA deps n (gd n))
        (resolveDep gd cache n) (msgs ++ [missMsg n]) n
        (Or.inr (Or.inr (Or.inr hsome)))
      refine ⟨?_, ?_⟩
      · rw [h1, lookupA_setA_self]
      · rw [h2, List.count_append]
        simp [List.count_singleton']
    · have hmem' : x ∈ t := by
        rcases List.mem_cons.mp hmem with h | h
        · exact absurd h.symm hnx
        · exact h
      by_cases hexcn : n ∈ exc
      · rw [show missStep gd exc (deps, cache, msgs) n = (deps, cache, msgs) by
          simp [missStep, hexcn]]
        exact ih deps cache msgs x hc hgd hmem' hexc hd1 hd2 hnone
      · by_cases hdot : n = "." ∨ n = ".."
        · rw [show missStep gd exc (deps, cache, msgs) n = (deps, cache, msgs) by
            simp [missStep, hexcn, hdot]]
          exact ih deps cache msgs x hc hgd hmem' hexc hd1 hd2 hnone
        · by_cases htr : (lookupT deps n).isSome = true
          · rw [show missStep gd exc (deps, cache, msgs) n = (deps, cache, msgs) by
              simp [missStep, hexcn, hdot, htr]]
            exact ih deps cache msgs x hc hgd hmem' hexc hd1 hd2 hnone
          · rw [show missStep gd exc (deps, cache, msgs) n =
                (setA deps n ((lookupA (resolveDep gd cache n) n).getD ""),
                  resolveDep gd cache n, msgs ++ [missMsg n]) by
              simp [missStep, hexcn, hdot, htr, missMsg]]
            have hc' := cacheWF_resolveDep gd cache n hc
            have hnone' :
                lookupT (setA deps n ((lookupA (resolveDep gd cache n) n).getD "")) x
                  = none := by
              unfold lookupT
              rw [lookupA_setA_ne deps n _ x (fun hh => hnx hh.symm)]
              unfold lookupT at hnone
              exact hnone
            obtain ⟨h1, h2⟩ := ih _ _ _ x hc' hgd hmem' hexc hd1 hd2 hnone'
            refine ⟨h1, ?_⟩
            rw [h2, List.count_append]
            have : (missMsg x ≠ missMsg n) := fun hh => hnx (missMsg_inj _ _ hh).symm
            simp [List.count_singleton', this]

/-- If every name in the list is excepted, relative, or already truthy, the
missing-dependency loop is a complete no-op. -/
theorem missFold_noop (gd : String → String) (exc : List String) (ns : List String) :
    ∀ (deps cache : DepMap) (msgs : List String),
    (∀ n ∈ ns, n ∈ exc ∨ n = "." ∨ n = ".." ∨ (lookupT deps n).isSome = true) →
    ns.foldl (missStep gd exc) (deps, cache, msgs) = (deps, cache, msgs) := by
  induction ns with
  | nil => intro deps cache msgs _; rfl
  | cons n t ih =>
    intro deps cache msgs h
    have hn := h n (List.mem_cons_self _ _)
    have hstep : missStep gd exc (deps, cache, msgs) n = (deps, cache, msgs) := by
      rcases hn with h' | h' | h' | h'
      · simp [missStep, h']
      · simp [missStep, h']
      · simp [missStep, h']
      · by_cases hexc : n ∈ exc
        · simp [missStep, hexc]
        · by_cases hdot : n = "." ∨ n = ".."
          · simp [missStep, hexc, hdot]
          · simp [missStep, hexc, hdot, h']
    rw [List.foldl_cons, hstep]
    exact ih deps cache msgs (fun n' hn' => h n' (List.mem_cons_of_mem _ hn'))

/-- After the missing-dependency loop, every processed name is excepted,
relative, or truthy in the resulting map. -/
theorem missFold_skip_post (gd : String → String) (exc : List String)
    (ns : List String) (deps cache : DepMap) (msgs : List String)
    (hc : CacheWF gd cache) (hgd : ∀ n, gd n ≠ "") :
    ∀ x ∈ ns, x ∈ exc ∨ x = "." ∨ x = ".." ∨
      (lookupT (ns.foldl (missStep gd exc) (deps, cache, msgs)).1 x).isSome = true := by
  intro x hx
  by_cases hexc : x ∈ exc
  · exact Or.inl hexc
  · by_cases hd1 : x = "."
    · exact Or.inr (Or.inl hd1)
    · by_cases hd2 : x = ".."
      · exact Or.inr (Or.inr (Or.inl hd2))
      · refine Or.inr (Or.inr (Or.inr ?_))
        by_cases htr : (lookupT deps x).isSome = true
        · obtain ⟨h1, _⟩ := missFold_preserve gd exc ns deps cache msgs x
            (Or.inr (Or.inr (Or.inr htr)))
          unfold lookupT at htr ⊢
          rw [h1]
          exact htr
        · have hnone : lookupT deps x = none := by
            cases h : lookupT deps x
            · rfl
            · rw [h] at htr; simp at htr
          obtain ⟨h1, _⟩ := missFold_triggers gd exc ns deps cache msgs x hc
            (hgd x) hx hexc hd1 hd2 hnone
          unfold lookupT
          rw [h1]
          simp [hgd x]

/-- The missing-dependency loop only ever adds canonically-resolved entries. -/
theorem missFold_entries (gd : String → String) (exc : List String)
    (ns : List String) (P : String × String → Prop) :
    ∀ (deps cache : DepMap) (msgs : List String),
    CacheWF gd cache → (∀ kv ∈ deps, P kv) → (∀ n, P (n, gd n)) →
    ∀ kv ∈ (ns.foldl (missStep gd exc) (deps, cache, msgs)).1, P kv := by
  induction ns with
  | nil => intro deps cache msgs _ hd _; exact hd
  | cons n t ih =>
    intro deps cache msgs hc hd hP
    rw [List.foldl_cons]
    by_cases hexc : n ∈ exc
    · rw [show missStep gd exc (deps, cache, msgs) n = (deps, cache, msgs) by
        simp [missStep, hexc]]
      exact ih deps cache msgs hc hd hP
    · by_cases hdot : n = "." ∨ n = ".."
      · rw [show missStep gd exc (deps, cache, msgs) n = (deps, cache, msgs) by
          simp [missStep, hexc, hdot]]
        exact ih deps cache msgs hc hd hP
      · by_cases htr : (lookupT deps n).isSome = true
        · rw [show missStep gd exc (deps, cache, msgs) n = (deps, cache, msgs) by
            simp [missStep, hexc, hdot, htr]]
          exact ih deps cache msgs hc hd hP
        · rw [show missStep gd exc (deps, cache, msgs) n =
              (setA deps n ((lookupA (resolveDep gd cache n) n).getD ""),
                resolveDep gd cache n, msgs ++ [missMsg n]) by
            simp [missStep, hexc, hdot, htr, missMsg]]
          have hval : (lookupA (resolveDep gd cache n) n).getD "" = gd n := by
            rw [lookupA_resolveDep_self gd cache n hc]; rfl
          rw [hval]
          refine ih _ _ _ (cacheWF_resolveDep gd cache n hc) ?_ hP
          intro kv hkv
          rcases mem_setA deps n (gd n) kv hkv with h | h
          · exact hd kv h
          · rw [h]; exact hP n

/-- The missing-dependency loop preserves key-list `Nodup`. -/
theorem missFold_nodup (gd : String → String) (exc : List String)
    (ns : List String) :
    ∀ (deps cache : DepMap) (msgs : List String),
    (keysA deps).Nodup →
    (keysA (ns.foldl (missStep gd exc) (deps, cache, msgs)).1).Nodup := by
  induction ns with
  | nil => intro deps cache msgs h; exact h
  | cons n t ih =>
    intro deps cache msgs h
    rw [List.foldl_cons]
    unfold missStep
    by_cases hexc : n ∈ exc
    · simpa [hexc] using ih deps cache msgs h
    · by_cases hdot : n = "." ∨ n = ".."
      · simpa [hexc, hdot] using ih deps cache msgs h
      · by_cases htr : (lookupT deps n).isSome = true
        · simpa [hexc, hdot, htr] using ih deps cache msgs h
        · simpa [hexc, hdot, htr] using
            ih _ _ _ (nodup_keysA_setA deps n _ h)

/-- The missing-dependency loop preserves cache well-formedness. -/
theorem missFold_cacheWF (gd : String → String) (exc : List String)
    (ns : List String) :
    ∀ (deps cache : DepMap) (msgs : List String), CacheWF gd cache →
    CacheWF gd (ns.foldl (missStep gd exc) (deps, cache, msgs)).2.1 := by
  induction ns with
  | nil => intro deps cache msgs h; exact h
  | cons n t ih =>
    intro deps cache msgs h
    rw [List.foldl_cons]
    unfold missStep
    by_cases hexc : n ∈ exc
    · simpa [hexc] using ih deps cache msgs h
    · by_cases hdot : n = "." ∨ n = ".."
      · simpa [hexc, hdot] using ih deps cache msgs h
      · by_cases htr : (lookupT deps n).isSome = true
        · simpa [hexc, hdot, htr] using ih deps cache msgs h
        · simpa [hexc, hdot, htr] using
            ih _ _ _ (cacheWF_resolveDep gd cache n h)

/-- The missing-dependency loop never removes a key. -/
theorem missFold_keys_mono (gd : String → String) (exc : List String)
    (ns : List String) :
    ∀ (deps cache : DepMap) (msgs : List String) (k : String),
    k ∈ keysA deps →
    k ∈ keysA (ns.foldl (missStep gd exc) (deps, cache, msgs)).1 := by
  induction ns with
  | nil => intro deps cache msgs k h; exact h
  | cons n t ih =>
    intro deps cache msgs k h
    rw [List.foldl_cons]
    unfold missStep
    by_cases hexc : n ∈ exc
    · simpa [hexc] using ih deps cache msgs k h
    · by_cases hdot : n = "." ∨ n = ".."
      · simpa [hexc, hdot] using ih deps cache msgs k h
      · by_cases htr : (lookupT deps n).isSome = true
        · simpa [hexc, hdot, htr] using ih deps cache msgs k h
        · simpa [hexc, hdot, htr] using
            ih _ _ _ k ((mem_keysA_setA deps n _ k).mpr (Or.inl h))

/-- The messages emitted by the missing-dependency loop are exactly the old
messages plus missing-dependency findings for processed names. -/
theorem missFold_msgs_shape (gd : String → String) (exc : List String)
    (ns : List String) :
    ∀ (deps cache : DepMap) (msgs : List String),
    ∀ m ∈ (ns.foldl (missStep gd exc) (deps, cache, msgs)).2.2,
      m ∈ msgs ∨ ∃ n ∈ ns, m = missMsg n := by
  induction ns with
  | nil => intro deps cache msgs m h; exact Or.inl h
  | cons n t ih =>
    intro deps cache msgs m
    rw [List.foldl_cons]
    unfold missStep
    by_cases hexc : n ∈ exc
    · simp only [hexc]
      intro h
      rcases ih deps cache msgs m (by simpa using h) with h' | ⟨n', hn', hm⟩
      · exact Or.inl h'
      · exact Or.inr ⟨n', List.mem_cons_of_mem _ hn', hm⟩
    · by_cases hdot : n = "." ∨ n = ".."
      · simp only [hexc, hdot]
        intro h
        rcases ih deps cache msgs m (by simpa [hexc, hdot] using h) with h' | ⟨n', hn', hm⟩
        · exact Or.inl h'
        · exact Or.inr ⟨n', List.mem_cons_of_mem _ hn', hm⟩
      · by_cases htr : (lookupT deps n).isSome = true
        · intro h
          rcases ih deps cache msgs m (by simpa [hexc, hdot, htr] using h)
            with h' | ⟨n', hn', hm⟩
          · exact Or.inl h'
          · exact Or.inr ⟨n', List.mem_cons_of_mem _ hn', hm⟩
        · intro h
          have h' : m ∈ (t.foldl (missStep gd exc)
              (setA deps n ((lookupA (resolveDep gd cache n) n).getD ""),
                resolveDep gd cache n, msgs ++ [missMsg n])).2.2 := by
            simpa [hexc, hdot, htr, missMsg] using h
          rcases ih _ _ _ m h' with h'' | ⟨n', hn', hm⟩
          · rcases List.mem_append.mp h'' with h3 | h3
            · exact Or.inl h3
            · simp only [List.mem_singleton] at h3
              exact Or.inr ⟨n, List.mem_cons_self _ _, h3⟩
          · exact Or.inr ⟨n', List.mem_cons_of_mem _ hn', hm⟩

/-! ### Lemmas about the unused-dependency detection fold -/

/-- The unused-dependency finding text for a key. -/
def unusedMsg (x : String) : String := "Unused dependency: " ++ x

theorem unusedMsg_inj (x y : String) (h : unusedMsg x = unusedMsg y) : x = y :=
  string_append_left_inj _ x y h

/-- If every processed key is excepted or imported, the unused-dependency
loop is a complete no-op. -/
theorem unusedFold_noop (exc names : List String) (ks : List String) :
    ∀ (deps : DepMap) (msgs : List String),
    (∀ k ∈ ks, k ∈ exc ∨ k ∈ names) →
    ks.foldl (unusedStep exc names) (deps, msgs) = (deps, msgs) := by
  induction ks with
  | nil => intro deps msgs _; rfl
  | cons k t ih =>
    intro deps msgs h
    have hk := h k (List.mem_cons_self _ _)
    have hstep : unusedStep exc names (deps, msgs) k = (deps, msgs) := by
      rcases hk with h' | h'
      · simp [unusedStep, h']
      · by_cases hexc : k ∈ exc
        · simp [unusedStep, hexc]
        · simp [unusedStep, hexc, h']
    rw [List.foldl_cons, hstep]
    exact ih deps msgs (fun k' hk' => h k' (List.mem_cons_of_mem _ hk'))

/-- An excepted or imported key's entry and finding count are untouched by
the unused-dependency loop. -/
theorem unusedFold_preserve (exc names : List String) (ks : List String) :
    ∀ (deps : DepMap) (msgs : List String) (x : String),
    (x ∈ exc ∨ x ∈ names) →
    lookupA (ks.foldl (unusedStep exc names) (deps, msgs)).1 x = lookupA deps x ∧
    (ks.foldl (unusedStep exc names) (deps, msgs)).2.count (unusedMsg x) =
      msgs.count (unusedMsg x) := by
  induction ks with
  | nil => intro deps msgs x _; exact ⟨rfl, rfl⟩
  | cons k t ih =>
    intro deps msgs x hx
    rw [List.foldl_cons]
    by_cases hexc : k ∈ exc
    · rw [show unusedStep exc names (deps, msgs) k = (deps, msgs) by
        simp [unusedStep, hexc]]
      exact ih deps msgs x hx
    · by_cases hmem : k ∈ names
      · rw [show unusedStep exc names (deps, msgs) k = (deps, msgs) by
          simp [unusedStep, hexc, hmem]]
        exact ih deps msgs x hx
      · have hkx : k ≠ x := by
          rintro rfl
          rcases hx with h | h
          exacts [hexc h, hmem h]
        rw [show unusedStep exc names (deps, msgs) k =
            (eraseA deps k, msgs ++ [unusedMsg k]) by
          simp [unusedStep, hexc, hmem, unusedMsg]]
        obtain ⟨h1, h2⟩ := ih (eraseA deps k) (msgs ++ [unusedMsg k]) x hx
        refine ⟨?_, ?_⟩
        · rw [h1, lookupA_eraseA_ne deps k x (fun hh => hkx hh.symm)]
        · rw [h2, List.count_append]
          have : unusedMsg x ≠ unusedMsg k := fun hh => hkx (unusedMsg_inj _ _ hh).symm
          simp [List.count_singleton', this]

/-- A key absent from the map and from the remaining work list stays absent
and produces no finding. -/
theorem unusedFold_absent (exc names : List String) (ks : List String) :
    ∀ (deps : DepMap) (msgs : List String) (d : String),
    d ∉ keysA deps → d ∉ ks →
    d ∉ keysA (ks.foldl (unusedStep exc names) (deps, msgs)).1 ∧
    (ks.foldl (unusedStep exc names) (deps, msgs)).2.count (unusedMsg d) =
      msgs.count (unusedMsg d) := by
  induction ks with
  | nil => intro deps msgs d h _; exact ⟨h, rfl⟩
  | cons k t ih =>
    intro deps msgs d hd hks
    have hkd : k ≠ d := fun hh => hks (by simp [hh])
    have hks' : d ∉ t := fun hh => hks (List.mem_cons_of_mem _ hh)
    rw [List.foldl_cons]
    by_cases hexc : k ∈ exc
    · rw [show unusedStep exc names (deps, msgs) k = (deps, msgs) by
        simp [unusedStep, hexc]]
      exact ih deps msgs d hd hks'
    · by_cases hmem : k ∈ names
      · rw [show unusedStep exc names (deps, msgs) k = (deps, msgs) by
          simp [unusedStep, hexc, hmem]]
        exact ih deps msgs d hd hks'
      · rw [show unusedStep exc names (deps, msgs) k =
            (eraseA deps k, msgs ++ [unusedMsg k]) by
          simp [unusedStep, hexc, hmem, unusedMsg]]
        have hd' : d ∉ keysA (eraseA deps k) := fun hh =>
          hd (List.Sublist.mem hh (keysA_eraseA_sublist deps k))
        obtain ⟨h1, h2⟩ := ih (eraseA deps k) (msgs ++ [unusedMsg k]) d hd' hks'
        refine ⟨h1, ?_⟩
        rw [h2, List.count_append]
        have hne : unusedMsg d ≠ unusedMsg k := fun hh => hkd (unusedMsg_inj _ _ hh).symm
        simp [List.count_singleton', hne]

/-- A present, unimported, unexcepted key is removed with exactly one new
finding. -/
theorem unusedFold_removes (exc names : List String) (ks : List String) :
    ∀ (deps : DepMap) (msgs : List String) (d : String),
    (keysA deps).Nodup → ks.Nodup →
    d ∈ ks → d ∉ exc → d ∉ names →
    d ∉ keysA (ks.foldl (unusedStep exc names) (deps, msgs)).1 ∧
    (ks.foldl (unusedStep exc names) (deps, msgs)).2.count (unusedMsg d) =
      msgs.count (unusedMsg d) + 1 := by
  induction ks with
  | nil => intro deps msgs d _ _ hmem _ _; simp at hmem
  | cons k t ih =>
    intro deps msgs d hnd hknd hmem hexc hnames
    rw [List.foldl_cons]
    rcases List.nodup_cons.mp hknd with ⟨hkt, htnd⟩
    by_cases hkd : k = d
    · subst hkd
      rw [show unusedStep exc names (deps, msgs) k =
          (eraseA deps k, msgs ++ [unusedMsg k]) by
        simp [unusedStep, hexc, hnames, unusedMsg]]
      have hout : k ∉ keysA (eraseA deps k) := by
        intro hh
        have := (lookupA_isSome_iff (eraseA deps k) k).mpr hh
        rw [lookupA_eraseA_self deps k hnd] at this
        simp at this
      obtain ⟨h1, h2⟩ := unusedFold_absent exc names t (eraseA deps k)
        (msgs ++ [unusedMsg k]) k hout hkt
      refine ⟨h1, ?_⟩
      rw [h2, List.count_append]
      simp [List.count_singleton']
    · have hmem' : d ∈ t := by
        rcases List.mem_cons.mp hmem with h | h
        · exact absurd h.symm hkd
        · exact h
      by_cases hexck : k ∈ exc
      · rw [show unusedStep exc names (deps, msgs) k = (deps, msgs) by
          simp [unusedStep, hexck]]
        exact ih deps msgs d hnd htnd hmem' hexc hnames
      · by_cases hmemk : k ∈ names
        · rw [show unusedStep exc names (deps, msgs) k = (deps, msgs) by
            simp [unusedStep, hexck, hmemk]]
          exact ih deps msgs d hnd htnd hmem' hexc hnames
        · rw [show unusedStep exc names (deps, msgs) k =
              (eraseA deps k, msgs ++ [unusedMsg k]) by
            simp [unusedStep, hexck, hmemk, unusedMsg]]
          obtain ⟨h1, h2⟩ := ih (eraseA deps k) (msgs ++ [unusedMsg k]) d
            (nodup_keysA_eraseA deps k hnd) htnd hmem' hexc hnames
          refine ⟨h1, ?_⟩
          rw [h2, List.count_append]
          have : unusedMsg d ≠ unusedMsg k := fun hh => hkd (unusedMsg_inj _ _ hh).symm
          simp [List.count_singleton', this]

/-- Entries surviving the unused-dependency loop were already present. -/
theorem unusedFold_entries (exc names : List String) (ks : List String) :
    ∀ (deps : DepMap) (msgs : List String),
    ∀ kv ∈ (ks.foldl (unusedStep exc names) (deps, msgs)).1, kv ∈ deps := by
  induction ks with
  | nil => intro deps msgs kv h; exact h
  | cons k t ih =>
    intro deps msgs kv
    rw [List.foldl_cons]
    unfold unusedStep
    by_cases hexc : k ∈ exc
    · simp only [hexc]
      intro h
      exact ih deps msgs kv (by simpa using h)
    · by_cases hmem : k ∈ names
      · intro h
        exact ih deps msgs kv (by simpa [hexc, hmem] using h)
      · intro h
        have h' := ih (eraseA deps k) (msgs ++ [unusedMsg k]) kv
          (by simpa [hexc, hmem, unusedMsg] using h)
        exact mem_eraseA deps k kv h'

/-- The unused-dependency loop preserves key-list `Nodup`. -/
theorem unusedFold_nodup (exc names : List String) (ks : List String) :
    ∀ (deps : DepMap) (msgs : List String),
    (keysA deps).Nodup →
    (keysA (ks.foldl (unusedStep exc names) (deps, msgs)).1).Nodup := by
  induction ks with
  | nil => intro deps msgs h; exact h
  | cons k t ih =>
    intro deps msgs h
    rw [List.foldl_cons]
    unfold unusedStep
    by_cases hexc : k ∈ exc
    · simpa [hexc] using ih deps msgs h
    · by_cases hmem : k ∈ names
      · simpa [hexc, hmem] using ih deps msgs h
      · simpa [hexc, hmem] using
          ih (eraseA deps k) (msgs ++ [unusedMsg k]) (nodup_keysA_eraseA deps k h)

/-- Every key surviving a full unused-dependency pass over the key snapshot is
excepted or imported. -/
theorem unusedFold_survivors (exc names : List String) (deps : DepMap)
    (msgs : List String) (hnd : (keysA deps).Nodup) :
    ∀ k ∈ keysA ((keysA deps).foldl (unusedStep exc names) (deps, msgs)).1,
      k ∈ exc ∨ k ∈ names := by
  intro k hk
  by_cases hexc : k ∈ exc
  · exact Or.inl hexc
  · by_cases hmem : k ∈ names
    · exact Or.inr hmem
    · exfalso
      have hkdeps : k ∈ keysA deps := by
        obtain ⟨v, hv⟩ := List.mem_map.mp hk
        have := unusedFold_entries exc names (keysA deps) deps msgs v hv.1
        rw [← hv.2]
        exact List.mem_map.mpr ⟨v, this, rfl⟩
      obtain ⟨h1, _⟩ := unusedFold_removes exc names (keysA deps) deps msgs k
        hnd hnd hkdeps hexc hmem
      exact h1 hk

/-- The messages emitted by the unused-dependency loop are exactly the old
messages plus unused-dependency findings for processed keys. -/
theorem unusedFold_msgs_shape (exc names : List String) (ks : List String) :
    ∀ (deps : DepMap) (msgs : List String),
    ∀ m ∈ (ks.foldl (unusedStep exc names) (deps, msgs)).2,
      m ∈ msgs ∨ ∃ k ∈ ks, m = unusedMsg k := by
  induction ks with
  | nil => intro deps msgs m h; exact Or.inl h
  | cons k t ih =>
    intro deps msgs m
    rw [List.foldl_cons]
    unfold unusedStep
    by_cases hexc : k ∈ exc
    · simp only [hexc]
      intro h
      rcases ih deps msgs m (by simpa using h) with h' | ⟨k', hk', hm⟩
      · exact Or.inl h'
      · exact Or.inr ⟨k', List.mem_cons_of_mem _ hk', hm⟩
    · by_cases hmem : k ∈ names
      · intro h
        rcases ih deps msgs m (by simpa [hexc, hmem] using h) with h' | ⟨k', hk', hm⟩
        · exact Or.inl h'
        · exact Or.inr ⟨k', List.mem_cons_of_mem _ hk', hm⟩
      · intro h
        have h' := ih (eraseA deps k) (msgs ++ [unusedMsg k]) m
          (by simpa [hexc, hmem, unusedMsg] using h)
        rcases h' with h'' | ⟨k', hk', hm⟩
        · rcases List.mem_append.mp h'' with h3 | h3
          · exact Or.inl h3
          · simp only [List.mem_singleton] at h3
            exact Or.inr ⟨k, List.mem_cons_self _ _, h3⟩
        · exact Or.inr ⟨k', List.mem_cons_of_mem _ hk', hm⟩

/-! ### Lemmas about splitting, joining, and the generated index grammar -/

theorem splitOnC_ne_nil (sep : Char) (l : List Char) : splitOnC sep l ≠ [] := by
  cases l with
  | nil => simp [splitOnC]
  | cons c rest =>
    by_cases h : c = sep
    · simp [splitOnC, h]
    · simp only [splitOnC, if_neg h]
      cases splitOnC sep rest <;> simp

theorem splitOnC_sep_free (sep : Char) (l : List Char) :
    ∀ g ∈ splitOnC sep l, sep ∉ g := by
  induction l with
  | nil =>
    intro g hg
    simp [splitOnC] at hg
    simp [hg]
  | cons c rest ih =>
    intro g hg
    by_cases h : c = sep
    · simp only [splitOnC, if_pos h, List.mem_cons] at hg
      rcases hg with rfl | hg
      · simp
      · exact ih g hg
    · simp only [splitOnC, if_neg h] at hg
      cases hsp : splitOnC sep rest with
      | nil => exact absurd hsp (splitOnC_ne_nil sep rest)
      | cons g0 gs =>
        rw [hsp] at hg
        simp only [List.mem_cons] at hg
        rcases hg with rfl | hg
        · intro hmem
          rcases List.mem_cons.mp hmem with rfl | hmem
          · exact h rfl
          · exact ih g0 (by rw [hsp]; exact List.mem_cons_self _ _) hmem
        · exact ih g (by rw [hsp]; exact List.mem_cons_of_mem _ hg)

theorem splitOnC_append_sep (sep : Char) (a rest : List Char) (h : sep ∉ a) :
    splitOnC sep (a ++ sep :: rest) = a :: splitOnC sep rest := by
  induction a with
  | nil => simp [splitOnC]
  | cons c t ih =>
    have hc : ¬ c = sep := fun hh => h (by simp [hh])
    have ht : sep ∉ t := fun hh => h (List.mem_cons_of_mem _ hh)
    simp only [List.cons_append, splitOnC, if_neg hc, List.append_eq]
    rw [ih ht]

theorem splitOnC_sep_free_whole (sep : Char) (a : List Char) (h : sep ∉ a) :
    splitOnC sep a = [a] := by
  induction a with
  | nil => rfl
  | cons c t ih =>
    have hc : ¬ c = sep := fun hh => h (by simp [hh])
    have ht : sep ∉ t := fun hh => h (List.mem_cons_of_mem _ hh)
    simp only [splitOnC, if_neg hc, ih ht]

theorem joinC_cons_of_ne_nil (sep : Char) (l : List Char) (ls : List (List Char))
    (h : ls ≠ []) : joinC sep (l :: ls) = l ++ sep :: joinC sep ls := by
  cases ls with
  | nil => exact absurd rfl h
  | cons x t => rfl

theorem splitOnC_joinC_append (sep : Char) (hs : List (List Char))
    (rest : List (List Char)) (hh : ∀ g ∈ hs, sep ∉ g) (hrest : rest ≠ []) :
    splitOnC sep (joinC sep (hs ++ rest)) = hs ++ splitOnC sep (joinC sep rest) := by
  induction hs with
  | nil => rfl
  | cons g t ih =>
    have hg : sep ∉ g := hh g (List.mem_cons_self _ _)
    have ht : ∀ g' ∈ t, sep ∉ g' := fun g' hg' => hh g' (List.mem_cons_of_mem _ hg')
    have hne : t ++ rest ≠ [] := by
      intro hcon
      rcases List.append_eq_nil.mp hcon with ⟨_, h2⟩
      exact hrest h2
    rw [List.cons_append, joinC_cons_of_ne_nil sep g (t ++ rest) hne,
      splitOnC_append_sep sep g _ hg, ih ht]
    rfl

theorem splitOnC_joinC_free (sep : Char) (ls : List (List Char))
    (h : ∀ g ∈ ls, sep ∉ g) (hne : ls ≠ []) :
    splitOnC sep (joinC sep ls) = ls := by
  induction ls with
  | nil => exact absurd rfl hne
  | cons g t ih =>
    cases t with
    | nil =>
      show splitOnC sep (joinC sep [g]) = [g]
      exact splitOnC_sep_free_whole sep g (h g (List.mem_cons_self _ _))
    | cons x xt =>
      rw [joinC_cons_of_ne_nil sep g (x :: xt) (by simp),
        splitOnC_append_sep sep g _ (h g (List.mem_cons_self _ _)),
        ih (fun g' hg' => h g' (List.mem_cons_of_mem _ hg')) (by simp)]

/-- The character-list body of a generated import line, without the trailing
newline. -/
def importBodyL (n : List Char) : List Char :=
  "import \"".toList ++ n ++ "\";".toList

theorem importLine_toList (n : String) :
    (importLine n).toList = importBodyL n.toList ++ ['\n'] := by
  have hpre : ("import \"" : String).data = ['i', 'm', 'p', 'o', 'r', 't', ' ', '\"'] := by
    decide
  have hsuf : ("\";" : String).data = ['\"', ';'] := by decide
  have hsufn : ("\";\n" : String).data = ['\"', ';', '\n'] := by decide
  show (importLine n).data = importBodyL n.data ++ ['\n']
  simp only [importLine, importBodyL, String.data_append, String.toList,
    hpre, hsuf, hsufn]
  simp [List.append_assoc]

theorem newline_not_mem_importBodyL (n : List Char) (h : '\n' ∉ n) :
    '\n' ∉ importBodyL n := by
  intro hmem
  simp only [importBodyL, List.mem_append] at hmem
  rcases hmem with (hm | hm) | hm
  · revert hm; decide
  · exact h hm
  · revert hm; decide

theorem parseImportLine_importBodyL (n : List Char) :
    parseImportLine (importBodyL n) = some n := by
  have hLpre : ("import \"".toList : List Char).length = 8 := by decide
  have hLsuf : ("\";".toList : List Char).length = 2 := by decide
  have h2 : ("import \"".toList ++ n ++ "\";".toList).length = n.length + 10 := by
    simp only [List.length_append, hLpre, hLsuf]
    omega
  have h1 : ("import \"".toList ++ n ++ "\";".toList).take 8 = "import \"".toList := by
    rw [List.append_assoc]
    exact List.take_left' hLpre
  have hl8 : ("import \"".toList ++ n : List Char).length = n.length + 8 := by
    simp only [List.length_append, hLpre]
    omega
  have h3 : ("import \"".toList ++ n ++ "\";".toList).drop (n.length + 8)
      = "\";".toList := by
    rw [← hl8]
    exact List.drop_left _ _
  have h4 : ("import \"".toList ++ n ++ "\";".toList).drop 8 = n ++ "\";".toList := by
    rw [List.append_assoc]
    exact List.drop_left' hLpre
  have h5 : (n ++ ("\";".toList : List Char)).take n.length = n := List.take_left _ _
  unfold parseImportLine importBodyL
  rw [h2]
  have e1 : n.length + 10 - 2 = n.length + 8 := by omega
  have e2 : n.length + 10 - 10 = n.length := by omega
  rw [e1, e2, if_pos ⟨h1, by omega, h3⟩, h4, h5]

theorem parseImportLine_nil : parseImportLine [] = none := by decide

/-! ### Substring lemmas -/

theorem isPre_append (nd post : List Char) : isPre nd (nd ++ post) = true := by
  induction nd with
  | nil => rfl
  | cons c t ih => simp [isPre, ih]

theorem containsL_of_isPre (hay nd : List Char) (h : isPre nd hay = true) :
    containsL hay nd = true := by
  cases hay <;> simp [containsL, h]

theorem containsL_append_right (a b nd : List Char) (h : containsL b nd = true) :
    containsL (a ++ b) nd = true := by
  induction a with
  | nil => simpa using h
  | cons c t ih => simp [containsL, ih]

theorem containsL_middle (a nd post : List Char) :
    containsL (a ++ (nd ++ post)) nd = true :=
  containsL_append_right a _ nd (containsL_of_isPre _ nd (isPre_append nd post))

theorem joinC_mem_decomp (sep : Char) (ls : List (List Char)) (l : List Char)
    (h : l ∈ ls) : ∃ a b, joinC sep ls = a ++ (l ++ b) := by
  induction ls with
  | nil => simp at h
  | cons x t ih =>
    rcases List.mem_cons.mp h with rfl | hmem
    · cases t with
      | nil => exact ⟨[], [], by simp [joinC]⟩
      | cons y yt =>
        exact ⟨[], sep :: joinC sep (y :: yt), by
          rw [joinC_cons_of_ne_nil sep l (y :: yt) (by simp)]; simp⟩
    · cases t with
      | nil => simp at hmem
      | cons y yt =>
        obtain ⟨a, b, hab⟩ := ih hmem
        refine ⟨x ++ sep :: a, b, ?_⟩
        rw [joinC_cons_of_ne_nil sep x (y :: yt) (by simp), hab]
        simp

theorem head?_append_left (l l' : List Char) (h : l ≠ []) :
    (l ++ l').head? = l.head? := by
  cases l with
  | nil => exact absurd rfl h
  | cons c t => rfl

theorem data_ne_nil_of_ne_empty (s : String) (h : s ≠ "") : s.data ≠ [] := by
  intro hd
  exact h (String.ext hd)

/-! ### Normalization of composed import specifiers -/

theorem normalizeImport_scoped (scope nm rest : String)
    (hsc : '/' ∉ scope.toList) (hnm : '/' ∉ nm.toList)
    (hat : scope.toList.head? = some '@') :
    normalizeImport (scope ++ "/" ++ nm ++ "/" ++ rest) = scope ++ "/" ++ nm := by
  have hslash : ("/" : String).data = ['/'] := by decide
  have hdata : (scope ++ "/" ++ nm ++ "/" ++ rest).data =
      scope.data ++ '/' :: (nm.data ++ '/' :: rest.data) := by
    simp [String.data_append, hslash]
  have hsne : scope.data ≠ [] := by
    intro hd
    rw [show scope.toList = scope.data from rfl, hd] at hat
    simp at hat
  have hsplit : splitOnC '/' (scope.data ++ '/' :: (nm.data ++ '/' :: rest.data)) =
      scope.data :: nm.data :: splitOnC '/' rest.data := by
    rw [splitOnC_append_sep '/' scope.data _ hsc,
      splitOnC_append_sep '/' nm.data _ hnm]
  have hhead : (scope ++ "/" ++ nm ++ "/" ++ rest).toList.head? = some '@' := by
    show (scope ++ "/" ++ nm ++ "/" ++ rest).data.head? = some '@'
    rw [hdata, head?_append_left _ _ hsne]
    exact hat
  unfold normalizeImport
  rw [if_pos hhead]
  show String.mk ((splitOnC '/' (scope ++ "/" ++ nm ++ "/" ++ rest).data).getD 0 []
      ++ '/' :: (splitOnC '/' (scope ++ "/" ++ nm ++ "/" ++ rest).data).getD 1
        "undefined".toList) = scope ++ "/" ++ nm
  rw [hdata, hsplit]
  apply String.ext
  show scope.data ++ '/' :: nm.data = (scope ++ "/" ++ nm).data
  simp [String.data_append, hslash]

theorem normalizeImport_unscoped (nm rest : String)
    (hnm : '/' ∉ nm.toList) (hne : nm ≠ "")
    (hat : nm.toList.head? ≠ some '@') :
    normalizeImport (nm ++ "/" ++ rest) = nm := by
  have hslash : ("/" : String).data = ['/'] := by decide
  have hdata : (nm ++ "/" ++ rest).data = nm.data ++ '/' :: rest.data := by
    simp [String.data_append, hslash]
  have hsne : nm.data ≠ [] := data_ne_nil_of_ne_empty nm hne
  have hhead : ¬ (nm ++ "/" ++ rest).toList.head? = some '@' := by
    show ¬ (nm ++ "/" ++ rest).data.head? = some '@'
    rw [hdata, head?_append_left _ _ hsne]
    exact hat
  unfold normalizeImport
  rw [if_neg hhead]
  show String.mk ((splitOnC '/' (nm ++ "/" ++ rest).data).getD 0 []) = nm
  rw [hdata, splitOnC_append_sep '/' nm.data _ hnm]
  apply String.ext
  rfl

/-! ### The import extractor on the generated index text -/

theorem splitOnC_joinC_trailing (sep : Char) (bs : List (List Char))
    (h : ∀ b ∈ bs, sep ∉ b) (hne : bs ≠ []) :
    splitOnC sep (joinC sep (bs.map (· ++ [sep]))) =
      (bs.map (fun b => [b, []])).flatten := by
  induction bs with
  | nil => exact absurd rfl hne
  | cons b t ih =>
    have hb : sep ∉ b := h b (List.mem_cons_self _ _)
    cases t with
    | nil =>
      show splitOnC sep (b ++ [sep]) = [b, []] ++ [].flatten
      rw [show b ++ [sep] = b ++ sep :: ([] : List Char) by simp,
        splitOnC_append_sep sep b [] hb]
      rfl
    | cons x xt =>
      rw [List.map_cons,
        joinC_cons_of_ne_nil sep (b ++ [sep]) ((x :: xt).map (· ++ [sep])) (by simp)]
      have hre : (b ++ [sep]) ++ sep :: joinC sep ((x :: xt).map (· ++ [sep])) =
          b ++ sep :: (sep :: joinC sep ((x :: xt).map (· ++ [sep]))) := by simp
      rw [hre, splitOnC_append_sep sep b _ hb]
      rw [show splitOnC sep (sep :: joinC sep ((x :: xt).map (· ++ [sep]))) =
          [] :: splitOnC sep (joinC sep ((x :: xt).map (· ++ [sep]))) by
        simp [splitOnC]]
      rw [ih (fun b' hb' => h b' (List.mem_cons_of_mem _ hb')) (by simp)]
      rfl

theorem filterMap_parse_pairs (ns : List (List Char)) :
    ((ns.map (fun b => [importBodyL b, []])).flatten).filterMap
      (fun l => (parseImportLine l).map String.mk) = ns.map String.mk := by
  induction ns with
  | nil => rfl
  | cons n t ih =>
    simp only [List.map_cons, List.flatten_cons, List.filterMap_append]
    rw [show List.filterMap (fun l => (parseImportLine l).map String.mk)
        [importBodyL n, []] = [String.mk n] by
      simp [List.filterMap, parseImportLine_importBodyL, parseImportLine_nil]]
    rw [ih]
    rfl

theorem mk_toList_map (ns : List String) :
    ns.map (fun s => String.mk s.toList) = ns := by
  induction ns with
  | nil => rfl
  | cons s t ih =>
    simp only [List.map_cons, ih]
    rfl

theorem map_mk_map_toList (ns : List String) :
    (ns.map String.toList).map String.mk = ns := by
  rw [List.map_map]
  exact mk_toList_map ns

/-- The full characterization of the import extractor on a regenerated index:
the header lines contribute whatever parses as an import, and every generated
line contributes exactly its package name. -/
theorem extractIndex_gen (header : List String) (ns : List String)
    (hh : ∀ g ∈ header, '\n' ∉ g.toList) (hns : ∀ n ∈ ns, '\n' ∉ n.toList) :
    extractIndex (joinLines (header ++ ns.map importLine)) =
      header.filterMap (fun l => (parseImportLine l.toList).map String.mk) ++ ns := by
  unfold extractIndex joinLines
  rw [show (String.mk (joinC '\n' ((header ++ ns.map importLine).map
      String.toList))).toList = joinC '\n' ((header ++ ns.map importLine).map
      String.toList) from rfl]
  rw [List.map_append, List.map_map]
  have himp : ns.map (String.toList ∘ importLine) =
      (ns.map (fun n => importBodyL n.toList)).map (· ++ ['\n']) := by
    rw [List.map_map]
    exact List.map_congr_left (fun n _ => importLine_toList n)
  rw [himp]
  cases hns' : ns with
  | nil =>
    simp only [List.map_nil, List.append_nil]
    cases hhd : header with
    | nil => simp [joinC, splitOnC, List.filterMap, parseImportLine_nil]
    | cons g gs =>
      rw [← hhd]
      rw [splitOnC_joinC_free '\n' (header.map String.toList)
        (by
          intro g' hg'
          obtain ⟨s, hs, rfl⟩ := List.mem_map.mp hg'
          exact hh s hs)
        (by rw [hhd]; simp)]
      rw [List.filterMap_map]
      rfl
  | cons m ms =>
    rw [← hns']
    have hrest : (ns.map (fun n => importBodyL n.toList)).map (· ++ ['\n']) ≠ [] := by
      rw [hns']; simp
    rw [splitOnC_joinC_append '\n' (header.map String.toList) _
      (by
        intro g' hg'
        obtain ⟨s, hs, rfl⟩ := List.mem_map.mp hg'
        exact hh s hs)
      hrest]
    rw [splitOnC_joinC_trailing '\n' (ns.map (fun n => importBodyL n.toList))
      (by
        intro b hb
        obtain ⟨s, hs, rfl⟩ := List.mem_map.mp hb
        exact newline_not_mem_importBodyL s.toList (hns s hs))
      (by rw [hns']; simp)]
    rw [List.filterMap_append, List.filterMap_map]
    have hkey : (((ns.map (fun n => importBodyL n.toList)).map
        (fun b => [b, []])).flatten).filterMap
        (fun l => (parseImportLine l).map String.mk) = ns := by
      rw [List.map_map]
      have h1 := filterMap_parse_pairs (ns.map String.toList)
      rw [List.map_map] at h1
      have hfn : ((fun b => [b, ([] : List Char)]) ∘
          (fun (n : String) => importBodyL n.toList)) =
          ((fun b => [importBodyL b, ([] : List Char)]) ∘ String.toList) := rfl
      rw [hfn, h1, List.map_map]
      exact mk_toList_map ns
    rw [hkey]
    rfl

/-! ### Stability of the three-line header under regeneration -/

theorem splitLines_newline_free (s : String) :
    ∀ g ∈ splitLines s, '\n' ∉ g.toList := by
  intro g hg
  obtain ⟨l, hl, rfl⟩ := List.mem_map.mp hg
  exact splitOnC_sep_free '\n' s.toList l hl

theorem take3_stability (header : List String) (ns : List String)
    (hh : ∀ g ∈ header, '\n' ∉ g.toList) (hlen : header.length = 3) :
    (splitLines (joinLines (header ++ ns.map importLine))).take 3 = header := by
  unfold splitLines joinLines
  rw [show (String.mk (joinC '\n' ((header ++ ns.map importLine).map
      String.toList))).toList = joinC '\n' ((header ++ ns.map importLine).map
      String.toList) from rfl]
  rw [List.map_append, List.map_map]
  have himp : ns.map (String.toList ∘ importLine) =
      (ns.map (fun n => importBodyL n.toList)).map (· ++ ['\n']) := by
    rw [List.map_map]
    exact List.map_congr_left (fun n _ => importLine_toList n)
  rw [himp]
  have hhfree : ∀ g ∈ header.map String.toList, '\n' ∉ g := by
    intro g hg
    obtain ⟨s, hs, rfl⟩ := List.mem_map.mp hg
    exact hh s hs
  cases hns' : ns with
  | nil =>
    simp only [List.map_nil, List.append_nil]
    rw [splitOnC_joinC_free '\n' (header.map String.toList) hhfree
      (by
        intro hcon
        have := congrArg List.length hcon
        simp [hlen] at this)]
    rw [map_mk_map_toList header, ← hlen, List.take_length]
  | cons m ms =>
    rw [← hns']
    rw [splitOnC_joinC_append '\n' (header.map String.toList) _ hhfree
      (by rw [hns']; simp)]
    rw [List.map_append, map_mk_map_toList header]
    exact List.take_left' hlen

/-! ### Substring facts about the regenerated index -/

theorem isPre_mono (nd x b : List Char) (h : isPre nd x = true) :
    isPre nd (x ++ b) = true := by
  induction nd generalizing x with
  | nil => rfl
  | cons c t ih =>
    cases x with
    | nil => simp [isPre] at h
    | cons y ys =>
      simp only [isPre, Bool.and_eq_true, decide_eq_true_eq] at h
      simp only [List.cons_append, isPre, Bool.and_eq_true, decide_eq_true_eq]
      exact ⟨h.1, ih ys h.2⟩

theorem containsL_mono_right (x b nd : List Char) (h : containsL x nd = true) :
    containsL (x ++ b) nd = true := by
  induction x with
  | nil =>
    cases nd with
    | nil => cases b <;> simp [containsL, isPre]
    | cons c t => simp [containsL, isPre] at h
  | cons y ys ih =>
    simp only [containsL, Bool.or_eq_true] at h
    rcases h with h | h
    · simp only [List.cons_append, containsL, Bool.or_eq_true]
      exact Or.inl (isPre_mono nd (y :: ys) b h)
    · simp only [List.cons_append, containsL, Bool.or_eq_true]
      exact Or.inr (ih h)

theorem containsL_importLine_name (n : String) :
    containsL (importLine n).toList n.toList = true := by
  rw [importLine_toList]
  have : importBodyL n.toList ++ ['\n'] =
      "import \"".toList ++ (n.toList ++ ("\";".toList ++ ['\n'])) := by
    simp [importBodyL]
  rw [this]
  exact containsL_middle _ _ _

theorem containsSub_of_mem_joinLines (ls : List String) (x nd : String)
    (hx : x ∈ ls) (h : containsL x.toList nd.toList = true) :
    containsSub (joinLines ls) nd = true := by
  unfold containsSub joinLines
  rw [show (String.mk (joinC '\n' (ls.map String.toList))).toList =
      joinC '\n' (ls.map String.toList) from rfl]
  obtain ⟨a, b, hab⟩ := joinC_mem_decomp '\n' (ls.map String.toList) x.toList
    (List.mem_map.mpr ⟨x, hx, rfl⟩)
  rw [hab]
  exact containsL_append_right a _ _ (containsL_mono_right x.toList b _ h)

/-! ### Membership through deduplication and sorting -/

theorem mem_insortStr (x y : String) (l : List String) :
    y ∈ insortStr x l ↔ y = x ∨ y ∈ l := by
  induction l with
  | nil => simp [insortStr]
  | cons z t ih =>
    show y ∈ (if lexLe x.toList z.toList then x :: z :: t
      else z :: insortStr x t) ↔ _
    by_cases h : lexLe x.toList z.toList = true
    · rw [if_pos h]
      simp only [List.mem_cons]
    · rw [if_neg h]
      simp only [List.mem_cons, ih]
      tauto

theorem mem_sortStr (y : String) (l : List String) :
    y ∈ sortStr l ↔ y ∈ l := by
  unfold sortStr
  induction l with
  | nil => simp
  | cons z t ih =>
    simp only [List.foldr_cons, mem_insortStr, List.mem_cons, ih]

theorem mem_dedup_go (y : String) (l acc : List String) :
    y ∈ l.foldl (fun acc x => if x ∈ acc then acc else acc ++ [x]) acc ↔
      y ∈ acc ∨ y ∈ l := by
  induction l generalizing acc with
  | nil => simp
  | cons z t ih =>
    rw [List.foldl_cons]
    by_cases h : z ∈ acc
    · rw [if_pos h, ih]
      constructor
      · rintro (hy | hy)
        · exact Or.inl hy
        · exact Or.inr (List.mem_cons_of_mem _ hy)
      · rintro (hy | hy)
        · exact Or.inl hy
        · rcases List.mem_cons.mp hy with rfl | hy
          · exact Or.inl h
          · exact Or.inr hy
    · rw [if_neg h, ih]
      constructor
      · rintro (hy | hy)
        · rcases List.mem_append.mp hy with hy | hy
          · exact Or.inl hy
          · simp only [List.mem_singleton] at hy
            exact Or.inr (by simp [hy])
        · exact Or.inr (List.mem_cons_of_mem _ hy)
      · rintro (hy | hy)
        · exact Or.inl (List.mem_append.mpr (Or.inl hy))
        · rcases List.mem_cons.mp hy with rfl | hy
          · exact Or.inl (List.mem_append.mpr (Or.inr (by simp)))
          · exact Or.inr hy

theorem mem_dedup (y : String) (l : List String) : y ∈ dedup l ↔ y ∈ l := by
  unfold dedup
  rw [mem_dedup_go]
  simp

theorem mem_importNames (x : String) (fls : List (List String)) :
    x ∈ importNames fls ↔ ∃ raw ∈ fls.flatten, normalizeImport raw = x := by
  unfold importNames
  constructor
  · intro h
    obtain ⟨raw, hraw, rfl⟩ := List.mem_map.mp h
    exact ⟨raw, (mem_dedup raw _).mp ((mem_sortStr raw _).mp hraw), rfl⟩
  · rintro ⟨raw, hraw, rfl⟩
    exact List.mem_map.mpr ⟨raw,
      (mem_sortStr raw _).mpr ((mem_dedup raw _).mpr hraw), rfl⟩

/-! ### Lemmas about the aggregator synchronizer fold -/

theorem syncFold_lines (index : String) (ps : List Package) :
    ∀ acc : SyncAcc,
    (ps.foldl (syncStep index) acc).lines =
      acc.lines ++ (ps.filter (fun q => q.name != aggName)).map
        (fun q => importLine q.name) := by
  induction ps with
  | nil => intro acc; simp
  | cons p t ih =>
    intro acc
    rw [List.foldl_cons]
    by_cases hp : p.name = aggName
    · rw [show syncStep index acc p = acc by simp [syncStep, hp]]
      rw [ih acc]
      rw [show (p :: t).filter (fun q => q.name != aggName) =
          t.filter (fun q => q.name != aggName) by simp [List.filter_cons, bne_iff_ne, hp]]
    · have hstep : (syncStep index acc p).lines = acc.lines ++ [importLine p.name] := by
        simp [syncStep, hp]
      rw [ih (syncStep index acc p), hstep]
      rw [show (p :: t).filter (fun q => q.name != aggName) =
          p :: t.filter (fun q => q.name != aggName) by simp [List.filter_cons, bne_iff_ne, hp]]
      simp

theorem syncFold_truthy_mono (index : String) (ps : List Package) :
    ∀ (acc : SyncAcc) (x : String), (lookupT acc.aggDeps x).isSome = true →
    (lookupT (ps.foldl (syncStep index) acc).aggDeps x).isSome = true := by
  induction ps with
  | nil => intro acc x h; exact h
  | cons p t ih =>
    intro acc x h
    rw [List.foldl_cons]
    refine ih _ x ?_
    by_cases hp : p.name = aggName
    · rw [show syncStep index acc p = acc by simp [syncStep, hp]]
      exact h
    · unfold syncStep
      rw [if_neg hp]
      by_cases hhit : (lookupT acc.aggDeps p.name).isSome = true
      · simpa [hhit] using h
      · simp only [hhit, Bool.false_eq_true, if_neg, not_false_eq_true]
        have hpx : p.name ≠ x := by
          rintro rfl
          rw [h] at hhit
          simp at hhit
        show (lookupT (setA acc.aggDeps p.name ("^" ++ p.version)) x).isSome = true
        unfold lookupT
        rw [lookupA_setA_ne _ _ _ x (fun hh => hpx hh.symm)]
        unfold lookupT at h
        exact h

theorem syncFold_covers (index : String) (ps : List Package) :
    ∀ (acc : SyncAcc) (q : Package), q ∈ ps → q.name ≠ aggName →
    (lookupT (ps.foldl (syncStep index) acc).aggDeps q.name).isSome = true := by
  induction ps with
  | nil => intro acc q h; simp at h
  | cons p t ih =>
    intro acc q hmem hq
    rcases List.mem_cons.mp hmem with rfl | hmem'
    · rw [List.foldl_cons]
      refine syncFold_truthy_mono index t _ q.name ?_
      unfold syncStep
      rw [if_neg hq]
      by_cases hhit : (lookupT acc.aggDeps q.name).isSome = true
      · simp [hhit]
      · simp only [hhit, Bool.false_eq_true, if_neg, not_false_eq_true]
        show (lookupT (setA acc.aggDeps q.name ("^" ++ q.version)) q.name).isSome = true
        unfold lookupT
        rw [lookupA_setA_self]
        simp [caret_ne_empty q.version]
    · rw [List.foldl_cons]
      exact ih _ q hmem' hq

theorem syncFold_deps_entries (index : String) (ps : List Package) :
    ∀ (acc : SyncAcc) (kv : String × String),
    kv ∈ (ps.foldl (syncStep index) acc).aggDeps →
    kv ∈ acc.aggDeps ∨ ∃ q ∈ ps, q.name ≠ aggName ∧ kv = (q.name, "^" ++ q.version) := by
  induction ps with
  | nil => intro acc kv h; exact Or.inl h
  | cons p t ih =>
    intro acc kv h
    rw [List.foldl_cons] at h
    rcases ih _ kv h with h' | ⟨q, hq, hqa, hkv⟩
    · by_cases hp : p.name = aggName
      · rw [show syncStep index acc p = acc by simp [syncStep, hp]] at h'
        exact Or.inl h'
      · unfold syncStep at h'
        rw [if_neg hp] at h'
        by_cases hhit : (lookupT acc.aggDeps p.name).isSome = true
        · simp only [hhit, if_pos] at h'
          exact Or.inl h'
        · simp only [hhit, Bool.false_eq_true, if_neg, not_false_eq_true] at h'
          rcases mem_setA _ _ _ kv h' with h'' | h''
          · exact Or.inl h''
          · exact Or.inr ⟨p, List.mem_cons_self _ _, hp, h''⟩
    · exact Or.inr ⟨q, List.mem_cons_of_mem _ hq, hqa, hkv⟩

theorem syncFold_nodup (index : String) (ps : List Package) :
    ∀ acc : SyncAcc, (keysA acc.aggDeps).Nodup →
    (keysA (ps.foldl (syncStep index) acc).aggDeps).Nodup := by
  induction ps with
  | nil => intro acc h; exact h
  | cons p t ih =>
    intro acc h
    rw [List.foldl_cons]
    refine ih _ ?_
    by_cases hp : p.name = aggName
    · rw [show syncStep index acc p = acc by simp [syncStep, hp]]
      exact h
    · unfold syncStep
      rw [if_neg hp]
      by_cases hhit : (lookupT acc.aggDeps p.name).isSome = true
      · simpa [hhit]
      · simp only [hhit, Bool.false_eq_true, if_neg, not_false_eq_true]
        exact nodup_keysA_setA _ _ _ h

theorem syncFold_noop (index : String) (ps : List Package) :
    ∀ acc : SyncAcc,
    (∀ q ∈ ps, q.name ≠ aggName → (lookupT acc.aggDeps q.name).isSome = true ∧
      containsSub index q.name = true) →
    ps.foldl (syncStep index) acc =
      { acc with lines :=
          acc.lines ++ ((ps.filter (fun q => q.name != aggName)).map
            (fun q => importLine q.name)) } := by
  induction ps with
  | nil => intro acc _; simp
  | cons p t ih =>
    intro acc h
    rw [List.foldl_cons]
    by_cases hp : p.name = aggName
    · rw [show syncStep index acc p = acc by simp [syncStep, hp]]
      rw [ih acc (fun q hq => h q (List.mem_cons_of_mem _ hq))]
      rw [show (p :: t).filter (fun q => q.name != aggName) =
          t.filter (fun q => q.name != aggName) by simp [List.filter_cons, bne_iff_ne, hp]]
    · obtain ⟨hhit, hcontains⟩ := h p (List.mem_cons_self _ _) hp
      have hstep : syncStep index acc p =
          { acc with lines := acc.lines ++ [importLine p.name] } := by
        unfold syncStep
        rw [if_neg hp]
        simp [hhit, hcontains]
      rw [hstep]
      rw [ih _ (fun q hq hqa => by
        have := h q (List.mem_cons_of_mem _ hq) hqa
        exact ⟨this.1, this.2⟩)]
      rw [show (p :: t).filter (fun q => q.name != aggName) =
          p :: t.filter (fun q => q.name != aggName) by simp [List.filter_cons, bne_iff_ne, hp]]
      simp

/-! ### Characterization of the aggregator synchronizer -/

theorem persistSt_mem (st : WorkState) (p : String) (d : Package) :
    (persistSt st p d).mem = st.mem := by
  unfold persistSt
  split <;> rfl

theorem persistSt_cache (st : WorkState) (p : String) (d : Package) :
    (persistSt st p d).cache = st.cache := by
  unfold persistSt
  split <;> rfl

theorem persistSt_indexText (st : WorkState) (p : String) (d : Package) :
    (persistSt st p d).indexText = st.indexText := by
  unfold persistSt
  split <;> rfl

theorem persistSt_rootDev (st : WorkState) (p : String) (d : Package) :
    (persistSt st p d).rootDev = st.rootDev ∧
    (persistSt st p d).rootDisk = st.rootDisk := by
  unfold persistSt
  split <;> exact ⟨rfl, rfl⟩

theorem persistSt_disk_ne (st : WorkState) (p : String) (d : Package)
    (hd : d.name = p) (n : String) (hn : n ≠ p) :
    findP (persistSt st p d).disk n = findP st.disk n := by
  unfold persistSt
  split
  · rfl
  · exact findP_setP_ne st.disk p n d hd hn

theorem persistSt_disk_self (st : WorkState) (p : String) (d dp : Package)
    (hd : d.name = p) (hdisk : findP st.disk p = some dp) :
    findP (persistSt st p d).disk p = some d := by
  unfold persistSt
  split
  · assumption
  · exact findP_setP_self st.disk p dp d hdisk hd

theorem persistMsgs_eq_or (st : WorkState) (p : String) (d : Package)
    (msgs : List String) :
    persistMsgs st p d msgs = msgs ∨
    persistMsgs st p d msgs = msgs ++ ["Package data changed"] := by
  unfold persistMsgs
  split
  · exact Or.inl rfl
  · exact Or.inr rfl

theorem persistMsgs_self (st : WorkState) (p : String) (d : Package)
    (msgs : List String) (h : findP st.disk p = some d) :
    persistMsgs st p d msgs = msgs := by
  unfold persistMsgs
  rw [if_pos h]

theorem syncStateAfter_mem (st : WorkState) (agg : Package) :
    (syncStateAfter st agg).mem = setP st.mem aggName (aggAfter st agg) := by
  unfold syncStateAfter
  split
  · rw [persistSt_mem]
  · show (persistSt { st with mem := setP st.mem aggName (aggAfter st agg) }
      aggName (aggAfter st agg)).mem = _
    rw [persistSt_mem]

theorem syncStateAfter_cache (st : WorkState) (agg : Package) :
    (syncStateAfter st agg).cache = st.cache := by
  unfold syncStateAfter
  split
  · rw [persistSt_cache]
  · show (persistSt { st with mem := setP st.mem aggName (aggAfter st agg) }
      aggName (aggAfter st agg)).cache = _
    rw [persistSt_cache]

theorem syncStateAfter_rootDev (st : WorkState) (agg : Package) :
    (syncStateAfter st agg).rootDev = st.rootDev ∧
    (syncStateAfter st agg).rootDisk = st.rootDisk := by
  unfold syncStateAfter
  split
  · rw [(persistSt_rootDev _ _ _).1, (persistSt_rootDev _ _ _).2]
    exact ⟨rfl, rfl⟩
  · constructor
    · show (persistSt { st with mem := setP st.mem aggName (aggAfter st agg) }
        aggName (aggAfter st agg)).rootDev = _
      rw [(persistSt_rootDev _ _ _).1]
    · show (persistSt { st with mem := setP st.mem aggName (aggAfter st agg) }
        aggName (aggAfter st agg)).rootDisk = _
      rw [(persistSt_rootDev _ _ _).2]

theorem syncStateAfter_indexText (st : WorkState) (agg : Package) :
    (syncStateAfter st agg).indexText = joinLines (syncAccOf st agg).lines := by
  unfold syncStateAfter
  split
  · rename_i heq
    rw [persistSt_indexText]
    exact heq.symm
  · rfl

theorem syncStateAfter_disk_ne (st : WorkState) (agg : Package)
    (hagg : agg.name = aggName) (n : String) (hn : n ≠ aggName) :
    findP (syncStateAfter st agg).disk n = findP st.disk n := by
  have hname : (aggAfter st agg).name = aggName := hagg
  unfold syncStateAfter
  split
  · exact persistSt_disk_ne _ _ _ hname n hn
  · show findP (persistSt { st with mem := setP st.mem aggName (aggAfter st agg) }
      aggName (aggAfter st agg)).disk n = _
    exact persistSt_disk_ne _ _ _ hname n hn

theorem syncStateAfter_disk_agg (st : WorkState) (agg dp : Package)
    (hagg : agg.name = aggName) (hdisk : findP st.disk aggName = some dp) :
    findP (syncStateAfter st agg).disk aggName = some (aggAfter st agg) := by
  have hname : (aggAfter st agg).name = aggName := hagg
  unfold syncStateAfter
  split
  · exact persistSt_disk_self _ _ _ dp hname hdisk
  · show findP (persistSt { st with mem := setP st.mem aggName (aggAfter st agg) }
      aggName (aggAfter st agg)).disk aggName = _
    exact persistSt_disk_self _ _ _ dp hname hdisk

/-! ### Unfolding lemmas for the per-package validator -/

theorem normStage_mem (gd : String → String) (st : WorkState) (p : String)
    (data : Package) :
    (normStage gd st p data).mem = setP st.mem p (normData gd st.cache data) := rfl

theorem normStage_indexText (gd : String → String) (st : WorkState) (p : String)
    (data : Package) : (normStage gd st p data).indexText = st.indexText := rfl

theorem normData_name (gd : String → String) (cache : DepMap) (data : Package) :
    (normData gd cache data).name = data.name := rfl

theorem ensurePackage_none (gd : String → String)
    (files : String → String → List (List String)) (st : WorkState)
    (pkgName : String) (hfind : findP st.mem pkgName = none) :
    ensurePackage gd files st pkgName = (st, []) := by
  unfold ensurePackage
  rw [hfind]

theorem ensurePackage_nonagg (gd : String → String)
    (files : String → String → List (List String)) (st : WorkState)
    (pkgName : String) (data : Package)
    (hfind : findP st.mem pkgName = some data) (hagg : pkgName ≠ aggName) :
    ensurePackage gd files st pkgName =
      validateRest gd files pkgName (normStage gd st pkgName data) []
        (normData gd st.cache data) := by
  unfold ensurePackage
  rw [hfind]
  show (if pkgName = aggName then
      validateRest gd files pkgName
        (ensureAllPackages (normStage gd st pkgName data)).1
        (ensureAllPackages (normStage gd st pkgName data)).2
        (normData gd st.cache data)
    else
      validateRest gd files pkgName (normStage gd st pkgName data) []
        (normData gd st.cache data)) = _
  rw [if_neg hagg]

theorem ensurePackage_agg (gd : String → String)
    (files : String → String → List (List String)) (st : WorkState)
    (data : Package) (hfind : findP st.mem aggName = some data) :
    ensurePackage gd files st aggName =
      validateRest gd files aggName
        (ensureAllPackages (normStage gd st aggName data)).1
        (ensureAllPackages (normStage gd st aggName data)).2
        (normData gd st.cache data) := by
  unfold ensurePackage
  rw [hfind]
  show (if aggName = aggName then
      validateRest gd files aggName
        (ensureAllPackages (normStage gd st aggName data)).1
        (ensureAllPackages (normStage gd st aggName data)).2
        (normData gd st.cache data)
    else
      validateRest gd files aggName (normStage gd st aggName data) []
        (normData gd st.cache data)) = _
  rw [if_pos rfl]

theorem validateRest_empty (gd : String → String)
    (files : String → String → List (List String)) (pkgName : String)
    (st2 : WorkState) (msgs1 : List String) (data1 : Package)
    (hfls : (files st2.indexText pkgName).isEmpty = true) :
    validateRest gd files pkgName st2 msgs1 data1 =
      (persistSt st2 pkgName (dataAt st2 pkgName data1),
       persistMsgs st2 pkgName (dataAt st2 pkgName data1) msgs1) := by
  unfold validateRest
  rw [if_pos hfls]

theorem validateRest_files (gd : String → String)
    (files : String → String → List (List String)) (pkgName : String)
    (st2 : WorkState) (msgs1 : List String) (data1 : Package)
    (hfls : (files st2.indexText pkgName).isEmpty = false) :
    validateRest gd files pkgName st2 msgs1 data1 =
      (persistSt (st3Of gd files pkgName st2 data1) pkgName
         (data3Of gd files pkgName st2 data1),
       persistMsgs (st3Of gd files pkgName st2 data1) pkgName
         (data3Of gd files pkgName st2 data1)
         (msgs1 ++ (ckOf gd files pkgName st2 data1).2.2)) := by
  unfold validateRest
  rw [hfls]
  rfl

theorem dataAt_eq (st2 : WorkState) (pkgName : String) (data1 d2 : Package)
    (h : findP st2.mem pkgName = some d2) : dataAt st2 pkgName data1 = d2 := by
  unfold dataAt
  rw [h]
  rfl

/-! ### Small helpers for the claim proofs -/

theorem importNames_nil : importNames [] = [] := rfl

theorem isEmpty_false_of_mem_importNames (x : String) (fls : List (List String))
    (hx : x ∈ importNames fls) : fls.isEmpty = false := by
  cases fls with
  | nil => rw [importNames_nil] at hx; simp at hx
  | cons f t => rfl

theorem lookupT_none_of_lookupA_none (m : DepMap) (k : String)
    (h : lookupA m k = none) : lookupT m k = none := by
  unfold lookupT
  rw [h]

theorem count_missMsg_of_unused_shape (x : String) (msgs : List String)
    (h : ∀ m ∈ msgs, ∃ k, m = unusedMsg k) : msgs.count (missMsg x) = 0 := by
  rw [List.count_eq_zero]
  intro hmem
  obtain ⟨k, hk⟩ := h _ hmem
  exact missing_ne_unused x k hk

theorem count_unusedMsg_of_missing_shape (d : String) (msgs : List String)
    (h : ∀ m ∈ msgs, ∃ k, m = missMsg k) : msgs.count (unusedMsg d) = 0 := by
  rw [List.count_eq_zero]
  intro hmem
  obtain ⟨k, hk⟩ := h _ hmem
  exact missing_ne_unused k d hk.symm

theorem cacheWF_normCache (gd : String → String) (cache : DepMap) (data : Package)
    (hc : CacheWF gd cache) : CacheWF gd (normCache gd cache data) := by
  unfold normCache
  exact (normFold_eq_applyAll gd (keysA data.devDependencies) _ _
    (normFold_eq_applyAll gd (keysA data.dependencies) data.dependencies cache hc).2).2

theorem normData_deps (gd : String → String) (cache : DepMap) (data : Package)
    (hc : CacheWF gd cache) (hnd : (keysA data.dependencies).Nodup) :
    (normData gd cache data).dependencies = mapVals gd data.dependencies := by
  unfold normData
  exact (normalizeMap_spec gd data.dependencies cache hc hnd).1

theorem normData_devDeps (gd : String → String) (cache : DepMap) (data : Package)
    (hc : CacheWF gd cache) (hnd : (keysA data.devDependencies).Nodup) :
    (normData gd cache data).devDependencies = mapVals gd data.devDependencies := by
  unfold normData
  exact (normalizeMap_spec gd data.devDependencies _
    (normFold_eq_applyAll gd (keysA data.dependencies) data.dependencies cache hc).2
    hnd).1

/-! ### Claims C5 and C3 -/

/-- C5: import-specifier normalization maps `@scope/name/sub/path` to
`@scope/name` and `name/sub/path` to `name`; the relative specifiers
`./local` and `../local` normalize to the discarded identities `.` and `..`
and cause no finding for a package whose sources import only them. -/
theorem claim_C5_scope_normalization :
    (∀ scope nm rest : String, '/' ∉ scope.toList → '/' ∉ nm.toList →
      scope.toList.head? = some '@' →
      normalizeImport (scope ++ "/" ++ nm ++ "/" ++ rest) = scope ++ "/" ++ nm) ∧
    (∀ nm rest : String, '/' ∉ nm.toList → nm ≠ "" →
      nm.toList.head? ≠ some '@' →
      normalizeImport (nm ++ "/" ++ rest) = nm) ∧
    normalizeImport "./local" = "." ∧
    normalizeImport "../local" = ".." ∧
    (ensurePackage (fun _ => "1.0") (fun _ _ => [["./local", "../local"]])
      (initWork ⟨[⟨"p", "1.0.0", [], []⟩], [], ""⟩) "p").2 = [] :=
  ⟨normalizeImport_scoped, normalizeImport_unscoped, by decide, by decide, by decide⟩

/-- Witness for C5 at concrete specifiers. -/
theorem claim_C5_witness :
    normalizeImport "@scope/name/sub/path" = "@scope/name" ∧
    normalizeImport "name/sub/path" = "name" := by
  have h := claim_C5_scope_normalization
  constructor
  · have h1 := h.1 "@scope" "name" "sub/path" (by decide) (by decide) (by decide)
    have e1 : ("@scope" : String) ++ "/" ++ "name" ++ "/" ++ "sub/path" =
        "@scope/name/sub/path" := by decide
    have e2 : ("@scope" : String) ++ "/" ++ "name" = "@scope/name" := by decide
    rw [e1, e2] at h1
    exact h1
  · have h2 := h.2.1 "name" "sub/path" (by decide) (by decide) (by decide)
    have e3 : ("name" : String) ++ "/" ++ "sub/path" = "name/sub/path" := by decide
    rw [e3] at h2
    exact h2

/-- C3 (amended): for every package other than the aggregator, a normalized
identity imported by the package's sources that is not a dependency key, not
excepted, and not relative produces exactly one missing-dependency finding,
and afterwards the package's dependency map holds the canonical resolved
version-spec for it.  (The aggregator deviates: its synchronizer pre-inserts
workspace package names at caret ranges before the missing check runs.) -/
theorem claim_C3_missing_detection (gd : String → String)
    (files : String → String → List (List String)) (st : WorkState)
    (pkgName x : String) (data : Package)
    (hfind : findP st.mem pkgName = some data)
    (hagg : pkgName ≠ aggName)
    (hcache : CacheWF gd st.cache)
    (hnd : (keysA data.dependencies).Nodup)
    (hgd : ∀ n, gd n ≠ "")
    (hx : x ∈ importNames (files st.indexText pkgName))
    (hnotdep : x ∉ keysA data.dependencies)
    (hnotexc : x ∉ excList MISSING pkgName)
    (hd1 : x ≠ ".") (hd2 : x ≠ "..") :
    (ensurePackage gd files st pkgName).2.count (missMsg x) = 1 ∧
    ∃ p', findP (ensurePackage gd files st pkgName).1.mem pkgName = some p' ∧
      lookupA p'.dependencies x = some (gd x) := by
  have hname : (normData gd st.cache data).name = pkgName :=
    (normData_name gd st.cache data).trans (findP_mem _ _ _ hfind).2
  have hfls : (files st.indexText pkgName).isEmpty = false :=
    isEmpty_false_of_mem_importNames x _ hx
  rw [ensurePackage_nonagg gd files st pkgName data hfind hagg]
  have hfls2 : (files (normStage gd st pkgName data).indexText pkgName).isEmpty
      = false := hfls
  rw [validateRest_files gd files pkgName (normStage gd st pkgName data) []
    (normData gd st.cache data) hfls2]
  have hfind2 : findP (normStage gd st pkgName data).mem pkgName =
      some (normData gd st.cache data) :=
    findP_setP_self st.mem pkgName data (normData gd st.cache data) hfind hname
  have hdataAt : dataAt (normStage gd st pkgName data) pkgName
      (normData gd st.cache data) = normData gd st.cache data :=
    dataAt_eq _ _ _ _ hfind2
  have hc2 : CacheWF gd (normStage gd st pkgName data).cache :=
    cacheWF_normCache gd st.cache data hcache
  have hdeps1 : (normData gd st.cache data).dependencies =
      mapVals gd data.dependencies := normData_deps gd st.cache data hcache hnd
  -- the missing-dependency fold on the normalized map
  have hnone : lookupT (mapVals gd data.dependencies) x = none := by
    refine lookupT_none_of_lookupA_none _ _ ?_
    rw [lookupA_mapVals]
    rw [(lookupA_eq_none_iff data.dependencies x).mpr hnotdep]
    rfl
  have hmiss := missFold_triggers gd (excList MISSING pkgName)
    (importNames (files st.indexText pkgName)) (mapVals gd data.dependencies)
    (normStage gd st pkgName data).cache [] x hc2 (hgd x) hx hnotexc hd1 hd2 hnone
  -- unpack ckOf
  have hck : ckOf gd files pkgName (normStage gd st pkgName data)
      (normData gd st.cache data) =
      ((unusedOut pkgName (importNames (files st.indexText pkgName))
         (missOut gd pkgName (importNames (files st.indexText pkgName))
           (normStage gd st pkgName data).cache (mapVals gd data.dependencies)).1).1,
       (missOut gd pkgName (importNames (files st.indexText pkgName))
         (normStage gd st pkgName data).cache (mapVals gd data.dependencies)).2.1,
       (missOut gd pkgName (importNames (files st.indexText pkgName))
         (normStage gd st pkgName data).cache (mapVals gd data.dependencies)).2.2 ++
       (unusedOut pkgName (importNames (files st.indexText pkgName))
         (missOut gd pkgName (importNames (files st.indexText pkgName))
           (normStage gd st pkgName data).cache (mapVals gd data.dependencies)).1).2) := by
    unfold ckOf checkDeps
    rw [hdataAt, hdeps1]
    rfl
  set names := importNames (files st.indexText pkgName) with hnames
  set mo := missOut gd pkgName names (normStage gd st pkgName data).cache
    (mapVals gd data.dependencies) with hmo
  set uo := unusedOut pkgName names mo.1 with huo
  have hmo_eq : mo = names.foldl (missStep gd (excList MISSING pkgName))
      (mapVals gd data.dependencies, (normStage gd st pkgName data).cache, []) := rfl
  rw [← hmo_eq] at hmiss
  -- the unused fold preserves the new entry and adds no missing finding
  have hupres := unusedFold_preserve (excList UNUSED pkgName) names (keysA mo.1)
    mo.1 [] x (Or.inr hx)
  have hushape := unusedFold_msgs_shape (excList UNUSED pkgName) names
    (keysA mo.1) mo.1 []
  have huo_eq : uo = (keysA mo.1).foldl (unusedStep (excList UNUSED pkgName) names)
      (mo.1, []) := rfl
  constructor
  · -- exactly one finding
    rcases persistMsgs_eq_or (st3Of gd files pkgName (normStage gd st pkgName data)
        (normData gd st.cache data)) pkgName
        (data3Of gd files pkgName (normStage gd st pkgName data)
          (normData gd st.cache data))
        ([] ++ (ckOf gd files pkgName (normStage gd st pkgName data)
          (normData gd st.cache data)).2.2) with hmsg | hmsg <;>
    · rw [hmsg, hck]
      have h1 : mo.2.2.count (missMsg x) = 1 := by
        simpa using hmiss.2
      have h2 : uo.2.count (missMsg x) = 0 := by
        refine count_missMsg_of_unused_shape x uo.2 ?_
        intro m hm
        rw [huo_eq] at hm
        rcases hushape m hm with h' | ⟨k, _, hk⟩
        · simp at h'
        · exact ⟨k, hk⟩
      have hpdc : ¬ "Package data changed" = missMsg x :=
        fun hh => missing_ne_pdc x hh.symm
      simp [List.count_append, List.count_singleton', h1, h2, hpdc]
  · -- the entry holds the canonical spec
    refine ⟨data3Of gd files pkgName (normStage gd st pkgName data)
      (normData gd st.cache data), ?_, ?_⟩
    · rw [persistSt_mem]
      show findP (setP (normStage gd st pkgName data).mem pkgName _) pkgName = _
      refine findP_setP_self _ _ (normData gd st.cache data) _ hfind2 ?_
      show (dataAt (normStage gd st pkgName data) pkgName
        (normData gd st.cache data)).name = pkgName
      rw [hdataAt]
      exact hname
    · show lookupA (data3Of gd files pkgName (normStage gd st pkgName data)
        (normData gd st.cache data)).dependencies x = some (gd x)
      have hd3 : (data3Of gd files pkgName (normStage gd st pkgName data)
          (normData gd st.cache data)).dependencies = uo.1 := by
        unfold data3Of
        rw [hck]
      rw [hd3, huo_eq, hupres.1]
      exact hmiss.1

/-- Witness for C3: a package importing `lodash` without declaring it gains it
at the canonical version with exactly one finding. -/
theorem claim_C3_witness :
    (ensurePackage (fun _ => "1.0") (fun _ _ => [["lodash"]])
      (initWork ⟨[⟨"A", "1.0.0", [], []⟩], [], ""⟩) "A").2.count
        (missMsg "lodash") = 1 ∧
    ∃ p', findP (ensurePackage (fun _ => "1.0") (fun _ _ => [["lodash"]])
      (initWork ⟨[⟨"A", "1.0.0", [], []⟩], [], ""⟩) "A").1.mem "A" = some p' ∧
      lookupA p'.dependencies "lodash" = some "1.0" :=
  claim_C3_missing_detection (fun _ => "1.0") (fun _ _ => [["lodash"]])
    (initWork ⟨[⟨"A", "1.0.0", [], []⟩], [], ""⟩) "A" "lodash"
    ⟨"A", "1.0.0", [], []⟩ (by decide) (by decide) (cacheWF_nil _) (by decide)
    (fun n => show ("1.0" : String) ≠ "" by decide) (by decide) (by decide) (by decide) (by decide) (by decide)

/-- Counterexample to C3 as stated: the aggregator's generated index imports
the workspace package `Q`, `Q` is not a key of the aggregator's dependencies,
not excepted and not relative — yet the run produces zero
`"Missing dependency: Q"` findings (the synchronizer pre-inserts `Q` at
`^1.0.0` before the missing check runs) and the entry ends the run at the
caret range, not the resolver's canonical `~9.9`. -/
theorem claim_C3_counterexample :
    ("Q" : String) ∈ importNames (stdGlob (fun _ => [])
      (ensureIntegrity (fun _ => "~9.9") (stdGlob (fun _ => []))
        ⟨[⟨"@jupyterlab/all-packages", "1.0", [], []⟩,
          ⟨"Q", "1.0.0", [], []⟩], [], ""⟩).1.indexText
      "@jupyterlab/all-packages") ∧
    (ensureIntegrity (fun _ => "~9.9") (stdGlob (fun _ => []))
      ⟨[⟨"@jupyterlab/all-packages", "1.0", [], []⟩,
        ⟨"Q", "1.0.0", [], []⟩], [], ""⟩).2.pkgMsgs =
      [("@jupyterlab/all-packages",
        ["Updated: Q", "Package data changed", "Index changed"])] ∧
    findP (ensureIntegrity (fun _ => "~9.9") (stdGlob (fun _ => []))
      ⟨[⟨"@jupyterlab/all-packages", "1.0", [], []⟩,
        ⟨"Q", "1.0.0", [], []⟩], [], ""⟩).1.pkgs "@jupyterlab/all-packages" =
      some ⟨"@jupyterlab/all-packages", "1.0", [("Q", "^1.0.0")], []⟩ ∧
    ("^1.0.0" : String) ≠ "~9.9" := by
  refine ⟨?_, ?_, ?_, ?_⟩ <;> decide

theorem eq_of_mem_name_nodup (ps : List Package) (p q : Package)
    (hp : p ∈ ps) (hq : q ∈ ps) (hnd : (ps.map Package.name).Nodup)
    (h : p.name = q.name) : p = q := by
  induction ps with
  | nil => simp at hp
  | cons r t ih =>
    simp only [List.map_cons, List.nodup_cons] at hnd
    rcases List.mem_cons.mp hp with rfl | hp' <;>
      rcases List.mem_cons.mp hq with rfl | hq'
    · rfl
    · exact absurd (h ▸ List.mem_map.mpr ⟨q, hq', rfl⟩) hnd.1
    · exact absurd (h ▸ List.mem_map.mpr ⟨p, hp', rfl⟩) hnd.1
    · exact ih hp' hq' hnd.2

theorem syncFold_keys_mono (index : String) (ps : List Package) :
    ∀ (acc : SyncAcc) (k : String), k ∈ keysA acc.aggDeps →
    k ∈ keysA (ps.foldl (syncStep index) acc).aggDeps := by
  induction ps with
  | nil => intro acc k h; exact h
  | cons p t ih =>
    intro acc k h
    rw [List.foldl_cons]
    refine ih _ k ?_
    by_cases hp : p.name = aggName
    · rw [show syncStep index acc p = acc by simp [syncStep, hp]]
      exact h
    · unfold syncStep
      rw [if_neg hp]
      by_cases hhit : (lookupT acc.aggDeps p.name).isSome = true
      · simpa [hhit] using h
      · simp only [hhit, Bool.false_eq_true, if_neg, not_false_eq_true]
        exact (mem_keysA_setA acc.aggDeps p.name _ k).mpr (Or.inl h)

theorem syncFold_truthy_preserve (index : String) (ps : List Package) :
    ∀ (acc : SyncAcc) (k v : String), lookupA acc.aggDeps k = some v → v ≠ "" →
    lookupA (ps.foldl (syncStep index) acc).aggDeps k = some v := by
  induction ps with
  | nil => intro acc k v h _; exact h
  | cons p t ih =>
    intro acc k v h hv
    rw [List.foldl_cons]
    refine ih _ k v ?_ hv
    by_cases hp : p.name = aggName
    · rw [show syncStep index acc p = acc by simp [syncStep, hp]]
      exact h
    · unfold syncStep
      rw [if_neg hp]
      by_cases hhit : (lookupT acc.aggDeps p.name).isSome = true
      · simpa [hhit] using h
      · simp only [hhit, Bool.false_eq_true, if_neg, not_false_eq_true]
        have hpk : ¬ p.name = k := by
          intro hh
          subst hh
          exact hhit (lookupT_isSome_of_lookupA acc.aggDeps p.name v h hv)
        rw [lookupA_setA_ne acc.aggDeps p.name _ k (fun hh => hpk hh.symm)]
        exact h

theorem syncFold_inserts (index : String) (ps : List Package) :
    ∀ (acc : SyncAcc) (q : Package), q ∈ ps → q.name ≠ aggName →
    lookupT acc.aggDeps q.name = none →
    (∀ p ∈ ps, p.name = q.name → p = q) →
    lookupA (ps.foldl (syncStep index) acc).aggDeps q.name =
      some ("^" ++ q.version) := by
  induction ps with
  | nil => intro acc q hq; simp at hq
  | cons p t ih =>
    intro acc q hq hqa hnone huniq
    rw [List.foldl_cons]
    by_cases hpagg : p.name = aggName
    · rw [show syncStep index acc p = acc by simp [syncStep, hpagg]]
      have hq' : q ∈ t := by
        rcases List.mem_cons.mp hq with rfl | h
        · exact absurd hpagg hqa
        · exact h
      exact ih acc q hq' hqa hnone
        (fun p' hp' => huniq p' (List.mem_cons_of_mem _ hp'))
    · by_cases hpq : p.name = q.name
      · have hpq' : p = q := huniq p (List.mem_cons_self _ _) hpq
        subst hpq'
        refine syncFold_truthy_preserve index t _ p.name ("^" ++ p.version) ?_
          (caret_ne_empty _)
        show lookupA (syncStep index acc p).aggDeps p.name = _
        unfold syncStep
        rw [if_neg hpagg]
        have hhit : (lookupT acc.aggDeps p.name).isSome = false := by
          rw [hnone]
          rfl
        simp only [hhit, Bool.false_eq_true, if_neg, not_false_eq_true]
        exact lookupA_setA_self acc.aggDeps p.name _
      · have hq' : q ∈ t := by
          rcases List.mem_cons.mp hq with rfl | h
          · exact absurd rfl hpq
          · exact h
        refine ih (syncStep index acc p) q hq' hqa ?_
          (fun p' hp' => huniq p' (List.mem_cons_of_mem _ hp'))
        have hlook : lookupA (syncStep index acc p).aggDeps q.name =
            lookupA acc.aggDeps q.name := by
          unfold syncStep
          rw [if_neg hpagg]
          by_cases hhit : (lookupT acc.aggDeps p.name).isSome = true
          · simp [hhit]
          · simp only [hhit, Bool.false_eq_true, if_neg, not_false_eq_true]
            exact lookupA_setA_ne acc.aggDeps p.name _ q.name
              (fun hh => hpq hh.symm)
        unfold lookupT at hnone ⊢
        rw [hlook]
        exact hnone

theorem syncFold_msgs_shape (index : String) (ps : List Package) :
    ∀ acc : SyncAcc, ∀ m ∈ (ps.foldl (syncStep index) acc).msgs,
      m ∈ acc.msgs ∨ ∃ n, m = "Updated: " ++ n := by
  induction ps with
  | nil => intro acc m h; exact Or.inl h
  | cons p t ih =>
    intro acc m hm
    rw [List.foldl_cons] at hm
    rcases ih _ m hm with h' | h'
    · by_cases hp : p.name = aggName
      · rw [show syncStep index acc p = acc by simp [syncStep, hp]] at h'
        exact Or.inl h'
      · unfold syncStep at h'
        rw [if_neg hp] at h'
        by_cases hv : ((lookupT acc.aggDeps p.name).isSome &&
            containsSub index p.name) = true
        · simp only [hv, if_pos] at h'
          exact Or.inl h'
        · simp only [hv, Bool.false_eq_true, if_neg, not_false_eq_true] at h'
          rcases List.mem_append.mp h' with h'' | h''
          · exact Or.inl h''
          · simp only [List.mem_singleton] at h''
            exact Or.inr ⟨p.name, h''⟩
    · exact Or.inr h'

theorem syncMsgsOf_count_unused (st : WorkState) (agg : Package) (d : String) :
    (syncMsgsOf st agg).count (unusedMsg d) = 0 := by
  have hacc : ((syncAccOf st agg).msgs).count (unusedMsg d) = 0 := by
    rw [List.count_eq_zero]
    intro hmem
    rcases syncFold_msgs_shape st.indexText st.mem
        ⟨agg.dependencies, (splitLines st.indexText).take 3, []⟩
        (unusedMsg d) hmem with h' | ⟨n, hn⟩
    · simp at h'
    · exact unused_ne_updated d n hn
  have hpdc : ¬ "Package data changed" = unusedMsg d :=
    fun hh => unused_ne_pdc d hh.symm
  have hic : ¬ "Index changed" = unusedMsg d :=
    fun hh => unused_ne_index d hh.symm
  unfold syncMsgsOf
  split <;>
  · rcases persistMsgs_eq_or
      { st with mem := setP st.mem aggName (aggAfter st agg) } aggName
      (aggAfter st agg) (syncAccOf st agg).msgs with h | h <;>
    simp [h, List.count_append, List.count_cons, beq_iff_eq, hacc, hpdc, hic]

theorem validateRest_indexText (gd : String → String)
    (files : String → String → List (List String)) (pkgName : String)
    (st2 : WorkState) (msgs1 : List String) (data1 : Package) :
    (validateRest gd files pkgName st2 msgs1 data1).1.indexText =
      st2.indexText := by
  unfold validateRest
  split
  · exact persistSt_indexText _ _ _
  · rw [persistSt_indexText]
    rfl

/-- The unused-dependency behaviour of the validator tail (steps 3–6) on any
package record it is given: a dependency key that is neither imported nor
excepted is removed with exactly one finding; an excepted key always
survives. -/
theorem validateRest_unused (gd : String → String)
    (files : String → String → List (List String)) (pkgName d : String)
    (st2 : WorkState) (msgs1 : List String) (data1 d2 : Package)
    (hfind2 : findP st2.mem pkgName = some d2)
    (hd2n : d2.name = pkgName)
    (hfls : (files st2.indexText pkgName).isEmpty = false)
    (hnd2 : (keysA d2.dependencies).Nodup)
    (hd : d ∈ keysA d2.dependencies)
    (hclean : msgs1.count (unusedMsg d) = 0) :
    (d ∉ importNames (files st2.indexText pkgName) →
      d ∉ excList UNUSED pkgName →
      (validateRest gd files pkgName st2 msgs1 data1).2.count (unusedMsg d) = 1 ∧
      ∃ p', findP (validateRest gd files pkgName st2 msgs1 data1).1.mem pkgName =
          some p' ∧ d ∉ keysA p'.dependencies) ∧
    (d ∈ excList UNUSED pkgName →
      ∃ p', findP (validateRest gd files pkgName st2 msgs1 data1).1.mem pkgName =
          some p' ∧ d ∈ keysA p'.dependencies) := by
  have hda : dataAt st2 pkgName data1 = d2 := dataAt_eq _ _ _ _ hfind2
  rw [validateRest_files gd files pkgName st2 msgs1 data1 hfls]
  have hck : ckOf gd files pkgName st2 data1 =
      ((unusedOut pkgName (importNames (files st2.indexText pkgName))
         (missOut gd pkgName (importNames (files st2.indexText pkgName))
           st2.cache d2.dependencies).1).1,
       (missOut gd pkgName (importNames (files st2.indexText pkgName))
         st2.cache d2.dependencies).2.1,
       (missOut gd pkgName (importNames (files st2.indexText pkgName))
         st2.cache d2.dependencies).2.2 ++
       (unusedOut pkgName (importNames (files st2.indexText pkgName))
         (missOut gd pkgName (importNames (files st2.indexText pkgName))
           st2.cache d2.dependencies).1).2) := by
    unfold ckOf checkDeps
    rw [hda]
  set names := importNames (files st2.indexText pkgName) with hnames
  set mo := missOut gd pkgName names st2.cache d2.dependencies with hmo
  set uo := unusedOut pkgName names mo.1 with huo
  have hmo_eq : mo = names.foldl (missStep gd (excList MISSING pkgName))
      (d2.dependencies, st2.cache, []) := rfl
  have huo_eq : uo = (keysA mo.1).foldl (unusedStep (excList UNUSED pkgName) names)
      (mo.1, []) := rfl
  have hdmo : d ∈ keysA mo.1 := by
    rw [hmo_eq]
    exact missFold_keys_mono gd _ names _ _ [] d hd
  have hndmo : (keysA mo.1).Nodup := by
    rw [hmo_eq]
    exact missFold_nodup gd _ names _ _ [] hnd2
  have hmiss_shape := missFold_msgs_shape gd (excList MISSING pkgName) names
    d2.dependencies st2.cache []
  have hfinal : findP (persistSt (st3Of gd files pkgName st2 data1) pkgName
      (data3Of gd files pkgName st2 data1)).mem pkgName =
      some (data3Of gd files pkgName st2 data1) := by
    rw [persistSt_mem]
    show findP (setP st2.mem pkgName _) pkgName = _
    refine findP_setP_self _ _ d2 _ hfind2 ?_
    show (dataAt st2 pkgName data1).name = pkgName
    rw [hda]
    exact hd2n
  have hd3 : (data3Of gd files pkgName st2 data1).dependencies = uo.1 := by
    unfold data3Of
    rw [hck]
  constructor
  · intro hdnames hdexc
    have hrem := unusedFold_removes (excList UNUSED pkgName) names (keysA mo.1)
      mo.1 [] d hndmo hndmo hdmo hdexc hdnames
    constructor
    · rcases persistMsgs_eq_or (st3Of gd files pkgName st2 data1) pkgName
          (data3Of gd files pkgName st2 data1)
          (msgs1 ++ (ckOf gd files pkgName st2 data1).2.2) with hmsg | hmsg <;>
      · rw [hmsg, hck]
        have h1 : mo.2.2.count (unusedMsg d) = 0 := by
          refine count_unusedMsg_of_missing_shape d mo.2.2 ?_
          intro m hm
          rw [hmo_eq] at hm
          rcases hmiss_shape m hm with h' | ⟨k, _, hk⟩
          · simp at h'
          · exact ⟨k, hk⟩
        have h2 : uo.2.count (unusedMsg d) = 1 := by
          rw [huo_eq]
          simpa using hrem.2
        have hpdc : ¬ "Package data changed" = unusedMsg d :=
          fun hh => unused_ne_pdc d hh.symm
        simp [List.count_append, List.count_singleton', h1, h2, hpdc, hclean]
    · refine ⟨data3Of gd files pkgName st2 data1, hfinal, ?_⟩
      rw [hd3, huo_eq]
      exact hrem.1
  · intro hdexc
    refine ⟨data3Of gd files pkgName st2 data1, hfinal, ?_⟩
    rw [hd3, huo_eq]
    have hpres := unusedFold_preserve (excList UNUSED pkgName) names (keysA mo.1)
      mo.1 [] d (Or.inl hdexc)
    rw [← lookupA_isSome_iff, hpres.1, lookupA_isSome_iff]
    exact hdmo

/-- C4: for every package — the aggregator included — a declared dependency
key that is neither among the validate-time import identities nor excepted is
removed with exactly one unused-dependency finding, and an excepted key is
never removed.  (The validate-time index text is the call's resulting index,
since the script re-reads sources after the synchronizer may rewrite it.) -/
theorem claim_C4_unused_detection (gd : String → String)
    (files : String → String → List (List String)) (st : WorkState)
    (pkgName d : String) (data : Package)
    (hfind : findP st.mem pkgName = some data)
    (hcache : CacheWF gd st.cache)
    (hnd : (keysA data.dependencies).Nodup)
    (hfls : (files (ensurePackage gd files st pkgName).1.indexText
      pkgName).isEmpty = false)
    (hd : d ∈ keysA data.dependencies) :
    (d ∉ importNames (files (ensurePackage gd files st pkgName).1.indexText
        pkgName) →
      d ∉ excList UNUSED pkgName →
      (ensurePackage gd files st pkgName).2.count (unusedMsg d) = 1 ∧
      ∃ p', findP (ensurePackage gd files st pkgName).1.mem pkgName = some p' ∧
        d ∉ keysA p'.dependencies) ∧
    (d ∈ excList UNUSED pkgName →
      ∃ p', findP (ensurePackage gd files st pkgName).1.mem pkgName = some p' ∧
        d ∈ keysA p'.dependencies) := by
  have hdata_name : data.name = pkgName := (findP_mem st.mem pkgName data hfind).2
  have hdeps1 : (normData gd st.cache data).dependencies =
      mapVals gd data.dependencies := normData_deps gd st.cache data hcache hnd
  by_cases hagg : pkgName = aggName
  · subst hagg
    have hfind1 : findP (normStage gd st aggName data).mem aggName =
        some (normData gd st.cache data) := by
      rw [normStage_mem]
      exact findP_setP_self st.mem aggName data _ hfind hdata_name
    have hEAP : ensureAllPackages (normStage gd st aggName data) =
        (syncStateAfter (normStage gd st aggName data) (normData gd st.cache data),
         syncMsgsOf (normStage gd st aggName data) (normData gd st.cache data)) := by
      unfold ensureAllPackages
      rw [hfind1]
    rw [ensurePackage_agg gd files st data hfind, hEAP] at hfls ⊢
    rw [validateRest_indexText] at hfls ⊢
    have hfind2 : findP (syncStateAfter (normStage gd st aggName data)
        (normData gd st.cache data)).mem aggName =
        some (aggAfter (normStage gd st aggName data)
          (normData gd st.cache data)) := by
      rw [syncStateAfter_mem]
      exact findP_setP_self _ aggName _ _ hfind1 hdata_name
    have hnd2 : (keysA (aggAfter (normStage gd st aggName data)
        (normData gd st.cache data)).dependencies).Nodup := by
      refine syncFold_nodup (normStage gd st aggName data).indexText
        (normStage gd st aggName data).mem
        ⟨(normData gd st.cache data).dependencies,
         (splitLines (normStage gd st aggName data).indexText).take 3, []⟩ ?_
      show (keysA (normData gd st.cache data).dependencies).Nodup
      rw [hdeps1, keysA_mapVals]
      exact hnd
    have hd2 : d ∈ keysA (aggAfter (normStage gd st aggName data)
        (normData gd st.cache data)).dependencies := by
      refine syncFold_keys_mono (normStage gd st aggName data).indexText
        (normStage gd st aggName data).mem
        ⟨(normData gd st.cache data).dependencies,
         (splitLines (normStage gd st aggName data).indexText).take 3, []⟩ d ?_
      show d ∈ keysA (normData gd st.cache data).dependencies
      rw [hdeps1, keysA_mapVals]
      exact hd
    exact validateRest_unused gd files aggName d
      (syncStateAfter (normStage gd st aggName data) (normData gd st.cache data))
      (syncMsgsOf (normStage gd st aggName data) (normData gd st.cache data))
      (normData gd st.cache data)
      (aggAfter (normStage gd st aggName data) (normData gd st.cache data))
      hfind2 hdata_name hfls hnd2 hd2
      (syncMsgsOf_count_unused (normStage gd st aggName data)
        (normData gd st.cache data) d)
  · rw [ensurePackage_nonagg gd files st pkgName data hfind hagg] at hfls ⊢
    rw [validateRest_indexText] at hfls ⊢
    have hfind2 : findP (normStage gd st pkgName data).mem pkgName =
        some (normData gd st.cache data) := by
      rw [normStage_mem]
      exact findP_setP_self st.mem pkgName data _ hfind hdata_name
    have hnd2 : (keysA (normData gd st.cache data).dependencies).Nodup := by
      rw [hdeps1, keysA_mapVals]
      exact hnd
    have hd2 : d ∈ keysA (normData gd st.cache data).dependencies := by
      rw [hdeps1, keysA_mapVals]
      exact hd
    exact validateRest_unused gd files pkgName d (normStage gd st pkgName data)
      [] (normData gd st.cache data) (normData gd st.cache data)
      hfind2 hdata_name hfls hnd2 hd2 rfl

/-- Witness for C4: an unimported dependency is removed with one finding, and
an excepted unimported dependency survives. -/
theorem claim_C4_witness :
    ((ensurePackage (fun _ => "1.0") (fun _ _ => [[]])
      (initWork ⟨[⟨"B", "2.0.0", [("left-pad", "0.1")], []⟩], [], ""⟩) "B").2.count
        (unusedMsg "left-pad") = 1 ∧
     ∃ p', findP (ensurePackage (fun _ => "1.0") (fun _ _ => [[]])
      (initWork ⟨[⟨"B", "2.0.0", [("left-pad", "0.1")], []⟩], [], ""⟩) "B").1.mem
        "B" = some p' ∧ "left-pad" ∉ keysA p'.dependencies) ∧
    (∃ p', findP (ensurePackage (fun _ => "1.0") (fun _ _ => [[]])
      (initWork ⟨[⟨"@jupyterlab/vega2-extension", "1.0.0", [("d3", "0.1")], []⟩],
        [], ""⟩) "@jupyterlab/vega2-extension").1.mem
        "@jupyterlab/vega2-extension" = some p' ∧ "d3" ∈ keysA p'.dependencies) :=
  ⟨(claim_C4_unused_detection (fun _ => "1.0") (fun _ _ => [[]])
      (initWork ⟨[⟨"B", "2.0.0", [("left-pad", "0.1")], []⟩], [], ""⟩)
      "B" "left-pad" ⟨"B", "2.0.0", [("left-pad", "0.1")], []⟩
      (by decide) (cacheWF_nil _) (by decide) (by decide) (by decide)).1
    (by decide) (by decide),
   (claim_C4_unused_detection (fun _ => "1.0") (fun _ _ => [[]])
      (initWork ⟨[⟨"@jupyterlab/vega2-extension", "1.0.0", [("d3", "0.1")], []⟩],
        [], ""⟩)
      "@jupyterlab/vega2-extension" "d3"
      ⟨"@jupyterlab/vega2-extension", "1.0.0", [("d3", "0.1")], []⟩
      (by decide) (cacheWF_nil _) (by decide) (by decide) (by decide)).2
    (by decide)⟩

/-! ### Claim C6: aggregator completeness -/

theorem importLine_inj : Function.Injective importLine := by
  intro a b h
  have h' := congrArg String.data h
  simp only [importLine, String.data_append] at h'
  exact String.ext (List.append_cancel_left (List.append_cancel_right h'))

/-- C6: after the synchronizer runs, the aggregator's dependency map holds a
truthy entry for every other workspace package — set to the caret range of
the package's version whenever the entry was absent (falsy) beforehand — and
the regenerated index is exactly the three preserved header lines followed by
one generated import line per non-aggregator package, in which each package's
generated line occurs exactly once. -/
theorem claim_C6_aggregator_completeness (st : WorkState) (agg : Package)
    (hfind : findP st.mem aggName = some agg)
    (hnd : (st.mem.map Package.name).Nodup) :
    ∀ q ∈ st.mem, q.name ≠ aggName →
      (∃ agg', findP (ensureAllPackages st).1.mem aggName = some agg' ∧
        (lookupT agg'.dependencies q.name).isSome = true ∧
        (lookupT agg.dependencies q.name = none →
          lookupA agg'.dependencies q.name = some ("^" ++ q.version))) ∧
      ((st.mem.filter (fun p => p.name != aggName)).map
        (fun p => importLine p.name)).count (importLine q.name) = 1 ∧
      (ensureAllPackages st).1.indexText =
        joinLines ((splitLines st.indexText).take 3 ++
          (st.mem.filter (fun p => p.name != aggName)).map
            (fun p => importLine p.name)) := by
  intro q hq hqa
  have haggname : agg.name = aggName := (findP_mem _ _ _ hfind).2
  have hres : ensureAllPackages st = (syncStateAfter st agg, syncMsgsOf st agg) := by
    unfold ensureAllPackages
    rw [hfind]
  refine ⟨⟨aggAfter st agg, ?_, ?_, ?_⟩, ?_, ?_⟩
  · rw [hres, syncStateAfter_mem]
    exact findP_setP_self st.mem aggName agg (aggAfter st agg) hfind haggname
  · show (lookupT (syncAccOf st agg).aggDeps q.name).isSome = true
    exact syncFold_covers st.indexText st.mem _ q hq hqa
  · intro h0
    show lookupA (syncAccOf st agg).aggDeps q.name = some ("^" ++ q.version)
    exact syncFold_inserts st.indexText st.mem
      ⟨agg.dependencies, (splitLines st.indexText).take 3, []⟩ q hq hqa h0
      (fun p hp hpq => eq_of_mem_name_nodup st.mem p q hp hq hnd hpq)
  · rw [show (st.mem.filter (fun p => p.name != aggName)).map
        (fun p => importLine p.name) =
        ((st.mem.filter (fun p => p.name != aggName)).map Package.name).map
          importLine by rw [List.map_map]; rfl]
    rw [List.count_map_of_injective _ importLine importLine_inj]
    refine List.count_eq_one_of_mem ?_ ?_
    · exact ((List.filter_sublist st.mem).map Package.name).nodup hnd
    · exact List.mem_map.mpr ⟨q, List.mem_filter.mpr
        ⟨hq, by simp [bne_iff_ne, hqa]⟩, rfl⟩
  · rw [hres, syncStateAfter_indexText]
    unfold syncAccOf
    rw [syncFold_lines]

/-- Witness for C6 on a two-package workspace: the initially-absent entry is
inserted at the caret range of the other package's version. -/
theorem claim_C6_witness :
    (∃ agg', findP (ensureAllPackages (initWork
        ⟨[⟨aggName, "0.1.0", [], []⟩, ⟨"@jupyterlab/q", "1.0.0", [], []⟩],
          [], "h0\nh1\nh2"⟩)).1.mem aggName = some agg' ∧
      (lookupT agg'.dependencies "@jupyterlab/q").isSome = true ∧
      (lookupT (Package.dependencies ⟨aggName, "0.1.0", [], []⟩)
          "@jupyterlab/q" = none →
        lookupA agg'.dependencies "@jupyterlab/q" =
          some ("^" ++ "1.0.0"))) ∧
    (((initWork ⟨[⟨aggName, "0.1.0", [], []⟩, ⟨"@jupyterlab/q", "1.0.0", [], []⟩],
        [], "h0\nh1\nh2"⟩).mem.filter (fun p => p.name != aggName)).map
      (fun p => importLine p.name)).count (importLine "@jupyterlab/q") = 1 ∧
    (ensureAllPackages (initWork
        ⟨[⟨aggName, "0.1.0", [], []⟩, ⟨"@jupyterlab/q", "1.0.0", [], []⟩],
          [], "h0\nh1\nh2"⟩)).1.indexText =
      joinLines ((splitLines "h0\nh1\nh2").take 3 ++
        ((initWork ⟨[⟨aggName, "0.1.0", [], []⟩, ⟨"@jupyterlab/q", "1.0.0", [], []⟩],
          [], "h0\nh1\nh2"⟩).mem.filter (fun p => p.name != aggName)).map
          (fun p => importLine p.name)) :=
  claim_C6_aggregator_completeness
    (initWork ⟨[⟨aggName, "0.1.0", [], []⟩, ⟨"@jupyterlab/q", "1.0.0", [], []⟩],
      [], "h0\nh1\nh2"⟩)
    ⟨aggName, "0.1.0", [], []⟩ (by decide) (by decide)
    ⟨"@jupyterlab/q", "1.0.0", [], []⟩ (by decide) (by decide)

/-! ### Claim C7: the zero-source-file fast path -/

/-- Counterexample to C7 as stated: for the aggregator package the
zero-source-file fast path does *not* skip the aggregator special-case — with
an empty source-file list the synchronizer still runs, producing `"Updated"`
and `"Index changed"` findings and rewriting the index. -/
theorem claim_C7_counterexample :
    (fun (_ : String) (_ : String) => ([] : List (List String)))
      "h0\nh1\nh2" aggName = [] ∧
    (ensurePackage (fun _ => "1.0") (fun _ _ => [])
      (initWork ⟨[⟨aggName, "0.1.0", [], []⟩, ⟨"@jupyterlab/q", "1.0.0", [], []⟩],
        [], "h0\nh1\nh2"⟩) aggName).2 =
      ["Updated: @jupyterlab/q", "Package data changed", "Index changed"] ∧
    (ensurePackage (fun _ => "1.0") (fun _ _ => [])
      (initWork ⟨[⟨aggName, "0.1.0", [], []⟩, ⟨"@jupyterlab/q", "1.0.0", [], []⟩],
        [], "h0\nh1\nh2"⟩) aggName).1.indexText =
      "h0\nh1\nh2\nimport \"@jupyterlab/q\";\n" := by
  refine ⟨rfl, ?_, ?_⟩ <;> decide

/-- C7 as amended: a non-aggregator package with zero matching source files
skips import collection and the missing/unused detection — only version
normalization and the conditional persist happen, so its maps are canonically
re-pointed with unchanged key sets and at most a `"Package data changed"`
finding is emitted.  (The aggregator special-case, by contrast, runs before
the source-file check and is not skipped; see the counterexample.) -/
theorem claim_C7_amended (gd : String → String)
    (files : String → String → List (List String)) (st : WorkState)
    (pkgName : String) (data : Package)
    (hfind : findP st.mem pkgName = some data)
    (hagg : pkgName ≠ aggName)
    (hcache : CacheWF gd st.cache)
    (hnd : (keysA data.dependencies).Nodup)
    (hndd : (keysA data.devDependencies).Nodup)
    (hempty : files st.indexText pkgName = []) :
    ∃ p', findP (ensurePackage gd files st pkgName).1.mem pkgName = some p' ∧
      p'.dependencies = mapVals gd data.dependencies ∧
      p'.devDependencies = mapVals gd data.devDependencies ∧
      ((ensurePackage gd files st pkgName).2 = [] ∨
       (ensurePackage gd files st pkgName).2 = ["Package data changed"]) := by
  have hname : (normData gd st.cache data).name = pkgName :=
    (normData_name gd st.cache data).trans (findP_mem _ _ _ hfind).2
  rw [ensurePackage_nonagg gd files st pkgName data hfind hagg]
  have hfls : (files (normStage gd st pkgName data).indexText pkgName).isEmpty
      = true := by
    rw [normStage_indexText, hempty]
    rfl
  rw [validateRest_empty gd files pkgName (normStage gd st pkgName data) []
    (normData gd st.cache data) hfls]
  have hfind2 : findP (normStage gd st pkgName data).mem pkgName =
      some (normData gd st.cache data) :=
    findP_setP_self st.mem pkgName data (normData gd st.cache data) hfind hname
  have hdataAt : dataAt (normStage gd st pkgName data) pkgName
      (normData gd st.cache data) = normData gd st.cache data :=
    dataAt_eq _ _ _ _ hfind2
  refine ⟨normData gd st.cache data, ?_, ?_, ?_, ?_⟩
  · rw [persistSt_mem]
    exact hfind2
  · exact normData_deps gd st.cache data hcache hnd
  · exact normData_devDeps gd st.cache data hcache hndd
  · rw [hdataAt]
    rcases persistMsgs_eq_or (normStage gd st pkgName data) pkgName
      (normData gd st.cache data) [] with h | h
    · exact Or.inl h
    · exact Or.inr (by rw [h]; rfl)

/-- Witness for the amended C7. -/
theorem claim_C7_amended_witness :
    ∃ p', findP (ensurePackage (fun _ => "1.0") (fun _ _ => [])
      (initWork ⟨[⟨"B", "2.0.0", [("left-pad", "0.1")], [("tsc", "0.2")]⟩], [], ""⟩)
      "B").1.mem "B" = some p' ∧
      p'.dependencies = mapVals (fun _ => "1.0") [("left-pad", "0.1")] ∧
      p'.devDependencies = mapVals (fun _ => "1.0") [("tsc", "0.2")] ∧
      ((ensurePackage (fun _ => "1.0") (fun _ _ => [])
        (initWork ⟨[⟨"B", "2.0.0", [("left-pad", "0.1")], [("tsc", "0.2")]⟩],
          [], ""⟩) "B").2 = [] ∨
       (ensurePackage (fun _ => "1.0") (fun _ _ => [])
        (initWork ⟨[⟨"B", "2.0.0", [("left-pad", "0.1")], [("tsc", "0.2")]⟩],
          [], ""⟩) "B").2 = ["Package data changed"]) :=
  claim_C7_amended (fun _ => "1.0") (fun _ _ => [])
    (initWork ⟨[⟨"B", "2.0.0", [("left-pad", "0.1")], [("tsc", "0.2")]⟩], [], ""⟩)
    "B" ⟨"B", "2.0.0", [("left-pad", "0.1")], [("tsc", "0.2")]⟩
    (by decide) (by decide) (cacheWF_nil _) (by decide) (by decide) rfl

/-! ### Claim C8: the orchestrator's iteration order -/

theorem runPackages_keys_sublist (gd : String → String)
    (files : String → String → List (List String)) :
    ∀ (ns : List String) (st : WorkState),
    List.Sublist ((runPackages gd files st ns).2.map Prod.fst) ns := by
  intro ns
  induction ns with
  | nil => intro st; simp [runPackages]
  | cons n t ih =>
    intro st
    show List.Sublist (((if (ensurePackage gd files st n).2.isEmpty then []
      else [(n, (ensurePackage gd files st n).2)]) ++
        (runPackages gd files (ensurePackage gd files st n).1 t).2).map Prod.fst)
      (n :: t)
    rw [List.map_append]
    by_cases h : (ensurePackage gd files st n).2.isEmpty = true
    · rw [if_pos h]
      exact List.Sublist.cons n (by simpa using ih (ensurePackage gd files st n).1)
    · rw [if_neg h]
      exact List.Sublist.cons₂ n (by simpa using ih (ensurePackage gd files st n).1)

/-- Counterexample to C8 as stated: a workspace loaded in the order
`zz`, `aa` is validated in that load order, not in ascending name order —
the report lists `zz` before `aa`. -/
theorem claim_C8_counterexample :
    ((ensureIntegrity (fun _ => "1.0") (stdGlob (fun _ => []))
      ⟨[⟨"zz", "1.0", [("u", "1.0x")], []⟩, ⟨"aa", "1.0", [("v", "1.0x")], []⟩],
        [], ""⟩).2.pkgMsgs.map Prod.fst = ["zz", "aa"]) ∧
    sortStr ["zz", "aa"] ≠ ["zz", "aa"] := by
  constructor <;> decide

/-- C8 as amended: the orchestrator validates packages in workspace load
(manifest enumeration) order — the report's package keys are a subsequence of
the loaded package-name list, which is deterministic but not sorted by
name. -/
theorem claim_C8_amended (gd : String → String)
    (files : String → String → List (List String)) (ds : DiskState) :
    List.Sublist ((ensureIntegrity gd files ds).2.pkgMsgs.map Prod.fst)
      (ds.pkgs.map Package.name) := by
  show List.Sublist ((runPackages gd files (ensureTop (initWork ds)).1
    (ds.pkgs.map Package.name)).2.map Prod.fst) (ds.pkgs.map Package.name)
  exact runPackages_keys_sublist gd files (ds.pkgs.map Package.name) _

/-! ### Claim C9: the root hoister -/

theorem hoistEntries_lookup_not_mem (entries : DepMap) :
    ∀ (root : DepMap) (k : String), k ∉ keysA entries →
    lookupA (entries.foldl (fun r' kv => setA r' kv.1 kv.2) root) k =
      lookupA root k := by
  induction entries with
  | nil => intro root k _; rfl
  | cons kv t ih =>
    intro root k hk
    obtain ⟨a, b⟩ := kv
    have hak : ¬ k = a := fun hh => hk (by simp [keysA, hh])
    have hkt : k ∉ keysA t := fun hh => hk (by simp [keysA] at hh ⊢; exact Or.inr hh)
    rw [List.foldl_cons, ih (setA root a b) k hkt,
      lookupA_setA_ne root a b k hak]

theorem hoistEntries_covers (entries : DepMap) :
    ∀ (root : DepMap) (k : String), k ∈ keysA entries →
    ∃ v, (k, v) ∈ entries ∧
      lookupA (entries.foldl (fun r' kv => setA r' kv.1 kv.2) root) k = some v := by
  induction entries with
  | nil => intro root k hk; simp [keysA] at hk
  | cons kv t ih =>
    intro root k hk
    obtain ⟨a, b⟩ := kv
    by_cases hkt : k ∈ keysA t
    · obtain ⟨v, hv1, hv2⟩ := ih (setA root a b) k hkt
      exact ⟨v, List.mem_cons_of_mem _ hv1, hv2⟩
    · have hak : k = a := by
        simp only [keysA, List.map_cons, List.mem_cons] at hk
        rcases hk with h | h
        · exact h
        · exact absurd h hkt
      subst hak
      refine ⟨b, List.mem_cons_self _ _, ?_⟩
      rw [List.foldl_cons, hoistEntries_lookup_not_mem t (setA root k b) k hkt,
        lookupA_setA_self]

theorem hoistEntries_keys_super (entries : DepMap) :
    ∀ (root : DepMap) (k : String), k ∈ keysA root →
    k ∈ keysA (entries.foldl (fun r' kv => setA r' kv.1 kv.2) root) := by
  induction entries with
  | nil => intro root k h; exact h
  | cons kv t ih =>
    intro root k h
    obtain ⟨a, b⟩ := kv
    exact ih (setA root a b) k ((mem_keysA_setA root a b k).mpr (Or.inl h))

theorem hoistFold_lookup (pkgs : List Package) :
    ∀ (root : DepMap) (k : String),
    lookupA (pkgs.foldl (fun r p => p.devDependencies.foldl
      (fun r' kv => setA r' kv.1 kv.2) r) root) k = lookupA root k ∨
    ∃ q ∈ pkgs, ∃ v, (k, v) ∈ q.devDependencies ∧
      lookupA (pkgs.foldl (fun r p => p.devDependencies.foldl
        (fun r' kv => setA r' kv.1 kv.2) r) root) k = some v := by
  induction pkgs with
  | nil => intro root k; exact Or.inl rfl
  | cons p t ih =>
    intro root k
    rw [List.foldl_cons]
    rcases ih (p.devDependencies.foldl (fun r' kv => setA r' kv.1 kv.2) root) k
      with h | ⟨q, hq, v, hv1, hv2⟩
    · by_cases hk : k ∈ keysA p.devDependencies
      · obtain ⟨v, hv1, hv2⟩ := hoistEntries_covers p.devDependencies root k hk
        exact Or.inr ⟨p, List.mem_cons_self _ _, v, hv1, h.trans hv2⟩
      · rw [h, hoistEntries_lookup_not_mem p.devDependencies root k hk]
        exact Or.inl rfl
    · exact Or.inr ⟨q, List.mem_cons_of_mem _ hq, v, hv1, hv2⟩

theorem hoistFold_covers (pkgs : List Package) :
    ∀ (root : DepMap) (k : String) (q : Package), q ∈ pkgs →
    k ∈ keysA q.devDependencies →
    ∃ q' ∈ pkgs, ∃ v, (k, v) ∈ q'.devDependencies ∧
      lookupA (pkgs.foldl (fun r p => p.devDependencies.foldl
        (fun r' kv => setA r' kv.1 kv.2) r) root) k = some v := by
  induction pkgs with
  | nil => intro root k q hq; simp at hq
  | cons p t ih =>
    intro root k q hq hk
    rcases List.mem_cons.mp hq with rfl | hq'
    · rw [List.foldl_cons]
      obtain ⟨v, hv1, hv2⟩ := hoistEntries_covers q.devDependencies root k hk
      rcases hoistFold_lookup t
        (q.devDependencies.foldl (fun r' kv => setA r' kv.1 kv.2) root) k
        with h | ⟨q', hq', v', hv1', hv2'⟩
      · exact ⟨q, List.mem_cons_self _ _, v, hv1, h.trans hv2⟩
      · exact ⟨q', List.mem_cons_of_mem _ hq', v', hv1', hv2'⟩
    · rw [List.foldl_cons]
      obtain ⟨q', hq'', v, hv1, hv2⟩ := ih _ k q hq' hk
      exact ⟨q', List.mem_cons_of_mem _ hq'', v, hv1, hv2⟩

theorem hoistFold_keys_super (pkgs : List Package) :
    ∀ (root : DepMap) (k : String) (q : Package), q ∈ pkgs →
    k ∈ keysA q.devDependencies →
    k ∈ keysA (pkgs.foldl (fun r p => p.devDependencies.foldl
      (fun r' kv => setA r' kv.1 kv.2) r) root) := by
  intro root k q hq hk
  obtain ⟨q', _, v, _, hv2⟩ := hoistFold_covers pkgs root k q hq hk
  rw [← lookupA_isSome_iff, hv2]
  rfl

theorem ensureTop_rootDev (st : WorkState) :
    (ensureTop st).1.rootDev = topDev st := by
  unfold ensureTop
  split <;> rfl

/-- C9 as amended: after the root hoister runs, the root manifest's
`devDependencies` cover every workspace package's `devDependencies` — but with
the values as loaded from disk (the hoister runs before normalization, so the
root only holds the canonical spec when the packages' values were already
canonical). -/
theorem claim_C9_amended (gd : String → String) (ds : DiskState)
    (p : Package) (hp : p ∈ ds.pkgs) (kv : String × String)
    (hkv : kv ∈ p.devDependencies) :
    kv.1 ∈ keysA (ensureTop (initWork ds)).1.rootDev ∧
    (∃ q ∈ ds.pkgs, ∃ v, (kv.1, v) ∈ q.devDependencies ∧
      lookupA (ensureTop (initWork ds)).1.rootDev kv.1 = some v) ∧
    ((∀ q ∈ ds.pkgs, ∀ kv' ∈ q.devDependencies, kv'.2 = gd kv'.1) →
      lookupA (ensureTop (initWork ds)).1.rootDev kv.1 = some (gd kv.1)) := by
  rw [ensureTop_rootDev]
  have hmem : kv.1 ∈ keysA p.devDependencies :=
    List.mem_map.mpr ⟨kv, hkv, rfl⟩
  have hcov := hoistFold_covers (initWork ds).mem (initWork ds).rootDev kv.1 p
    hp hmem
  obtain ⟨q', hq', v, hv1, hv2⟩ := hcov
  refine ⟨?_, ⟨q', hq', v, hv1, hv2⟩, ?_⟩
  · exact hoistFold_keys_super (initWork ds).mem (initWork ds).rootDev kv.1 p
      hp hmem
  · intro hcanon
    have hval := hcanon q' hq' (kv.1, v) hv1
    simp only at hval
    rw [← hval]
    exact hv2

/-- Witness for the amended C9. -/
theorem claim_C9_amended_witness :
    ("d" : String) ∈ keysA (ensureTop (initWork
      ⟨[⟨"C", "1.0.0", [], [("d", "0.1")]⟩], [], ""⟩)).1.rootDev ∧
    (∃ q ∈ ([⟨"C", "1.0.0", [], [("d", "0.1")]⟩] : List Package), ∃ v,
      (("d", v) : String × String) ∈ q.devDependencies ∧
      lookupA (ensureTop (initWork
        ⟨[⟨"C", "1.0.0", [], [("d", "0.1")]⟩], [], ""⟩)).1.rootDev "d" = some v) ∧
    ((∀ q ∈ ([⟨"C", "1.0.0", [], [("d", "0.1")]⟩] : List Package),
        ∀ kv' ∈ q.devDependencies, kv'.2 = (fun _ => "0.1") kv'.1) →
      lookupA (ensureTop (initWork
        ⟨[⟨"C", "1.0.0", [], [("d", "0.1")]⟩], [], ""⟩)).1.rootDev "d" =
        some ((fun _ => "0.1") "d")) :=
  claim_C9_amended (fun _ => "0.1") ⟨[⟨"C", "1.0.0", [], [("d", "0.1")]⟩], [], ""⟩
    ⟨"C", "1.0.0", [], [("d", "0.1")]⟩ (by decide) ("d", "0.1") (by decide)

/-- Counterexample to C9 as stated: the hoister copies the pre-normalization
values, so after the run the root holds `0.1` for `d` while the package's own
entry was normalized to the canonical `1.0`. -/
theorem claim_C9_counterexample :
    lookupA (ensureIntegrity (fun _ => "1.0") (stdGlob (fun _ => []))
      ⟨[⟨"C", "1.0.0", [], [("d", "0.1")]⟩], [], ""⟩).1.rootDev "d" =
      some "0.1" ∧
    findP (ensureIntegrity (fun _ => "1.0") (stdGlob (fun _ => []))
      ⟨[⟨"C", "1.0.0", [], [("d", "0.1")]⟩], [], ""⟩).1.pkgs "C" =
      some ⟨"C", "1.0.0", [], [("d", "1.0")]⟩ ∧
    ("0.1" : String) ≠ "1.0" := by
  refine ⟨?_, ?_, ?_⟩ <;> decide

/-! ### Frame lemmas for the validator stages -/

theorem map_pair_setP (ps : List Package) (n : String) (q p : Package)
    (hfind : findP ps n = some p) (hqn : q.name = p.name)
    (hqv : q.version = p.version) :
    (setP ps n q).map (fun x => (x.name, x.version)) =
      ps.map (fun x => (x.name, x.version)) := by
  induction ps with
  | nil => rfl
  | cons r t ih =>
    by_cases hr : r.name = n
    · simp only [findP, if_pos hr, Option.some.injEq] at hfind
      subst hfind
      simp [setP, hr, hqn, hqv]
    · simp only [findP, if_neg hr] at hfind
      simp [setP, hr, ih hfind]

theorem findP_of_mem_nodup (ps : List Package) (p : Package) (hp : p ∈ ps)
    (hnd : (ps.map Package.name).Nodup) : findP ps p.name = some p := by
  induction ps with
  | nil => simp at hp
  | cons r t ih =>
    simp only [List.map_cons, List.nodup_cons] at hnd
    rcases List.mem_cons.mp hp with rfl | hp'
    · simp [findP]
    · have hr : ¬ r.name = p.name := by
        intro hh
        exact hnd.1 (hh ▸ List.mem_map.mpr ⟨p, hp', rfl⟩)
      simp only [findP, if_neg hr]
      exact ih hp' hnd.2

theorem findP_isSome_of_name_mem (ps : List Package) (k : String)
    (hk : k ∈ ps.map Package.name) : (findP ps k).isSome = true := by
  induction ps with
  | nil => simp at hk
  | cons r t ih =>
    by_cases hr : r.name = k
    · simp [findP, hr]
    · simp only [List.map_cons, List.mem_cons] at hk
      rcases hk with hk | hk
      · exact absurd hk.symm hr
      · simp only [findP, if_neg hr]
        exact ih hk

theorem ensureTop_mem (st : WorkState) : (ensureTop st).1.mem = st.mem := by
  unfold ensureTop
  split <;> rfl

theorem ensureTop_disk (st : WorkState) : (ensureTop st).1.disk = st.disk := by
  unfold ensureTop
  split <;> rfl

theorem ensureTop_cache (st : WorkState) : (ensureTop st).1.cache = st.cache := by
  unfold ensureTop
  split <;> rfl

theorem ensureTop_indexText (st : WorkState) :
    (ensureTop st).1.indexText = st.indexText := by
  unfold ensureTop
  split <;> rfl

theorem checkDeps_cacheWF (gd : String → String) (pkgName : String)
    (names : List String) (cache deps : DepMap) (hc : CacheWF gd cache) :
    CacheWF gd (checkDeps gd pkgName names cache deps).2.1 := by
  unfold checkDeps missOut
  exact missFold_cacheWF gd _ names deps cache [] hc

theorem validateRest_mem_names (gd : String → String)
    (files : String → String → List (List String)) (pkgName : String)
    (st2 : WorkState) (msgs1 : List String) (data1 : Package)
    (hdn : (dataAt st2 pkgName data1).name = pkgName) :
    (validateRest gd files pkgName st2 msgs1 data1).1.mem.map Package.name =
      st2.mem.map Package.name := by
  unfold validateRest
  split
  · rw [persistSt_mem]
  · rw [persistSt_mem]
    show (setP st2.mem pkgName (data3Of gd files pkgName st2 data1)).map
      Package.name = _
    exact map_name_setP st2.mem pkgName _ hdn

theorem validateRest_mem_pairs (gd : String → String)
    (files : String → String → List (List String)) (pkgName : String)
    (st2 : WorkState) (msgs1 : List String) (data1 : Package) (d2 : Package)
    (hfind2 : findP st2.mem pkgName = some d2) :
    (validateRest gd files pkgName st2 msgs1 data1).1.mem.map
      (fun x => (x.name, x.version)) =
      st2.mem.map (fun x => (x.name, x.version)) := by
  have hda : dataAt st2 pkgName data1 = d2 := dataAt_eq _ _ _ _ hfind2
  unfold validateRest
  split
  · rw [persistSt_mem]
  · rw [persistSt_mem]
    show (setP st2.mem pkgName (data3Of gd files pkgName st2 data1)).map
      (fun x => (x.name, x.version)) = _
    refine map_pair_setP st2.mem pkgName _ d2 hfind2 ?_ ?_
    · show (dataAt st2 pkgName data1).name = d2.name
      rw [hda]
    · show (dataAt st2 pkgName data1).version = d2.version
      rw [hda]

theorem validateRest_findP_ne (gd : String → String)
    (files : String → String → List (List String)) (pkgName : String)
    (st2 : WorkState) (msgs1 : List String) (data1 : Package)
    (hdn : (dataAt st2 pkgName data1).name = pkgName) (k : String)
    (hk : k ≠ pkgName) :
    findP (validateRest gd files pkgName st2 msgs1 data1).1.mem k =
      findP st2.mem k ∧
    findP (validateRest gd files pkgName st2 msgs1 data1).1.disk k =
      findP st2.disk k := by
  have hdn3 : (data3Of gd files pkgName st2 data1).name = pkgName := hdn
  unfold validateRest
  split
  · exact ⟨by rw [persistSt_mem], persistSt_disk_ne st2 pkgName _ hdn k hk⟩
  · constructor
    · rw [persistSt_mem]
      show findP (setP st2.mem pkgName (data3Of gd files pkgName st2 data1)) k = _
      exact findP_setP_ne st2.mem pkgName k _ hdn3 hk
    · show findP (persistSt (st3Of gd files pkgName st2 data1) pkgName
        (data3Of gd files pkgName st2 data1)).disk k = _
      rw [persistSt_disk_ne (st3Of gd files pkgName st2 data1) pkgName _ hdn3 k hk]
      rfl

theorem validateRest_rootDev (gd : String → String)
    (files : String → String → List (List String)) (pkgName : String)
    (st2 : WorkState) (msgs1 : List String) (data1 : Package) :
    (validateRest gd files pkgName st2 msgs1 data1).1.rootDev = st2.rootDev ∧
    (validateRest gd files pkgName st2 msgs1 data1).1.rootDisk = st2.rootDisk := by
  unfold validateRest
  split
  · exact persistSt_rootDev _ _ _
  · constructor
    · rw [(persistSt_rootDev _ _ _).1]
      rfl
    · rw [(persistSt_rootDev _ _ _).2]
      rfl

theorem validateRest_cacheWF (gd : String → String)
    (files : String → String → List (List String)) (pkgName : String)
    (st2 : WorkState) (msgs1 : List String) (data1 : Package)
    (hc : CacheWF gd st2.cache) :
    CacheWF gd (validateRest gd files pkgName st2 msgs1 data1).1.cache := by
  unfold validateRest
  split
  · rw [persistSt_cache]
    exact hc
  · rw [persistSt_cache]
    show CacheWF gd (ckOf gd files pkgName st2 data1).2.1
    unfold ckOf
    exact checkDeps_cacheWF gd pkgName _ _ _ hc

theorem normStage_disk (gd : String → String) (st : WorkState) (p : String)
    (data : Package) : (normStage gd st p data).disk = st.disk := rfl

theorem normStage_cache (gd : String → String) (st : WorkState) (p : String)
    (data : Package) :
    (normStage gd st p data).cache = normCache gd st.cache data := rfl

theorem normStage_rootDev (gd : String → String) (st : WorkState) (p : String)
    (data : Package) :
    (normStage gd st p data).rootDev = st.rootDev ∧
    (normStage gd st p data).rootDisk = st.rootDisk := ⟨rfl, rfl⟩

/-- Everything one `ensurePackage` call leaves alone: other packages' records
in memory and on disk, the root manifest, cache well-formedness, the
(name, version) spine of the workspace, and (off the aggregator) the index. -/
theorem ensurePackage_frame (gd : String → String)
    (files : String → String → List (List String)) (st : WorkState)
    (n : String) :
    (∀ k, k ≠ n →
      findP (ensurePackage gd files st n).1.mem k = findP st.mem k ∧
      findP (ensurePackage gd files st n).1.disk k = findP st.disk k) ∧
    (ensurePackage gd files st n).1.rootDev = st.rootDev ∧
    (ensurePackage gd files st n).1.rootDisk = st.rootDisk ∧
    (CacheWF gd st.cache → CacheWF gd (ensurePackage gd files st n).1.cache) ∧
    (ensurePackage gd files st n).1.mem.map (fun p => (p.name, p.version)) =
      st.mem.map (fun p => (p.name, p.version)) ∧
    (n ≠ aggName → (ensurePackage gd files st n).1.indexText = st.indexText) := by
  cases hfind : findP st.mem n with
  | none =>
    rw [ensurePackage_none gd files st n hfind]
    exact ⟨fun k _ => ⟨rfl, rfl⟩, rfl, rfl, fun h => h, rfl, fun _ => rfl⟩
  | some data =>
    have hdata_name : data.name = n := (findP_mem st.mem n data hfind).2
    by_cases hagg : n = aggName
    · subst hagg
      rw [ensurePackage_agg gd files st data hfind]
      have hfind1 : findP (normStage gd st aggName data).mem aggName =
          some (normData gd st.cache data) := by
        rw [normStage_mem]
        exact findP_setP_self st.mem aggName data _ hfind hdata_name
      have hEAP : ensureAllPackages (normStage gd st aggName data) =
          (syncStateAfter (normStage gd st aggName data) (normData gd st.cache data),
           syncMsgsOf (normStage gd st aggName data) (normData gd st.cache data)) := by
        unfold ensureAllPackages
        rw [hfind1]
      rw [hEAP]
      have hfind2 : findP (syncStateAfter (normStage gd st aggName data)
          (normData gd st.cache data)).mem aggName =
          some (aggAfter (normStage gd st aggName data) (normData gd st.cache data)) := by
        rw [syncStateAfter_mem]
        exact findP_setP_self _ aggName _ _ hfind1 hdata_name
      have hdn : (dataAt (syncStateAfter (normStage gd st aggName data)
          (normData gd st.cache data)) aggName (normData gd st.cache data)).name =
          aggName := by
        rw [dataAt_eq _ _ _ _ hfind2]
        exact hdata_name
      refine ⟨?_, ?_, ?_, ?_, ?_, fun h => absurd rfl h⟩
      · intro k hk
        have hvr := validateRest_findP_ne gd files aggName
          (syncStateAfter (normStage gd st aggName data) (normData gd st.cache data))
          (syncMsgsOf (normStage gd st aggName data) (normData gd st.cache data))
          (normData gd st.cache data) hdn k hk
        constructor
        · rw [hvr.1, syncStateAfter_mem,
            findP_setP_ne (normStage gd st aggName data).mem aggName k
              (aggAfter (normStage gd st aggName data) (normData gd st.cache data))
              hdata_name hk, normStage_mem,
            findP_setP_ne st.mem aggName k (normData gd st.cache data)
              hdata_name hk]
        · rw [hvr.2, syncStateAfter_disk_ne (normStage gd st aggName data)
            (normData gd st.cache data) hdata_name k hk, normStage_disk]
      · rw [(validateRest_rootDev gd files aggName _ _ _).1,
          (syncStateAfter_rootDev _ _).1]
        rfl
      · rw [(validateRest_rootDev gd files aggName _ _ _).2,
          (syncStateAfter_rootDev _ _).2]
        rfl
      · intro hc
        refine validateRest_cacheWF gd files aggName _ _ _ ?_
        rw [syncStateAfter_cache, normStage_cache]
        exact cacheWF_normCache gd st.cache data hc
      · rw [validateRest_mem_pairs gd files aggName _ _ _ _ hfind2,
          syncStateAfter_mem,
          map_pair_setP (normStage gd st aggName data).mem aggName
            (aggAfter (normStage gd st aggName data) (normData gd st.cache data))
            (normData gd st.cache data) hfind1 rfl rfl, normStage_mem,
          map_pair_setP st.mem aggName (normData gd st.cache data) data hfind rfl rfl]
    · rw [ensurePackage_nonagg gd files st n data hfind hagg]
      have hfind2 : findP (normStage gd st n data).mem n =
          some (normData gd st.cache data) := by
        rw [normStage_mem]
        exact findP_setP_self st.mem n data _ hfind hdata_name
      have hdn : (dataAt (normStage gd st n data) n
          (normData gd st.cache data)).name = n := by
        rw [dataAt_eq _ _ _ _ hfind2]
        exact hdata_name
      refine ⟨?_, ?_, ?_, ?_, ?_, ?_⟩
      · intro k hk
        have hvr := validateRest_findP_ne gd files n (normStage gd st n data) []
          (normData gd st.cache data) hdn k hk
        constructor
        · rw [hvr.1, normStage_mem, findP_setP_ne st.mem n k
            (normData gd st.cache data) hdata_name hk]
        · rw [hvr.2, normStage_disk]
      · rw [(validateRest_rootDev gd files n _ _ _).1]
        rfl
      · rw [(validateRest_rootDev gd files n _ _ _).2]
        rfl
      · intro hc
        refine validateRest_cacheWF gd files n _ _ _ ?_
        rw [normStage_cache]
        exact cacheWF_normCache gd st.cache data hc
      · rw [validateRest_mem_pairs gd files n _ _ _ _ hfind2, normStage_mem,
          map_pair_setP st.mem n (normData gd st.cache data) data hfind rfl rfl]
      · intro _
        rw [validateRest_indexText, normStage_indexText]

/-- What the tail of the validator (steps 3–6) guarantees for the package it
processes: the record visible afterwards — identical in memory and on disk —
keeps the name, version and devDependencies of the record it was given, has
duplicate-free dependency keys when the input did, and its dependency entries
satisfy any predicate holding of the input entries and of freshly resolved
entries. -/
theorem validateRest_post (gd : String → String)
    (files : String → String → List (List String)) (pkgName : String)
    (st2 : WorkState) (msgs1 : List String) (data1 d2 dp : Package)
    (P : String × String → Prop)
    (hfind2 : findP st2.mem pkgName = some d2)
    (hd2n : d2.name = pkgName)
    (hdisk2 : findP st2.disk pkgName = some dp)
    (hc2 : CacheWF gd st2.cache)
    (hnd2 : (keysA d2.dependencies).Nodup)
    (hdP : ∀ kv ∈ d2.dependencies, P kv)
    (hgdP : ∀ m, P (m, gd m)) :
    ∃ p',
      findP (validateRest gd files pkgName st2 msgs1 data1).1.mem pkgName = some p' ∧
      findP (validateRest gd files pkgName st2 msgs1 data1).1.disk pkgName = some p' ∧
      p'.name = d2.name ∧ p'.version = d2.version ∧
      p'.devDependencies = d2.devDependencies ∧
      (keysA p'.dependencies).Nodup ∧
      (∀ kv ∈ p'.dependencies, P kv) ∧
      ((∀ m, gd m ≠ "") → (files st2.indexText pkgName).isEmpty = false →
        (∀ x ∈ importNames (files st2.indexText pkgName),
          x ∈ excList MISSING pkgName ∨ x = "." ∨ x = ".." ∨
            x ∈ keysA p'.dependencies) ∧
        (∀ k ∈ keysA p'.dependencies,
          k ∈ excList UNUSED pkgName ∨
            k ∈ importNames (files st2.indexText pkgName))) := by
  have hda : dataAt st2 pkgName data1 = d2 := dataAt_eq _ _ _ _ hfind2
  cases hfls : (files st2.indexText pkgName).isEmpty with
  | true =>
    rw [validateRest_empty gd files pkgName st2 msgs1 data1 hfls]
    refine ⟨d2, ?_, ?_, rfl, rfl, rfl, hnd2, hdP, ?_⟩
    · rw [persistSt_mem]
      exact hfind2
    · rw [hda]
      exact persistSt_disk_self st2 pkgName d2 dp hd2n hdisk2
    · intro _ hfalse
      simp at hfalse
  | false =>
    rw [validateRest_files gd files pkgName st2 msgs1 data1 hfls]
    have hck : ckOf gd files pkgName st2 data1 =
        checkDeps gd pkgName (importNames (files st2.indexText pkgName))
          st2.cache d2.dependencies := by
      unfold ckOf
      rw [hda]
    have hd3n : (data3Of gd files pkgName st2 data1).name = pkgName := by
      show (dataAt st2 pkgName data1).name = pkgName
      rw [hda]
      exact hd2n
    have hdeps3 : (data3Of gd files pkgName st2 data1).dependencies =
        (ckOf gd files pkgName st2 data1).1 := rfl
    refine ⟨data3Of gd files pkgName st2 data1, ?_, ?_, ?_, ?_, ?_, ?_, ?_, ?_⟩
    · rw [persistSt_mem]
      show findP (setP st2.mem pkgName (data3Of gd files pkgName st2 data1))
        pkgName = _
      exact findP_setP_self st2.mem pkgName d2 _ hfind2 hd3n
    · refine persistSt_disk_self _ pkgName _ dp hd3n ?_
      show findP st2.disk pkgName = some dp
      exact hdisk2
    · exact hd3n.trans hd2n.symm
    · show (dataAt st2 pkgName data1).version = d2.version
      rw [hda]
    · show (dataAt st2 pkgName data1).devDependencies = d2.devDependencies
      rw [hda]
    · rw [hdeps3, hck]
      exact unusedFold_nodup (excList UNUSED pkgName)
        (importNames (files st2.indexText pkgName)) _ _ []
        (missFold_nodup gd (excList MISSING pkgName)
          (importNames (files st2.indexText pkgName)) d2.dependencies
          st2.cache [] hnd2)
    · intro kv hkv
      rw [hdeps3, hck] at hkv
      have h1 : kv ∈ (missOut gd pkgName
          (importNames (files st2.indexText pkgName)) st2.cache
          d2.dependencies).1 :=
        unusedFold_entries (excList UNUSED pkgName)
          (importNames (files st2.indexText pkgName)) _ _ [] kv hkv
      exact missFold_entries gd (excList MISSING pkgName)
        (importNames (files st2.indexText pkgName)) P d2.dependencies
        st2.cache [] hc2 hdP hgdP kv h1
    · intro hgd _
      have hndM1 : (keysA (missOut gd pkgName
          (importNames (files st2.indexText pkgName)) st2.cache
          d2.dependencies).1).Nodup :=
        missFold_nodup gd (excList MISSING pkgName)
          (importNames (files st2.indexText pkgName)) d2.dependencies
          st2.cache [] hnd2
      constructor
      · intro x hx
        rcases missFold_skip_post gd (excList MISSING pkgName)
            (importNames (files st2.indexText pkgName)) d2.dependencies
            st2.cache [] hc2 hgd x hx with h | h | h | h
        · exact Or.inl h
        · exact Or.inr (Or.inl h)
        · exact Or.inr (Or.inr (Or.inl h))
        · refine Or.inr (Or.inr (Or.inr ?_))
          have hM1 : x ∈ keysA ((importNames (files st2.indexText pkgName)).foldl
              (missStep gd (excList MISSING pkgName))
              (d2.dependencies, st2.cache, [])).1 := by
            by_contra hnot
            have hnone := (lookupA_eq_none_iff _ _).mpr hnot
            rw [lookupT_none_of_lookupA_none _ _ hnone] at h
            simp at h
          have hpres := (unusedFold_preserve (excList UNUSED pkgName)
            (importNames (files st2.indexText pkgName))
            (keysA ((importNames (files st2.indexText pkgName)).foldl
              (missStep gd (excList MISSING pkgName))
              (d2.dependencies, st2.cache, [])).1)
            ((importNames (files st2.indexText pkgName)).foldl
              (missStep gd (excList MISSING pkgName))
              (d2.dependencies, st2.cache, [])).1 [] x (Or.inr hx)).1
          rw [hdeps3, hck]
          show x ∈ keysA ((keysA ((importNames (files st2.indexText pkgName)).foldl
            (missStep gd (excList MISSING pkgName))
            (d2.dependencies, st2.cache, [])).1).foldl
            (unusedStep (excList UNUSED pkgName)
              (importNames (files st2.indexText pkgName)))
            (((importNames (files st2.indexText pkgName)).foldl
              (missStep gd (excList MISSING pkgName))
              (d2.dependencies, st2.cache, [])).1, [])).1
          rw [← lookupA_isSome_iff, hpres, lookupA_isSome_iff]
          exact hM1
      · intro k hk
        rw [hdeps3, hck] at hk
        exact unusedFold_survivors (excList UNUSED pkgName)
          (importNames (files st2.indexText pkgName))
          (missOut gd pkgName (importNames (files st2.indexText pkgName))
            st2.cache d2.dependencies).1 [] hndM1 k hk

/-- What one `ensurePackage` call guarantees for the package it processes:
afterwards its in-memory record and on-disk manifest agree, name and version
are kept, devDependencies are exactly the canonically revalued input map, the
dependency keys are duplicate-free, and every dependency entry is either
canonically resolved or (for the aggregator only) a caret range of some
workspace package's version. -/
theorem ensurePackage_post (gd : String → String)
    (files : String → String → List (List String)) (st : WorkState)
    (n : String) (data : Package)
    (hfind : findP st.mem n = some data) (hc : CacheWF gd st.cache)
    (hnd : (keysA data.dependencies).Nodup)
    (hndd : (keysA data.devDependencies).Nodup)
    (hdisk : (findP st.disk n).isSome = true) :
    ∃ p', findP (ensurePackage gd files st n).1.mem n = some p' ∧
      findP (ensurePackage gd files st n).1.disk n = some p' ∧
      p'.name = data.name ∧ p'.version = data.version ∧
      p'.devDependencies = mapVals gd data.devDependencies ∧
      (keysA p'.dependencies).Nodup ∧
      (∀ kv ∈ p'.dependencies, kv.2 = gd kv.1 ∨
        (n = aggName ∧ ∃ nv ∈ st.mem.map (fun q => (q.name, q.version)),
          kv = (nv.1, "^" ++ nv.2))) ∧
      ((∀ m, gd m ≠ "") →
        (files (ensurePackage gd files st n).1.indexText n).isEmpty = false →
        (∀ x ∈ importNames (files (ensurePackage gd files st n).1.indexText n),
          x ∈ excList MISSING n ∨ x = "." ∨ x = ".." ∨
            x ∈ keysA p'.dependencies) ∧
        (∀ k ∈ keysA p'.dependencies,
          k ∈ excList UNUSED n ∨
            k ∈ importNames (files (ensurePackage gd files st n).1.indexText n))) := by
  obtain ⟨dp, hdp⟩ := Option.isSome_iff_exists.mp hdisk
  have hdata_name : data.name = n := (findP_mem st.mem n data hfind).2
  have hdeps : (normData gd st.cache data).dependencies =
      mapVals gd data.dependencies := normData_deps gd st.cache data hc hnd
  have hdevs : (normData gd st.cache data).devDependencies =
      mapVals gd data.devDependencies := normData_devDeps gd st.cache data hc hndd
  by_cases hagg : n = aggName
  · subst hagg
    rw [ensurePackage_agg gd files st data hfind]
    have hfind1 : findP (normStage gd st aggName data).mem aggName =
        some (normData gd st.cache data) := by
      rw [normStage_mem]
      exact findP_setP_self st.mem aggName data _ hfind hdata_name
    have hEAP : ensureAllPackages (normStage gd st aggName data) =
        (syncStateAfter (normStage gd st aggName data) (normData gd st.cache data),
         syncMsgsOf (normStage gd st aggName data) (normData gd st.cache data)) := by
      unfold ensureAllPackages
      rw [hfind1]
    rw [hEAP]
    have hfind2 : findP (syncStateAfter (normStage gd st aggName data)
        (normData gd st.cache data)).mem aggName =
        some (aggAfter (normStage gd st aggName data) (normData gd st.cache data)) := by
      rw [syncStateAfter_mem]
      exact findP_setP_self _ aggName _ _ hfind1 hdata_name
    have hdisk1 : findP (normStage gd st aggName data).disk aggName = some dp := hdp
    have hdisk2 := syncStateAfter_disk_agg (normStage gd st aggName data)
      (normData gd st.cache data) dp hdata_name hdisk1
    have hc2 : CacheWF gd (syncStateAfter (normStage gd st aggName data)
        (normData gd st.cache data)).cache := by
      rw [syncStateAfter_cache, normStage_cache]
      exact cacheWF_normCache gd st.cache data hc
    have hpairs1 : (normStage gd st aggName data).mem.map
        (fun q => (q.name, q.version)) =
        st.mem.map (fun q => (q.name, q.version)) := by
      rw [normStage_mem]
      exact map_pair_setP st.mem aggName (normData gd st.cache data) data hfind rfl rfl
    have hnd2 : (keysA (aggAfter (normStage gd st aggName data)
        (normData gd st.cache data)).dependencies).Nodup := by
      refine syncFold_nodup (normStage gd st aggName data).indexText
        (normStage gd st aggName data).mem
        ⟨(normData gd st.cache data).dependencies,
         (splitLines (normStage gd st aggName data).indexText).take 3, []⟩ ?_
      show (keysA (normData gd st.cache data).dependencies).Nodup
      rw [hdeps, keysA_mapVals]
      exact hnd
    have hdP : ∀ kv ∈ (aggAfter (normStage gd st aggName data)
        (normData gd st.cache data)).dependencies,
        kv.2 = gd kv.1 ∨ (aggName = aggName ∧
          ∃ nv ∈ st.mem.map (fun q => (q.name, q.version)),
            kv = (nv.1, "^" ++ nv.2)) := by
      intro kv hkv
      rcases syncFold_deps_entries (normStage gd st aggName data).indexText
          (normStage gd st aggName data).mem
          ⟨(normData gd st.cache data).dependencies,
           (splitLines (normStage gd st aggName data).indexText).take 3, []⟩
          kv hkv with h' | ⟨q, hq, _, hkveq⟩
      · have h'' : kv ∈ mapVals gd data.dependencies := by
          rw [← hdeps]
          exact h'
        exact Or.inl (mem_mapVals gd data.dependencies kv h'').1
      · refine Or.inr ⟨rfl, ⟨(q.name, q.version), ?_, hkveq⟩⟩
        rw [← hpairs1]
        exact List.mem_map.mpr ⟨q, hq, rfl⟩
    rw [validateRest_indexText gd files aggName _ _ _]
    obtain ⟨p', h1, h2, h3, h4, h5, h6, h7, h8⟩ :=
      validateRest_post gd files aggName
        (syncStateAfter (normStage gd st aggName data) (normData gd st.cache data))
        (syncMsgsOf (normStage gd st aggName data) (normData gd st.cache data))
        (normData gd st.cache data)
        (aggAfter (normStage gd st aggName data) (normData gd st.cache data))
        (aggAfter (normStage gd st aggName data) (normData gd st.cache data))
        (fun kv => kv.2 = gd kv.1 ∨ (aggName = aggName ∧
          ∃ nv ∈ st.mem.map (fun q => (q.name, q.version)),
            kv = (nv.1, "^" ++ nv.2)))
        hfind2 hdata_name hdisk2 hc2 hnd2 hdP (fun m => Or.inl rfl)
    refine ⟨p', h1, h2, h3, h4, ?_, h6, h7, h8⟩
    have h5' : p'.devDependencies = (normData gd st.cache data).devDependencies := h5
    exact h5'.trans hdevs
  · rw [ensurePackage_nonagg gd files st n data hfind hagg]
    have hfind2 : findP (normStage gd st n data).mem n =
        some (normData gd st.cache data) := by
      rw [normStage_mem]
      exact findP_setP_self st.mem n data _ hfind hdata_name
    have hdisk2 : findP (normStage gd st n data).disk n = some dp := hdp
    have hc2 : CacheWF gd (normStage gd st n data).cache := by
      rw [normStage_cache]
      exact cacheWF_normCache gd st.cache data hc
    have hnd2 : (keysA (normData gd st.cache data).dependencies).Nodup := by
      rw [hdeps, keysA_mapVals]
      exact hnd
    have hdP : ∀ kv ∈ (normData gd st.cache data).dependencies,
        kv.2 = gd kv.1 ∨ (n = aggName ∧
          ∃ nv ∈ st.mem.map (fun q => (q.name, q.version)),
            kv = (nv.1, "^" ++ nv.2)) := by
      intro kv hkv
      have h'' : kv ∈ mapVals gd data.dependencies := by
        rw [← hdeps]
        exact hkv
      exact Or.inl (mem_mapVals gd data.dependencies kv h'').1
    rw [validateRest_indexText gd files n _ _ _]
    obtain ⟨p', h1, h2, h3, h4, h5, h6, h7, h8⟩ :=
      validateRest_post gd files n (normStage gd st n data) []
        (normData gd st.cache data) (normData gd st.cache data) dp
        (fun kv => kv.2 = gd kv.1 ∨ (n = aggName ∧
          ∃ nv ∈ st.mem.map (fun q => (q.name, q.version)),
            kv = (nv.1, "^" ++ nv.2)))
        hfind2 hdata_name hdisk2 hc2 hnd2 hdP (fun m => Or.inl rfl)
    refine ⟨p', h1, h2, h3, h4, ?_, h6, h7, h8⟩
    have h5' : p'.devDependencies = (normData gd st.cache data).devDependencies := h5
    exact h5'.trans hdevs

/-- Packages not in the processing list are untouched by the loop, in memory
and on disk. -/
theorem runPackages_frame (gd : String → String)
    (files : String → String → List (List String)) :
    ∀ (ns : List String) (st : WorkState) (n : String), n ∉ ns →
    findP (runPackages gd files st ns).1.mem n = findP st.mem n ∧
    findP (runPackages gd files st ns).1.disk n = findP st.disk n := by
  intro ns
  induction ns with
  | nil => intro st n _; exact ⟨rfl, rfl⟩
  | cons m t ih =>
    intro st n hn
    have hnm : n ≠ m := fun h => hn (h ▸ List.mem_cons_self m t)
    have hnt : n ∉ t := fun h => hn (List.mem_cons_of_mem m h)
    have hfr := (ensurePackage_frame gd files st m).1 n hnm
    have hstep : runPackages gd files st (m :: t) =
        ((runPackages gd files (ensurePackage gd files st m).1 t).1,
         (if (ensurePackage gd files st m).2.isEmpty then []
          else [(m, (ensurePackage gd files st m).2)]) ++
           (runPackages gd files (ensurePackage gd files st m).1 t).2) := rfl
    rw [hstep]
    exact ⟨((ih (ensurePackage gd files st m).1 n hnt).1).trans hfr.1,
           ((ih (ensurePackage gd files st m).1 n hnt).2).trans hfr.2⟩

/-- What the per-package loop guarantees for every package it processes, given
duplicate-free processing names, duplicate-free dependency keys, and an
on-disk manifest for each processed package: afterwards the package's record —
identical in memory and on disk — keeps its name and version, carries
canonically revalued devDependencies, and every dependency entry is either
canonically resolved or (for the aggregator) a caret range of a workspace
package version. -/
theorem runPackages_post (gd : String → String)
    (files : String → String → List (List String))
    (P0 : List (String × String)) :
    ∀ (ns : List String) (st : WorkState),
    CacheWF gd st.cache →
    ns.Nodup →
    (∀ k ∈ ns, ∀ d, findP st.mem k = some d →
      (keysA d.dependencies).Nodup ∧ (keysA d.devDependencies).Nodup) →
    (∀ k ∈ ns, (findP st.disk k).isSome = true) →
    st.mem.map (fun q => (q.name, q.version)) = P0 →
    ∀ n ∈ ns, ∀ data, findP st.mem n = some data →
    ∃ p', findP (runPackages gd files st ns).1.mem n = some p' ∧
      findP (runPackages gd files st ns).1.disk n = some p' ∧
      p'.name = data.name ∧ p'.version = data.version ∧
      p'.devDependencies = mapVals gd data.devDependencies ∧
      (keysA p'.dependencies).Nodup ∧
      ∀ kv ∈ p'.dependencies, kv.2 = gd kv.1 ∨
        (n = aggName ∧ ∃ nv ∈ P0, kv = (nv.1, "^" ++ nv.2)) := by
  intro ns
  induction ns with
  | nil => intro st _ _ _ _ _ n hn; simp at hn
  | cons m t ih =>
    intro st hc hnodup hkeys hdisk hpairs n hn data hfdata
    have hmt : m ∉ t := (List.nodup_cons.mp hnodup).1
    have hstep : runPackages gd files st (m :: t) =
        ((runPackages gd files (ensurePackage gd files st m).1 t).1,
         (if (ensurePackage gd files st m).2.isEmpty then []
          else [(m, (ensurePackage gd files st m).2)]) ++
           (runPackages gd files (ensurePackage gd files st m).1 t).2) := rfl
    rw [hstep]
    have hfr := ensurePackage_frame gd files st m
    rcases List.mem_cons.mp hn with rfl | hnt
    · have hk := hkeys n (List.mem_cons_self n t) data hfdata
      obtain ⟨p', h1, h2, h3, h4, h5, h6, h7, _⟩ :=
        ensurePackage_post gd files st n data hfdata hc hk.1 hk.2
          (hdisk n (List.mem_cons_self n t))
      have hframe := runPackages_frame gd files t
        (ensurePackage gd files st n).1 n hmt
      refine ⟨p', hframe.1.trans h1, hframe.2.trans h2, h3, h4, h5, h6, ?_⟩
      intro kv hkv
      rcases h7 kv hkv with h' | ⟨ha, nv, hnv, hkveq⟩
      · exact Or.inl h'
      · exact Or.inr ⟨ha, nv, hpairs ▸ hnv, hkveq⟩
    · have hnm : n ≠ m := fun h => hmt (h ▸ hnt)
      refine ih (ensurePackage gd files st m).1 ((hfr.2.2.2.1) hc)
        (List.nodup_cons.mp hnodup).2 ?_ ?_ ?_ n hnt data ?_
      · intro k hk d hd
        refine hkeys k (List.mem_cons_of_mem m hk) d ?_
        rw [← ((hfr.1 k (fun h => (List.nodup_cons.mp hnodup).1 (h ▸ hk))).1)]
        exact hd
      · intro k hk
        rw [((hfr.1 k (fun h => (List.nodup_cons.mp hnodup).1 (h ▸ hk))).2)]
        exact hdisk k (List.mem_cons_of_mem m hk)
      · rw [hfr.2.2.2.2.1]
        exact hpairs
      · rw [(hfr.1 n hnm).1]
        exact hfdata

/-- C10: the validation pass is a frame for `devDependencies`.  Under
duplicate-free package names and duplicate-free dependency keys (as parsed
JSON manifests provide), the record a full run leaves on disk for every
workspace package has exactly the initial devDependency key set — no entry is
added or removed — and only the values change, each to the canonically
resolved version-spec. -/
theorem claim_C10_devdeps_frame (gd : String → String)
    (files : String → String → List (List String)) (ds : DiskState)
    (hnames : (ds.pkgs.map Package.name).Nodup)
    (hkeys : ∀ p ∈ ds.pkgs,
      (keysA p.dependencies).Nodup ∧ (keysA p.devDependencies).Nodup) :
    ∀ p ∈ ds.pkgs, ∃ p',
      findP (ensureIntegrity gd files ds).1.pkgs p.name = some p' ∧
      keysA p'.devDependencies = keysA p.devDependencies ∧
      ∀ kv ∈ p'.devDependencies, kv.2 = gd kv.1 := by
  intro p hp
  have hfd : findP (ensureTop (initWork ds)).1.mem p.name = some p := by
    rw [ensureTop_mem]
    exact findP_of_mem_nodup ds.pkgs p hp hnames
  obtain ⟨p', _, h2, _, _, h5, _, _⟩ :=
    runPackages_post gd files (ds.pkgs.map (fun q => (q.name, q.version)))
      (ds.pkgs.map Package.name) (ensureTop (initWork ds)).1
      (by rw [ensureTop_cache]; exact cacheWF_nil gd)
      hnames
      (by
        intro k _ d hd
        rw [ensureTop_mem] at hd
        exact hkeys d (findP_mem ds.pkgs k d hd).1)
      (by
        intro k hk
        rw [ensureTop_disk]
        exact findP_isSome_of_name_mem ds.pkgs k hk)
      (by rw [ensureTop_mem]; rfl)
      p.name (List.mem_map.mpr ⟨p, hp, rfl⟩) p hfd
  refine ⟨p', h2, ?_, ?_⟩
  · rw [h5, keysA_mapVals]
  · intro kv hkv
    rw [h5] at hkv
    exact (mem_mapVals gd p.devDependencies kv hkv).1

/-- Witness for C10. -/
theorem claim_C10_witness :
    ∃ p', findP (ensureIntegrity (fun _ => "9.9") (stdGlob (fun _ => []))
      ⟨[⟨"A", "1.0", [], [("x", "0.1")]⟩], [], ""⟩).1.pkgs "A" = some p' ∧
    keysA p'.devDependencies =
      keysA ([("x", "0.1")] : DepMap) ∧
    ∀ kv ∈ p'.devDependencies, kv.2 = (fun _ => "9.9") kv.1 :=
  claim_C10_devdeps_frame (fun _ => "9.9") (stdGlob (fun _ => []))
    ⟨[⟨"A", "1.0", [], [("x", "0.1")]⟩], [], ""⟩ (by decide)
    (by intro p hp; constructor <;> (simp at hp; rw [hp]; decide))
    ⟨"A", "1.0", [], [("x", "0.1")]⟩ (by decide)

/-- C1 (amended): canonical versions after a run, with the aggregator caret
exception.  Under duplicate-free package names and dependency keys, every
devDependency value and every non-aggregator dependency value each package
holds on disk after a full run is the canonically resolved spec for its key
(the value cached on first resolution); the aggregator's dependency values may
instead be a caret range of a workspace package's version, inserted by the
synchronizer without consulting the resolver or the cache. -/
theorem claim_C1_canonical_versions (gd : String → String)
    (files : String → String → List (List String)) (ds : DiskState)
    (hnames : (ds.pkgs.map Package.name).Nodup)
    (hkeys : ∀ p ∈ ds.pkgs,
      (keysA p.dependencies).Nodup ∧ (keysA p.devDependencies).Nodup) :
    ∀ p ∈ ds.pkgs, ∃ p',
      findP (ensureIntegrity gd files ds).1.pkgs p.name = some p' ∧
      (∀ kv ∈ p'.devDependencies, kv.2 = gd kv.1) ∧
      (∀ kv ∈ p'.dependencies, kv.2 = gd kv.1 ∨
        (p.name = aggName ∧ ∃ q ∈ ds.pkgs, kv = (q.name, "^" ++ q.version))) := by
  intro p hp
  have hfd : findP (ensureTop (initWork ds)).1.mem p.name = some p := by
    rw [ensureTop_mem]
    exact findP_of_mem_nodup ds.pkgs p hp hnames
  obtain ⟨p', _, h2, _, _, h5, _, h7⟩ :=
    runPackages_post gd files (ds.pkgs.map (fun q => (q.name, q.version)))
      (ds.pkgs.map Package.name) (ensureTop (initWork ds)).1
      (by rw [ensureTop_cache]; exact cacheWF_nil gd)
      hnames
      (by
        intro k _ d hd
        rw [ensureTop_mem] at hd
        exact hkeys d (findP_mem ds.pkgs k d hd).1)
      (by
        intro k hk
        rw [ensureTop_disk]
        exact findP_isSome_of_name_mem ds.pkgs k hk)
      (by rw [ensureTop_mem]; rfl)
      p.name (List.mem_map.mpr ⟨p, hp, rfl⟩) p hfd
  refine ⟨p', h2, ?_, ?_⟩
  · intro kv hkv
    rw [h5] at hkv
    exact (mem_mapVals gd p.devDependencies kv hkv).1
  · intro kv hkv
    rcases h7 kv hkv with h' | ⟨ha, nv, hnv, hkveq⟩
    · exact Or.inl h'
    · obtain ⟨q, hq, hqnv⟩ := List.mem_map.mp hnv
      exact Or.inr ⟨ha, q, hq, by rw [hkveq, ← hqnv]⟩

/-- Witness for the amended C1. -/
theorem claim_C1_witness :
    ∃ p', findP (ensureIntegrity (fun _ => "9.9") (stdGlob (fun _ => []))
      ⟨[⟨"B", "1.0", [("y", "0.2")], [("x", "0.1")]⟩], [], ""⟩).1.pkgs "B" =
        some p' ∧
    (∀ kv ∈ p'.devDependencies, kv.2 = (fun _ => "9.9") kv.1) ∧
    (∀ kv ∈ p'.dependencies, kv.2 = (fun _ => "9.9") kv.1 ∨
      (("B" : String) = aggName ∧
        ∃ q ∈ ([⟨"B", "1.0", [("y", "0.2")], [("x", "0.1")]⟩] : List Package),
          kv = (q.name, "^" ++ q.version))) :=
  claim_C1_canonical_versions (fun _ => "9.9") (stdGlob (fun _ => []))
    ⟨[⟨"B", "1.0", [("y", "0.2")], [("x", "0.1")]⟩], [], ""⟩ (by decide)
    (by intro p hp; constructor <;> (simp at hp; rw [hp]; decide))
    ⟨"B", "1.0", [("y", "0.2")], [("x", "0.1")]⟩ (by decide)

/-- Counterexample to C1 as stated: the name `q` is resolved during the run
(package `A`'s entry is re-pointed at the canonical `~9.9`), yet the
aggregator ends the run holding `^1.0.0` for `q` — the synchronizer writes a
caret range of the workspace version, bypassing the resolution cache, so two
packages hold different version-specs for the same resolved name. -/
theorem claim_C1_counterexample :
    findP (ensureIntegrity (fun _ => "~9.9") (stdGlob (fun _ => []))
      ⟨[⟨"@jupyterlab/all-packages", "1.0", [], []⟩,
        ⟨"A", "2.0", [("q", "0.0")], []⟩,
        ⟨"q", "1.0.0", [], []⟩], [], ""⟩).1.pkgs "A" =
      some ⟨"A", "2.0", [("q", "~9.9")], []⟩ ∧
    findP (ensureIntegrity (fun _ => "~9.9") (stdGlob (fun _ => []))
      ⟨[⟨"@jupyterlab/all-packages", "1.0", [], []⟩,
        ⟨"A", "2.0", [("q", "0.0")], []⟩,
        ⟨"q", "1.0.0", [], []⟩], [], ""⟩).1.pkgs "@jupyterlab/all-packages" =
      some ⟨"@jupyterlab/all-packages", "1.0",
        [("A", "^2.0"), ("q", "^1.0.0")], []⟩ ∧
    ("~9.9" : String) ≠ "^1.0.0" := by
  refine ⟨?_, ?_, ?_⟩ <;> decide

/-! ### The root hoist as one flat fold, and its idempotence -/

/-- Apply a sequence of key/value writes to a map, in order. -/
def applyKVs (l : List (String × String)) (r : DepMap) : DepMap :=
  l.foldl (fun r' kv => setA r' kv.1 kv.2) r

theorem applyKVs_append (l1 l2 : List (String × String)) (r : DepMap) :
    applyKVs (l1 ++ l2) r = applyKVs l2 (applyKVs l1 r) := by
  unfold applyKVs
  rw [List.foldl_append]

theorem hoistFold_eq_applyKVs (ps : List Package) :
    ∀ r : DepMap,
    ps.foldl (fun r p => p.devDependencies.foldl
      (fun r' kv => setA r' kv.1 kv.2) r) r =
    applyKVs ((ps.map (fun p => p.devDependencies)).flatten) r := by
  induction ps with
  | nil => intro r; rfl
  | cons p t ih =>
    intro r
    rw [List.foldl_cons, List.map_cons, List.flatten_cons, applyKVs_append]
    exact ih _

theorem topDev_eq_applyKVs (st : WorkState) :
    topDev st =
      applyKVs ((st.mem.map (fun p => p.devDependencies)).flatten) st.rootDev :=
  hoistFold_eq_applyKVs st.mem st.rootDev

theorem applyKVs_keys_mono (l : List (String × String)) :
    ∀ (r : DepMap) (k : String), k ∈ keysA r → k ∈ keysA (applyKVs l r) := by
  induction l with
  | nil => intro r k h; exact h
  | cons a t ih =>
    intro r k h
    show k ∈ keysA (applyKVs t (setA r a.1 a.2))
    exact ih _ k ((mem_keysA_setA r a.1 a.2 k).mpr (Or.inl h))

theorem applyKVs_keys_super (l : List (String × String)) :
    ∀ (r : DepMap) (kv : String × String), kv ∈ l →
    kv.1 ∈ keysA (applyKVs l r) := by
  induction l with
  | nil => intro r kv h; simp at h
  | cons a t ih =>
    intro r kv h
    rcases List.mem_cons.mp h with rfl | h'
    · show kv.1 ∈ keysA (applyKVs t (setA r kv.1 kv.2))
      exact applyKVs_keys_mono t _ kv.1
        ((mem_keysA_setA r kv.1 kv.2 kv.1).mpr (Or.inr rfl))
    · exact ih _ kv h'

theorem keysA_applyKVs_covered (l : List (String × String)) :
    ∀ r : DepMap, (∀ kv ∈ l, kv.1 ∈ keysA r) →
    keysA (applyKVs l r) = keysA r := by
  induction l with
  | nil => intro r _; rfl
  | cons a t ih =>
    intro r h
    have hmem : a.1 ∈ keysA r := h a (List.mem_cons_self _ _)
    have hkeys : keysA (setA r a.1 a.2) = keysA r :=
      keysA_setA_of_mem r a.1 a.2 hmem
    show keysA (applyKVs t (setA r a.1 a.2)) = keysA r
    rw [ih (setA r a.1 a.2)
      (fun kv' hkv' => by rw [hkeys]; exact h kv' (List.mem_cons_of_mem _ hkv')),
      hkeys]

theorem applyKVs_nodup (l : List (String × String)) :
    ∀ r : DepMap, (keysA r).Nodup → (keysA (applyKVs l r)).Nodup := by
  induction l with
  | nil => intro r h; exact h
  | cons a t ih =>
    intro r h
    show (keysA (applyKVs t (setA r a.1 a.2))).Nodup
    exact ih _ (nodup_keysA_setA r a.1 a.2 h)

theorem lookupA_applyKVs (l : List (String × String)) :
    ∀ (r : DepMap) (k : String),
    lookupA (applyKVs l r) k =
      l.foldl (fun acc kv => if kv.1 = k then some kv.2 else acc)
        (lookupA r k) := by
  induction l with
  | nil => intro r k; rfl
  | cons a t ih =>
    intro r k
    show lookupA (applyKVs t (setA r a.1 a.2)) k = _
    rw [ih, List.foldl_cons]
    by_cases h : a.1 = k
    · subst h
      rw [lookupA_setA_self]
      simp
    · have h' : k ≠ a.1 := fun hh => h hh.symm
      rw [lookupA_setA_ne r a.1 a.2 k h']
      simp [h]

theorem writeFold_no_write (l : List (String × String)) (k : String) :
    ∀ init : Option String, (∀ kv ∈ l, kv.1 ≠ k) →
    l.foldl (fun acc kv => if kv.1 = k then some kv.2 else acc) init = init := by
  induction l with
  | nil => intro init _; rfl
  | cons a t ih =>
    intro init h
    rw [List.foldl_cons, if_neg (h a (List.mem_cons_self _ _))]
    exact ih init (fun kv hkv => h kv (List.mem_cons_of_mem _ hkv))

theorem writeFold_indep (l : List (String × String)) (k : String) :
    ∀ init₁ init₂ : Option String, (∃ kv ∈ l, kv.1 = k) →
    l.foldl (fun acc kv => if kv.1 = k then some kv.2 else acc) init₁ =
    l.foldl (fun acc kv => if kv.1 = k then some kv.2 else acc) init₂ := by
  induction l with
  | nil => intro init₁ init₂ h; simp at h
  | cons a t ih =>
    intro init₁ init₂ h
    rw [List.foldl_cons, List.foldl_cons]
    by_cases hex : ∃ kv ∈ t, kv.1 = k
    · exact ih _ _ hex
    · obtain ⟨kv, hkv, hk⟩ := h
      rcases List.mem_cons.mp hkv with rfl | hkv'
      · rw [if_pos hk, if_pos hk]
      · exact absurd ⟨kv, hkv', hk⟩ hex

theorem lookupA_applyKVs_idem (l : List (String × String)) (r : DepMap)
    (k : String) :
    lookupA (applyKVs l (applyKVs l r)) k = lookupA (applyKVs l r) k := by
  by_cases hex : ∃ kv ∈ l, kv.1 = k
  · rw [lookupA_applyKVs l (applyKVs l r) k, lookupA_applyKVs l r k]
    exact writeFold_indep l k _ _ hex
  · push_neg at hex
    rw [lookupA_applyKVs l (applyKVs l r) k]
    exact writeFold_no_write l k _ hex

theorem assoc_ext (m₁ : DepMap) :
    ∀ m₂ : DepMap, keysA m₁ = keysA m₂ → (keysA m₁).Nodup →
    (∀ k, lookupA m₁ k = lookupA m₂ k) → m₁ = m₂ := by
  induction m₁ with
  | nil =>
    intro m₂ hk _ _
    cases m₂ with
    | nil => rfl
    | cons b t₂ => simp [keysA] at hk
  | cons a t₁ ih =>
    intro m₂ hk hnd hl
    cases m₂ with
    | nil => simp [keysA] at hk
    | cons b t₂ =>
      obtain ⟨a1, a2⟩ := a
      obtain ⟨b1, b2⟩ := b
      simp only [keysA, List.map_cons, List.cons.injEq] at hk
      obtain ⟨hab, ht⟩ := hk
      subst hab
      have hv := hl a1
      simp [lookupA] at hv
      subst hv
      simp only [keysA, List.map_cons, List.nodup_cons] at hnd
      have ha1 : a1 ∉ keysA t₁ := hnd.1
      have ha2 : a1 ∉ keysA t₂ := by
        show a1 ∉ List.map Prod.fst t₂
        rw [← ht]
        exact hnd.1
      have htl : ∀ k, lookupA t₁ k = lookupA t₂ k := by
        intro k
        by_cases hk1 : a1 = k
        · subst hk1
          rw [(lookupA_eq_none_iff t₁ a1).mpr ha1,
            (lookupA_eq_none_iff t₂ a1).mpr ha2]
        · have := hl k
          simp only [lookupA, if_neg hk1] at this
          exact this
      rw [ih t₂ ht hnd.2 htl]

theorem applyKVs_idem (l : List (String × String)) (r : DepMap)
    (hnd : (keysA r).Nodup) :
    applyKVs l (applyKVs l r) = applyKVs l r := by
  have hcov : keysA (applyKVs l (applyKVs l r)) = keysA (applyKVs l r) :=
    keysA_applyKVs_covered l (applyKVs l r)
      (fun kv hkv => applyKVs_keys_super l r kv hkv)
  refine assoc_ext _ _ hcov ?_ (fun k => lookupA_applyKVs_idem l r k)
  rw [hcov]
  exact applyKVs_nodup l r hnd

theorem ensureTop_rootDisk (st : WorkState) :
    (ensureTop st).1.rootDisk = topDev st := by
  unfold ensureTop
  split
  · rename_i h
    exact h.symm
  · rfl

theorem ensureTop_none_iff (st : WorkState) :
    (ensureTop st).2 = none ↔ topDev st = st.rootDisk := by
  unfold ensureTop
  split
  · rename_i h
    simp [h]
  · rename_i h
    simp [h]

/-! ### Fixpoint behaviour of the validator (support for the idempotence claim) -/

theorem Package.ext_fields (p q : Package) (h1 : p.name = q.name)
    (h2 : p.version = q.version) (h3 : p.dependencies = q.dependencies)
    (h4 : p.devDependencies = q.devDependencies) : p = q := by
  cases p with
  | mk a b c d =>
    cases q with
    | mk a' b' c' d' =>
      simp only [Package.mk.injEq]
      exact ⟨h1, h2, h3, h4⟩

theorem normData_id (gd : String → String) (cache : DepMap) (data : Package)
    (hc : CacheWF gd cache)
    (hnd : (keysA data.dependencies).Nodup)
    (hndd : (keysA data.devDependencies).Nodup)
    (hdep : ∀ kv ∈ data.dependencies, kv.2 = gd kv.1)
    (hdev : ∀ kv ∈ data.devDependencies, kv.2 = gd kv.1) :
    normData gd cache data = data :=
  Package.ext_fields _ _ rfl rfl
    ((normData_deps gd cache data hc hnd).trans
      (mapVals_eq_self gd data.dependencies hdep))
    ((normData_devDeps gd cache data hc hndd).trans
      (mapVals_eq_self gd data.devDependencies hdev))

theorem lookupT_isSome_of_canon (gd : String → String) (m : DepMap) (k : String)
    (hk : k ∈ keysA m) (hv : ∀ kv ∈ m, kv.2 = gd kv.1) (hgd : gd k ≠ "") :
    (lookupT m k).isSome = true := by
  obtain ⟨v, hv'⟩ := Option.isSome_iff_exists.mp ((lookupA_isSome_iff m k).mpr hk)
  have hvk : v = gd k := hv (k, v) (lookupA_mem m k v hv')
  refine lookupT_isSome_of_lookupA m k v hv' ?_
  rw [hvk]
  exact hgd

theorem persistSt_noop (st : WorkState) (p : String) (d : Package)
    (h : findP st.disk p = some d) : persistSt st p d = st := by
  unfold persistSt
  rw [if_pos h]

/-- Steps 3–6 of the validator are the identity (and silent) on a package
whose dependency values are canonical, whose import identities are all
covered, and whose dependency keys are all exempt or imported. -/
theorem validateRest_noop (gd : String → String)
    (files : String → String → List (List String)) (n : String)
    (st2 : WorkState) (msgs1 : List String) (data : Package)
    (hgd : ∀ m, gd m ≠ "")
    (hfind2 : findP st2.mem n = some data)
    (hdisk2 : findP st2.disk n = some data)
    (hdepv : ∀ kv ∈ data.dependencies, kv.2 = gd kv.1)
    (hfiles : (files st2.indexText n).isEmpty = false →
      (∀ x ∈ importNames (files st2.indexText n),
        x ∈ excList MISSING n ∨ x = "." ∨ x = ".." ∨
          x ∈ keysA data.dependencies) ∧
      (∀ k ∈ keysA data.dependencies,
        k ∈ excList UNUSED n ∨ k ∈ importNames (files st2.indexText n))) :
    validateRest gd files n st2 msgs1 data = (st2, msgs1) := by
  have hda : dataAt st2 n data = data := dataAt_eq _ _ _ _ hfind2
  cases hfls : (files st2.indexText n).isEmpty with
  | true =>
    rw [validateRest_empty gd files n st2 msgs1 data hfls, hda,
      persistSt_noop st2 n data hdisk2, persistMsgs_self st2 n data msgs1 hdisk2]
  | false =>
    obtain ⟨hmissing, hsurv⟩ := hfiles hfls
    have hhandled : ∀ x ∈ importNames (files st2.indexText n),
        x ∈ excList MISSING n ∨ x = "." ∨ x = ".." ∨
          (lookupT data.dependencies x).isSome = true := by
      intro x hx
      rcases hmissing x hx with h | h | h | h
      · exact Or.inl h
      · exact Or.inr (Or.inl h)
      · exact Or.inr (Or.inr (Or.inl h))
      · exact Or.inr (Or.inr (Or.inr
          (lookupT_isSome_of_canon gd data.dependencies x h hdepv (hgd x))))
    have hmiss : missOut gd n (importNames (files st2.indexText n)) st2.cache
        data.dependencies = (data.dependencies, st2.cache, []) := by
      unfold missOut
      exact missFold_noop gd (excList MISSING n) _ data.dependencies
        st2.cache [] hhandled
    have hunused : unusedOut n (importNames (files st2.indexText n))
        data.dependencies = (data.dependencies, []) := by
      unfold unusedOut
      exact unusedFold_noop (excList UNUSED n) _ (keysA data.dependencies)
        data.dependencies [] hsurv
    have hckOf : ckOf gd files n st2 data =
        (data.dependencies, st2.cache, []) := by
      unfold ckOf
      rw [hda]
      show checkDeps gd n (importNames (files st2.indexText n)) st2.cache
        data.dependencies = _
      simp only [checkDeps, hmiss, hunused, List.append_nil]
    have hd3 : data3Of gd files n st2 data = data := by
      refine Package.ext_fields _ _ ?_ ?_ ?_ ?_
      · show (dataAt st2 n data).name = data.name
        rw [hda]
      · show (dataAt st2 n data).version = data.version
        rw [hda]
      · show (ckOf gd files n st2 data).1 = data.dependencies
        rw [hckOf]
      · show (dataAt st2 n data).devDependencies = data.devDependencies
        rw [hda]
    have hst3 : st3Of gd files n st2 data = st2 := by
      unfold st3Of
      rw [hd3, setP_eq_self st2.mem n data hfind2, hckOf]
    rw [validateRest_files gd files n st2 msgs1 data hfls, hst3, hd3,
      persistSt_noop st2 n data hdisk2]
    have hmsgs : msgs1 ++ (ckOf gd files n st2 data).2.2 = msgs1 := by
      rw [hckOf]
      simp
    rw [hmsgs, persistMsgs_self st2 n data msgs1 hdisk2]

/-- A package record at a fixpoint of the validator: canonical values
everywhere, duplicate-free keys, every import identity exempt, relative or
already a dependency key, and every dependency key exempt or imported. -/
def SettledPkg (gd : String → String)
    (files : String → String → List (List String)) (idx : String)
    (p : Package) : Prop :=
  (∀ kv ∈ p.dependencies, kv.2 = gd kv.1) ∧
  (∀ kv ∈ p.devDependencies, kv.2 = gd kv.1) ∧
  (keysA p.dependencies).Nodup ∧ (keysA p.devDependencies).Nodup ∧
  ((files idx p.name).isEmpty = false →
    (∀ x ∈ importNames (files idx p.name),
      x ∈ excList MISSING p.name ∨ x = "." ∨ x = ".." ∨
        x ∈ keysA p.dependencies) ∧
    (∀ k ∈ keysA p.dependencies,
      k ∈ excList UNUSED p.name ∨ k ∈ importNames (files idx p.name)))

/-- The aggregator record is synchronized with the workspace: every other
package is a truthy dependency and referenced by the index text, and
regenerating the index reproduces it verbatim. -/
def SettledSync (mem : List Package) (idx : String) (agg : Package) : Prop :=
  (∀ q ∈ mem, q.name ≠ aggName →
    (lookupT agg.dependencies q.name).isSome = true ∧
    containsSub idx q.name = true) ∧
  joinLines ((splitLines idx).take 3 ++
    (mem.filter (fun q => q.name != aggName)).map
      (fun q => importLine q.name)) = idx

/-- `ensurePackage` is the identity (and silent) on a settled package. -/
theorem ensurePackage_settled (gd : String → String)
    (files : String → String → List (List String)) (st : WorkState)
    (n : String) (data : Package)
    (hgd : ∀ m, gd m ≠ "")
    (hc : CacheWF gd st.cache)
    (hfind : findP st.mem n = some data)
    (hdisk : findP st.disk n = some data)
    (hsp : SettledPkg gd files st.indexText data)
    (hsync : n = aggName → SettledSync st.mem st.indexText data) :
    (ensurePackage gd files st n).1.mem = st.mem ∧
    (ensurePackage gd files st n).1.disk = st.disk ∧
    (ensurePackage gd files st n).1.indexText = st.indexText ∧
    (ensurePackage gd files st n).1.rootDev = st.rootDev ∧
    (ensurePackage gd files st n).1.rootDisk = st.rootDisk ∧
    (ensurePackage gd files st n).2 = [] := by
  obtain ⟨hdepv, hdevv, hndd, hnddv, hfiles⟩ := hsp
  have hdata_name : data.name = n := (findP_mem st.mem n data hfind).2
  have hnormid : normData gd st.cache data = data :=
    normData_id gd st.cache data hc hndd hnddv hdepv hdevv
  have hst1 : normStage gd st n data =
      { st with cache := normCache gd st.cache data } := by
    unfold normStage
    rw [hnormid, setP_eq_self st.mem n data hfind]
  have hfind'' : findP ({ st with
      cache := normCache gd st.cache data } : WorkState).mem n = some data := hfind
  have hdisk'' : findP ({ st with
      cache := normCache gd st.cache data } : WorkState).disk n = some data := hdisk
  have hfiles'' : (files ({ st with
      cache := normCache gd st.cache data } : WorkState).indexText n).isEmpty =
        false →
      (∀ x ∈ importNames (files st.indexText n),
        x ∈ excList MISSING n ∨ x = "." ∨ x = ".." ∨
          x ∈ keysA data.dependencies) ∧
      (∀ k ∈ keysA data.dependencies,
        k ∈ excList UNUSED n ∨ k ∈ importNames (files st.indexText n)) := by
    intro hne
    have := hfiles (by rw [hdata_name]; exact hne)
    rw [hdata_name] at this
    exact this
  by_cases hagg : n = aggName
  · subst hagg
    obtain ⟨hsync1, hsync2⟩ := hsync rfl
    rw [ensurePackage_agg gd files st data hfind, hst1]
    have hfoldnoop := syncFold_noop st.indexText st.mem
      ⟨data.dependencies, (splitLines st.indexText).take 3, []⟩
      (fun q hq hqa => hsync1 q hq hqa)
    have hsacc : syncAccOf ({ st with
        cache := normCache gd st.cache data } : WorkState) data =
        ⟨data.dependencies,
         (splitLines st.indexText).take 3 ++
           (st.mem.filter (fun q => q.name != aggName)).map
             (fun q => importLine q.name), []⟩ := by
      unfold syncAccOf
      exact hfoldnoop
    have haggAfter : aggAfter ({ st with
        cache := normCache gd st.cache data } : WorkState) data = data := by
      refine Package.ext_fields _ _ rfl rfl ?_ rfl
      show (syncAccOf ({ st with
        cache := normCache gd st.cache data } : WorkState) data).aggDeps = _
      rw [hsacc]
    have hjoin : joinLines (syncAccOf ({ st with
        cache := normCache gd st.cache data } : WorkState) data).lines =
        ({ st with cache := normCache gd st.cache data } : WorkState).indexText := by
      rw [hsacc]
      exact hsync2
    have hss : syncStateAfter ({ st with
        cache := normCache gd st.cache data } : WorkState) data =
        { st with cache := normCache gd st.cache data } := by
      unfold syncStateAfter
      split
      · rw [haggAfter, setP_eq_self _ aggName data hfind'']
        exact persistSt_noop _ aggName data hdisk''
      · rename_i hne
        exact absurd hjoin hne
    have hmsgs0 : syncMsgsOf ({ st with
        cache := normCache gd st.cache data } : WorkState) data = [] := by
      unfold syncMsgsOf
      split
      · rw [haggAfter, setP_eq_self _ aggName data hfind'']
        rw [persistMsgs_self _ aggName data _ hdisk'']
        show (syncAccOf ({ st with
          cache := normCache gd st.cache data } : WorkState) data).msgs = []
        rw [hsacc]
      · rename_i hne
        exact absurd hjoin hne
    have hEAP2 : ensureAllPackages ({ st with
        cache := normCache gd st.cache data } : WorkState) =
        ({ st with cache := normCache gd st.cache data }, []) := by
      unfold ensureAllPackages
      rw [hfind'']
      show (syncStateAfter _ data, syncMsgsOf _ data) = _
      rw [hss, hmsgs0]
    rw [hEAP2, hnormid]
    have hvr := validateRest_noop gd files aggName
      { st with cache := normCache gd st.cache data } [] data hgd hfind'' hdisk''
      hdepv hfiles''
    rw [show (({ st with cache := normCache gd st.cache data } : WorkState),
        ([] : List String)).1 = { st with cache := normCache gd st.cache data }
        from rfl,
      show (({ st with cache := normCache gd st.cache data } : WorkState),
        ([] : List String)).2 = ([] : List String) from rfl, hvr]
    exact ⟨rfl, rfl, rfl, rfl, rfl, rfl⟩
  · rw [ensurePackage_nonagg gd files st n data hfind hagg, hst1, hnormid]
    rw [validateRest_noop gd files n
      { st with cache := normCache gd st.cache data } [] data hgd hfind'' hdisk''
      hdepv hfiles'']
    exact ⟨rfl, rfl, rfl, rfl, rfl, rfl⟩

theorem persistSt_disk_names (st : WorkState) (p : String) (d : Package)
    (hd : d.name = p) :
    (persistSt st p d).disk.map Package.name = st.disk.map Package.name := by
  unfold persistSt
  split
  · rfl
  · exact map_name_setP st.disk p d hd

theorem validateRest_disk_names (gd : String → String)
    (files : String → String → List (List String)) (pkgName : String)
    (st2 : WorkState) (msgs1 : List String) (data1 : Package)
    (hdn : (dataAt st2 pkgName data1).name = pkgName) :
    (validateRest gd files pkgName st2 msgs1 data1).1.disk.map Package.name =
      st2.disk.map Package.name := by
  unfold validateRest
  split
  · exact persistSt_disk_names st2 pkgName _ hdn
  · show (persistSt (st3Of gd files pkgName st2 data1) pkgName
      (data3Of gd files pkgName st2 data1)).disk.map Package.name = _
    rw [persistSt_disk_names (st3Of gd files pkgName st2 data1) pkgName
      (data3Of gd files pkgName st2 data1) hdn]
    rfl

theorem syncStateAfter_disk_names (st : WorkState) (agg : Package)
    (hagg : agg.name = aggName) :
    (syncStateAfter st agg).disk.map Package.name =
      st.disk.map Package.name := by
  have hname : (aggAfter st agg).name = aggName := hagg
  unfold syncStateAfter
  split
  · exact persistSt_disk_names _ aggName _ hname
  · show (persistSt { st with mem := setP st.mem aggName (aggAfter st agg) }
      aggName (aggAfter st agg)).disk.map Package.name = _
    exact persistSt_disk_names _ aggName _ hname

theorem ensurePackage_disk_names (gd : String → String)
    (files : String → String → List (List String)) (st : WorkState)
    (n : String) :
    (ensurePackage gd files st n).1.disk.map Package.name =
      st.disk.map Package.name := by
  cases hfind : findP st.mem n with
  | none => rw [ensurePackage_none gd files st n hfind]
  | some data =>
    have hdata_name : data.name = n := (findP_mem st.mem n data hfind).2
    by_cases hagg : n = aggName
    · subst hagg
      rw [ensurePackage_agg gd files st data hfind]
      have hfind1 : findP (normStage gd st aggName data).mem aggName =
          some (normData gd st.cache data) := by
        rw [normStage_mem]
        exact findP_setP_self st.mem aggName data _ hfind hdata_name
      have hEAP : ensureAllPackages (normStage gd st aggName data) =
          (syncStateAfter (normStage gd st aggName data) (normData gd st.cache data),
           syncMsgsOf (normStage gd st aggName data) (normData gd st.cache data)) := by
        unfold ensureAllPackages
        rw [hfind1]
      rw [hEAP]
      have hfind2 : findP (syncStateAfter (normStage gd st aggName data)
          (normData gd st.cache data)).mem aggName =
          some (aggAfter (normStage gd st aggName data) (normData gd st.cache data)) := by
        rw [syncStateAfter_mem]
        exact findP_setP_self _ aggName _ _ hfind1 hdata_name
      have hdn : (dataAt (syncStateAfter (normStage gd st aggName data)
          (normData gd st.cache data)) aggName (normData gd st.cache data)).name =
          aggName := by
        rw [dataAt_eq _ _ _ _ hfind2]
        exact hdata_name
      rw [validateRest_disk_names gd files aggName _ _ _ hdn,
        syncStateAfter_disk_names (normStage gd st aggName data)
          (normData gd st.cache data) hdata_name]
      rfl
    · rw [ensurePackage_nonagg gd files st n data hfind hagg]
      have hfind2 : findP (normStage gd st n data).mem n =
          some (normData gd st.cache data) := by
        rw [normStage_mem]
        exact findP_setP_self st.mem n data _ hfind hdata_name
      have hdn : (dataAt (normStage gd st n data) n
          (normData gd st.cache data)).name = n := by
        rw [dataAt_eq _ _ _ _ hfind2]
        exact hdata_name
      rw [validateRest_disk_names gd files n _ _ _ hdn]
      rfl

theorem runPackages_state (gd : String → String)
    (files : String → String → List (List String)) :
    ∀ (ns : List String) (st : WorkState),
    (runPackages gd files st ns).1.rootDev = st.rootDev ∧
    (runPackages gd files st ns).1.rootDisk = st.rootDisk ∧
    (runPackages gd files st ns).1.mem.map (fun p => (p.name, p.version)) =
      st.mem.map (fun p => (p.name, p.version)) ∧
    (runPackages gd files st ns).1.disk.map Package.name =
      st.disk.map Package.name ∧
    (CacheWF gd st.cache → CacheWF gd (runPackages gd files st ns).1.cache) ∧
    (aggName ∉ ns → (runPackages gd files st ns).1.indexText = st.indexText) := by
  intro ns
  induction ns with
  | nil => intro st; exact ⟨rfl, rfl, rfl, rfl, fun h => h, fun _ => rfl⟩
  | cons m t ih =>
    intro st
    have hfr := ensurePackage_frame gd files st m
    have hstep : runPackages gd files st (m :: t) =
        ((runPackages gd files (ensurePackage gd files st m).1 t).1,
         (if (ensurePackage gd files st m).2.isEmpty then []
          else [(m, (ensurePackage gd files st m).2)]) ++
           (runPackages gd files (ensurePackage gd files st m).1 t).2) := rfl
    rw [hstep]
    have iht := ih (ensurePackage gd files st m).1
    refine ⟨iht.1.trans hfr.2.1, iht.2.1.trans hfr.2.2.1,
      iht.2.2.1.trans hfr.2.2.2.2.1,
      iht.2.2.2.1.trans (ensurePackage_disk_names gd files st m),
      fun hc => iht.2.2.2.2.1 (hfr.2.2.2.1 hc), ?_⟩
    intro hna
    have hm : m ≠ aggName := fun h => hna (h ▸ List.mem_cons_self m t)
    have ht : aggName ∉ t := fun h => hna (List.mem_cons_of_mem m h)
    exact (iht.2.2.2.2.2 ht).trans (hfr.2.2.2.2.2 hm)

theorem filtered_importLines_eq (ps : List Package) :
    ∀ qs : List Package, ps.map Package.name = qs.map Package.name →
    (ps.filter (fun q => q.name != aggName)).map (fun q => importLine q.name) =
    (qs.filter (fun q => q.name != aggName)).map (fun q => importLine q.name) := by
  induction ps with
  | nil =>
    intro qs h
    cases qs with
    | nil => rfl
    | cons b t₂ => simp at h
  | cons a t₁ ih =>
    intro qs h
    cases qs with
    | nil => simp at h
    | cons b t₂ =>
      simp only [List.map_cons, List.cons.injEq] at h
      obtain ⟨hab, ht⟩ := h
      by_cases hagg : a.name = aggName
      · rw [show (a :: t₁).filter (fun q => q.name != aggName) =
            t₁.filter (fun q => q.name != aggName) by
            simp [List.filter_cons, bne_iff_ne, hagg],
          show (b :: t₂).filter (fun q => q.name != aggName) =
            t₂.filter (fun q => q.name != aggName) by
            simp [List.filter_cons, bne_iff_ne, hab ▸ hagg]]
        exact ih t₂ ht
      · rw [show (a :: t₁).filter (fun q => q.name != aggName) =
            a :: t₁.filter (fun q => q.name != aggName) by
            simp [List.filter_cons, bne_iff_ne, hagg],
          show (b :: t₂).filter (fun q => q.name != aggName) =
            b :: t₂.filter (fun q => q.name != aggName) by
            simp [List.filter_cons, bne_iff_ne, hab ▸ hagg]]
        simp only [List.map_cons, hab]
        rw [ih t₂ ht]

theorem devDeps_pos_eq (ps : List Package) :
    ∀ qs : List Package, ps.map Package.name = qs.map Package.name →
    (ps.map Package.name).Nodup →
    (∀ p ∈ ps, ∃ p', findP qs p.name = some p' ∧
      p'.devDependencies = p.devDependencies) →
    ps.map (fun p => p.devDependencies) = qs.map (fun p => p.devDependencies) := by
  induction ps with
  | nil =>
    intro qs h _ _
    cases qs with
    | nil => rfl
    | cons b t₂ => simp at h
  | cons a t₁ ih =>
    intro qs h hnd hfp
    cases qs with
    | nil => simp at h
    | cons b t₂ =>
      simp only [List.map_cons, List.cons.injEq] at h
      obtain ⟨hab, ht⟩ := h
      simp only [List.map_cons, List.nodup_cons] at hnd
      obtain ⟨p', hp1, hp2⟩ := hfp a (List.mem_cons_self _ _)
      have hba : b.name = a.name := hab.symm
      rw [show findP (b :: t₂) a.name = some b by simp [findP, hba]] at hp1
      obtain rfl := Option.some.injEq _ _ ▸ hp1
      simp only [List.map_cons]
      refine congrArg₂ _ hp2.symm ?_
      refine ih t₂ ht hnd.2 ?_
      intro p hp
      obtain ⟨p', hp1', hp2'⟩ := hfp p (List.mem_cons_of_mem _ hp)
      have hpb : ¬ b.name = p.name := by
        rw [hba]
        intro hh
        exact hnd.1 (hh ▸ List.mem_map.mpr ⟨p, hp, rfl⟩)
      rw [show findP (b :: t₂) p.name = findP t₂ p.name by
        simp [findP, hpb]] at hp1'
      exact ⟨p', hp1', hp2'⟩

theorem mem_setP_of_ne (ps : List Package) (n : String) (r q : Package)
    (hq : q ∈ ps) (hne : q.name ≠ n) : q ∈ setP ps n r := by
  induction ps with
  | nil => simp at hq
  | cons p t ih =>
    by_cases hp : p.name = n
    · simp only [setP, if_pos hp]
      rcases List.mem_cons.mp hq with rfl | hq'
      · exact absurd hp hne
      · exact List.mem_cons_of_mem _ hq'
    · simp only [setP, if_neg hp]
      rcases List.mem_cons.mp hq with rfl | hq'
      · exact List.mem_cons_self _ _
      · exact List.mem_cons_of_mem _ (ih hq')

theorem filter_setP_name (ps : List Package) (n : String) (r : Package)
    (hr : r.name = n) :
    (setP ps n r).filter (fun q => q.name != n) =
      ps.filter (fun q => q.name != n) := by
  induction ps with
  | nil => rfl
  | cons p t ih =>
    by_cases hp : p.name = n
    · simp only [setP, if_pos hp]
      rw [show (r :: t).filter (fun q => q.name != n) =
          t.filter (fun q => q.name != n) by
          simp [List.filter_cons, bne_iff_ne, hr],
        show (p :: t).filter (fun q => q.name != n) =
          t.filter (fun q => q.name != n) by
          simp [List.filter_cons, bne_iff_ne, hp]]
    · simp only [setP, if_neg hp]
      rw [show (p :: setP t n r).filter (fun q => q.name != n) =
          p :: (setP t n r).filter (fun q => q.name != n) by
          simp [List.filter_cons, bne_iff_ne, hp],
        show (p :: t).filter (fun q => q.name != n) =
          p :: t.filter (fun q => q.name != n) by
          simp [List.filter_cons, bne_iff_ne, hp], ih]

theorem stdGlob_agg_isEmpty (base : String → List (List String)) (idx : String) :
    (stdGlob base idx aggName).isEmpty = false := by
  simp [stdGlob]

theorem lookupA_isSome_of_lookupT (m : DepMap) (k : String)
    (h : (lookupT m k).isSome = true) : (lookupA m k).isSome = true := by
  unfold lookupT at h
  cases hla : lookupA m k with
  | none => rw [hla] at h; simp at h
  | some v => simp

theorem syncAccOf_lines (st : WorkState) (agg : Package) :
    (syncAccOf st agg).lines = (splitLines st.indexText).take 3 ++
      (st.mem.filter (fun q => q.name != aggName)).map
        (fun q => importLine q.name) := by
  unfold syncAccOf
  exact syncFold_lines st.indexText st.mem _

/-- A dependency key that is also an import identity survives steps 4–5. -/
theorem data3Of_keys_preserved (gd : String → String)
    (files : String → String → List (List String)) (pkgName : String)
    (st2 : WorkState) (data1 : Package) (x : String)
    (hx_keys : x ∈ keysA (dataAt st2 pkgName data1).dependencies)
    (hx_names : x ∈ importNames (files st2.indexText pkgName)) :
    x ∈ keysA (data3Of gd files pkgName st2 data1).dependencies := by
  have hM1 : x ∈ keysA ((importNames (files st2.indexText pkgName)).foldl
      (missStep gd (excList MISSING pkgName))
      ((dataAt st2 pkgName data1).dependencies, st2.cache, [])).1 :=
    missFold_keys_mono gd (excList MISSING pkgName)
      (importNames (files st2.indexText pkgName))
      (dataAt st2 pkgName data1).dependencies st2.cache [] x hx_keys
  have hpres := (unusedFold_preserve (excList UNUSED pkgName)
    (importNames (files st2.indexText pkgName))
    (keysA ((importNames (files st2.indexText pkgName)).foldl
      (missStep gd (excList MISSING pkgName))
      ((dataAt st2 pkgName data1).dependencies, st2.cache, [])).1)
    ((importNames (files st2.indexText pkgName)).foldl
      (missStep gd (excList MISSING pkgName))
      ((dataAt st2 pkgName data1).dependencies, st2.cache, [])).1 []
    x (Or.inr hx_names)).1
  show x ∈ keysA ((keysA ((importNames (files st2.indexText pkgName)).foldl
    (missStep gd (excList MISSING pkgName))
    ((dataAt st2 pkgName data1).dependencies, st2.cache, [])).1).foldl
    (unusedStep (excList UNUSED pkgName)
      (importNames (files st2.indexText pkgName)))
    (((importNames (files st2.indexText pkgName)).foldl
      (missStep gd (excList MISSING pkgName))
      ((dataAt st2 pkgName data1).dependencies, st2.cache, [])).1, [])).1
  rw [← lookupA_isSome_iff, hpres, lookupA_isSome_iff]
  exact hM1

theorem ensurePackage_agg_mem (gd : String → String)
    (files : String → String → List (List String)) (st : WorkState)
    (data : Package)
    (hfind : findP st.mem aggName = some data)
    (hfls : (files (syncStateAfter (normStage gd st aggName data)
      (normData gd st.cache data)).indexText aggName).isEmpty = false) :
    findP (ensurePackage gd files st aggName).1.mem aggName =
      some (data3Of gd files aggName
        (syncStateAfter (normStage gd st aggName data)
          (normData gd st.cache data))
        (normData gd st.cache data)) := by
  have hdata_name : data.name = aggName := (findP_mem st.mem aggName data hfind).2
  have hfind1 : findP (normStage gd st aggName data).mem aggName =
      some (normData gd st.cache data) := by
    rw [normStage_mem]
    exact findP_setP_self st.mem aggName data _ hfind hdata_name
  have hEAP : ensureAllPackages (normStage gd st aggName data) =
      (syncStateAfter (normStage gd st aggName data) (normData gd st.cache data),
       syncMsgsOf (normStage gd st aggName data) (normData gd st.cache data)) := by
    unfold ensureAllPackages
    rw [hfind1]
  have hfind2 : findP (syncStateAfter (normStage gd st aggName data)
      (normData gd st.cache data)).mem aggName =
      some (aggAfter (normStage gd st aggName data)
        (normData gd st.cache data)) := by
    rw [syncStateAfter_mem]
    exact findP_setP_self _ aggName _ _ hfind1 hdata_name
  have hd3n : (data3Of gd files aggName
      (syncStateAfter (normStage gd st aggName data) (normData gd st.cache data))
      (normData gd st.cache data)).name = aggName := by
    show (dataAt (syncStateAfter (normStage gd st aggName data)
      (normData gd st.cache data)) aggName (normData gd st.cache data)).name = _
    rw [dataAt_eq _ _ _ _ hfind2]
    exact hdata_name
  rw [ensurePackage_agg gd files st data hfind, hEAP,
    validateRest_files gd files aggName _ _ _ hfls, persistSt_mem]
  show findP (setP (syncStateAfter (normStage gd st aggName data)
    (normData gd st.cache data)).mem aggName
    (data3Of gd files aggName
      (syncStateAfter (normStage gd st aggName data) (normData gd st.cache data))
      (normData gd st.cache data))) aggName = _
  exact findP_setP_self _ aggName _ _ hfind2 hd3n

/-- Processing the aggregator under the repository's source layout leaves the
index text in regenerated form and keeps every other workspace package's name
among the aggregator's dependency keys. -/
theorem ensurePackage_agg_sync (gd : String → String)
    (base : String → List (List String)) (st : WorkState) (data : Package)
    (hfind : findP st.mem aggName = some data)
    (hnl : ∀ q ∈ st.mem, q.name ≠ aggName → '\n' ∉ q.name.toList)
    (hnorm : ∀ q ∈ st.mem, q.name ≠ aggName →
      normalizeImport q.name = q.name) :
    (ensurePackage gd (stdGlob base) st aggName).1.indexText =
      joinLines ((splitLines st.indexText).take 3 ++
        (st.mem.filter (fun q => q.name != aggName)).map
          (fun q => importLine q.name)) ∧
    (∀ p', findP (ensurePackage gd (stdGlob base) st aggName).1.mem aggName =
        some p' →
      ∀ q ∈ st.mem, q.name ≠ aggName → q.name ∈ keysA p'.dependencies) := by
  have hdata_name : data.name = aggName := (findP_mem st.mem aggName data hfind).2
  have hfind1 : findP (normStage gd st aggName data).mem aggName =
      some (normData gd st.cache data) := by
    rw [normStage_mem]
    exact findP_setP_self st.mem aggName data _ hfind hdata_name
  have hEAP : ensureAllPackages (normStage gd st aggName data) =
      (syncStateAfter (normStage gd st aggName data) (normData gd st.cache data),
       syncMsgsOf (normStage gd st aggName data) (normData gd st.cache data)) := by
    unfold ensureAllPackages
    rw [hfind1]
  have hfind2 : findP (syncStateAfter (normStage gd st aggName data)
      (normData gd st.cache data)).mem aggName =
      some (aggAfter (normStage gd st aggName data)
        (normData gd st.cache data)) := by
    rw [syncStateAfter_mem]
    exact findP_setP_self _ aggName _ _ hfind1 hdata_name
  have hlines : (syncAccOf (normStage gd st aggName data)
      (normData gd st.cache data)).lines =
      (splitLines st.indexText).take 3 ++
        (st.mem.filter (fun q => q.name != aggName)).map
          (fun q => importLine q.name) := by
    rw [syncAccOf_lines, normStage_indexText, normStage_mem,
      filter_setP_name st.mem aggName _
        (show (normData gd st.cache data).name = aggName from hdata_name)]
  have hidx2 : (syncStateAfter (normStage gd st aggName data)
      (normData gd st.cache data)).indexText =
      joinLines ((splitLines st.indexText).take 3 ++
        (st.mem.filter (fun q => q.name != aggName)).map
          (fun q => importLine q.name)) := by
    rw [syncStateAfter_indexText, hlines]
  have hfls : (stdGlob base (syncStateAfter (normStage gd st aggName data)
      (normData gd st.cache data)).indexText aggName).isEmpty = false :=
    stdGlob_agg_isEmpty base _
  constructor
  · rw [ensurePackage_agg gd (stdGlob base) st data hfind, hEAP,
      validateRest_indexText, hidx2]
  · intro p' hp' q hq hqa
    have hp3 := ensurePackage_agg_mem gd (stdGlob base) st data hfind hfls
    have hpp : p' = data3Of gd (stdGlob base) aggName
        (syncStateAfter (normStage gd st aggName data) (normData gd st.cache data))
        (normData gd st.cache data) :=
      Option.some.inj (hp'.symm.trans hp3)
    rw [hpp]
    have hq1 : q ∈ (normStage gd st aggName data).mem := by
      rw [normStage_mem]
      exact mem_setP_of_ne st.mem aggName _ q hq hqa
    have htr := syncFold_covers (normStage gd st aggName data).indexText
      (normStage gd st aggName data).mem
      ⟨(normData gd st.cache data).dependencies,
       (splitLines (normStage gd st aggName data).indexText).take 3, []⟩
      q hq1 hqa
    have hk0 : q.name ∈ keysA (dataAt (syncStateAfter
        (normStage gd st aggName data) (normData gd st.cache data)) aggName
        (normData gd st.cache data)).dependencies := by
      rw [dataAt_eq _ _ _ _ hfind2]
      show q.name ∈ keysA (syncAccOf (normStage gd st aggName data)
        (normData gd st.cache data)).aggDeps
      rw [← lookupA_isSome_iff]
      exact lookupA_isSome_of_lookupT _ _ htr
    have hline_eq : (st.mem.filter (fun q => q.name != aggName)).map
        (fun q => importLine q.name) =
        ((st.mem.filter (fun q => q.name != aggName)).map Package.name).map
          importLine := by
      rw [List.map_map]
      rfl
    have hh : ∀ g ∈ (splitLines st.indexText).take 3, '\n' ∉ g.toList :=
      fun g hg => splitLines_newline_free st.indexText g (List.take_subset _ _ hg)
    have hns : ∀ n₀ ∈ (st.mem.filter (fun q => q.name != aggName)).map
        Package.name, '\n' ∉ n₀.toList := by
      intro n₀ hn₀
      obtain ⟨q₀, hq₀, rfl⟩ := List.mem_map.mp hn₀
      have hq₀' := List.mem_filter.mp hq₀
      exact hnl q₀ hq₀'.1 (bne_iff_ne.mp hq₀'.2)
    have hqn_ns : q.name ∈ (st.mem.filter (fun q => q.name != aggName)).map
        Package.name :=
      List.mem_map.mpr ⟨q, List.mem_filter.mpr ⟨hq, bne_iff_ne.mpr hqa⟩, rfl⟩
    have hqn_extract : q.name ∈ extractIndex (syncStateAfter
        (normStage gd st aggName data) (normData gd st.cache data)).indexText := by
      rw [hidx2, hline_eq,
        extractIndex_gen ((splitLines st.indexText).take 3)
          ((st.mem.filter (fun q => q.name != aggName)).map Package.name) hh hns]
      exact List.mem_append_right _ hqn_ns
    have hflat : q.name ∈ (stdGlob base (syncStateAfter
        (normStage gd st aggName data) (normData gd st.cache data)).indexText
        aggName).flatten := by
      rw [show stdGlob base (syncStateAfter (normStage gd st aggName data)
          (normData gd st.cache data)).indexText aggName =
          extractIndex (syncStateAfter (normStage gd st aggName data)
            (normData gd st.cache data)).indexText :: base aggName by
          simp [stdGlob], List.flatten_cons]
      exact List.mem_append_left _ hqn_extract
    have hqn_names : q.name ∈ importNames (stdGlob base (syncStateAfter
        (normStage gd st aggName data) (normData gd st.cache data)).indexText
        aggName) :=
      (mem_importNames _ _).mpr ⟨q.name, hflat, hnorm q hq hqa⟩
    exact data3Of_keys_preserved gd (stdGlob base) aggName _ _ q.name hk0
      hqn_names

/-- Processing every workspace package leaves each processed package settled
with respect to the final index text, provided the resolver never returns an
empty spec, resolves each workspace package name to the caret range of its
version, and the source scan ignores the index for non-aggregator packages. -/
theorem runPackages_establish (gd : String → String)
    (files : String → String → List (List String))
    (P0 : List (String × String))
    (hgd : ∀ m, gd m ≠ "")
    (hcaret : ∀ nv ∈ P0, gd nv.1 = "^" ++ nv.2)
    (hinv : ∀ i i' n, n ≠ aggName → files i n = files i' n) :
    ∀ (ns : List String) (st : WorkState),
    CacheWF gd st.cache →
    ns.Nodup →
    (∀ k ∈ ns, ∀ d, findP st.mem k = some d →
      (keysA d.dependencies).Nodup ∧ (keysA d.devDependencies).Nodup) →
    (∀ k ∈ ns, (findP st.disk k).isSome = true) →
    st.mem.map (fun q => (q.name, q.version)) = P0 →
    ∀ n ∈ ns, ∀ data, findP st.mem n = some data →
    ∃ p', findP (runPackages gd files st ns).1.mem n = some p' ∧
      findP (runPackages gd files st ns).1.disk n = some p' ∧
      p'.name = n ∧
      SettledPkg gd files (runPackages gd files st ns).1.indexText p' := by
  intro ns
  induction ns with
  | nil => intro st _ _ _ _ _ n hn; simp at hn
  | cons m t ih =>
    intro st hc hnodup hkeys hdisk hpairs n hn data hfdata
    have hmt : m ∉ t := (List.nodup_cons.mp hnodup).1
    have hstep : runPackages gd files st (m :: t) =
        ((runPackages gd files (ensurePackage gd files st m).1 t).1,
         (if (ensurePackage gd files st m).2.isEmpty then []
          else [(m, (ensurePackage gd files st m).2)]) ++
           (runPackages gd files (ensurePackage gd files st m).1 t).2) := rfl
    rw [hstep]
    have hfr := ensurePackage_frame gd files st m
    rcases List.mem_cons.mp hn with rfl | hnt
    · have hk := hkeys n (List.mem_cons_self n t) data hfdata
      have hdata_name : data.name = n := (findP_mem st.mem n data hfdata).2
      obtain ⟨p', h1, h2, h3, h4, h5, h6, h7, h8⟩ :=
        ensurePackage_post gd files st n data hfdata hc hk.1 hk.2
          (hdisk n (List.mem_cons_self n t))
      have hframe := runPackages_frame gd files t
        (ensurePackage gd files st n).1 n hmt
      have hname : p'.name = n := h3.trans hdata_name
      have hfe : files (runPackages gd files
          (ensurePackage gd files st n).1 t).1.indexText n =
          files (ensurePackage gd files st n).1.indexText n := by
        by_cases hna : n = aggName
        · rw [(runPackages_state gd files t
            (ensurePackage gd files st n).1).2.2.2.2.2 (hna ▸ hmt)]
        · exact hinv _ _ n hna
      have hdepv : ∀ kv ∈ p'.dependencies, kv.2 = gd kv.1 := by
        intro kv hkv
        rcases h7 kv hkv with h' | ⟨_, nv, hnv, hkveq⟩
        · exact h'
        · rw [hpairs] at hnv
          rw [hkveq]
          show "^" ++ nv.2 = gd nv.1
          exact (hcaret nv hnv).symm
      refine ⟨p', hframe.1.trans h1, hframe.2.trans h2, hname,
        hdepv, ?_, h6, ?_, ?_⟩
      · intro kv hkv
        rw [h5] at hkv
        exact (mem_mapVals gd data.devDependencies kv hkv).1
      · rw [h5, keysA_mapVals]
        exact hk.2
      · rw [hname, hfe]
        exact h8 hgd
    · have hnm : n ≠ m := fun h => hmt (h ▸ hnt)
      refine ih (ensurePackage gd files st m).1 ((hfr.2.2.2.1) hc)
        (List.nodup_cons.mp hnodup).2 ?_ ?_ ?_ n hnt data ?_
      · intro k hk d hd
        refine hkeys k (List.mem_cons_of_mem m hk) d ?_
        rw [← ((hfr.1 k (fun h => (List.nodup_cons.mp hnodup).1 (h ▸ hk))).1)]
        exact hd
      · intro k hk
        rw [((hfr.1 k (fun h => (List.nodup_cons.mp hnodup).1 (h ▸ hk))).2)]
        exact hdisk k (List.mem_cons_of_mem m hk)
      · rw [hfr.2.2.2.2.1]
        exact hpairs
      · rw [(hfr.1 n hnm).1]
        exact hfdata

theorem map_name_of_map_pair (ps qs : List Package)
    (h : ps.map (fun p => (p.name, p.version)) =
      qs.map (fun p => (p.name, p.version))) :
    ps.map Package.name = qs.map Package.name := by
  have h' := congrArg (List.map Prod.fst) h
  rw [List.map_map, List.map_map] at h'
  exact h'

theorem filter_map_importLine_names (ps : List Package) :
    (ps.filter (fun q => q.name != aggName)).map (fun q => importLine q.name) =
    ((ps.map Package.name).filter (fun s => s != aggName)).map importLine := by
  induction ps with
  | nil => rfl
  | cons p t ih =>
    by_cases hp : p.name = aggName
    · rw [show (p :: t).filter (fun q => q.name != aggName) =
          t.filter (fun q => q.name != aggName) by
          simp [List.filter_cons, bne_iff_ne, hp],
        show ((p :: t).map Package.name).filter (fun s => s != aggName) =
          (t.map Package.name).filter (fun s => s != aggName) by
          simp [List.filter_cons, bne_iff_ne, hp]]
      exact ih
    · rw [show (p :: t).filter (fun q => q.name != aggName) =
          p :: t.filter (fun q => q.name != aggName) by
          simp [List.filter_cons, bne_iff_ne, hp],
        show ((p :: t).map Package.name).filter (fun s => s != aggName) =
          p.name :: (t.map Package.name).filter (fun s => s != aggName) by
          simp [List.filter_cons, bne_iff_ne, hp]]
      simp only [List.map_cons]
      rw [ih]

/-- Through the whole per-package loop: after the aggregator is processed, the
final index text is the regenerated one and the final aggregator record keys
every other package name. -/
theorem runPackages_agg_sync (gd : String → String)
    (base : String → List (List String)) :
    ∀ (ns : List String) (st : WorkState),
    ns.Nodup → aggName ∈ ns →
    (∀ x ∈ st.mem.map Package.name, x ≠ aggName →
      '\n' ∉ x.toList ∧ normalizeImport x = x) →
    ∀ data, findP st.mem aggName = some data →
    (runPackages gd (stdGlob base) st ns).1.indexText =
      joinLines ((splitLines st.indexText).take 3 ++
        ((st.mem.map Package.name).filter (fun s => s != aggName)).map
          importLine) ∧
    ∀ p', findP (runPackages gd (stdGlob base) st ns).1.mem aggName = some p' →
      ∀ x ∈ st.mem.map Package.name, x ≠ aggName →
        x ∈ keysA p'.dependencies := by
  intro ns
  induction ns with
  | nil => intro st _ hmem; simp at hmem
  | cons m t ih =>
    intro st hnodup hmem hnames data hfdata
    have hstep : runPackages gd (stdGlob base) st (m :: t) =
        ((runPackages gd (stdGlob base)
            (ensurePackage gd (stdGlob base) st m).1 t).1,
         (if (ensurePackage gd (stdGlob base) st m).2.isEmpty then []
          else [(m, (ensurePackage gd (stdGlob base) st m).2)]) ++
           (runPackages gd (stdGlob base)
             (ensurePackage gd (stdGlob base) st m).1 t).2) := rfl
    rw [hstep]
    have hmt : m ∉ t := (List.nodup_cons.mp hnodup).1
    by_cases hmagg : m = aggName
    · subst hmagg
      have hes := ensurePackage_agg_sync gd base st data hfdata
        (fun q hq hqa => (hnames q.name (List.mem_map.mpr ⟨q, hq, rfl⟩) hqa).1)
        (fun q hq hqa => (hnames q.name (List.mem_map.mpr ⟨q, hq, rfl⟩) hqa).2)
      have hagg_t : aggName ∉ t := hmt
      have hstt := runPackages_state gd (stdGlob base) t
        (ensurePackage gd (stdGlob base) st aggName).1
      constructor
      · rw [hstt.2.2.2.2.2 hagg_t, hes.1, filter_map_importLine_names]
      · intro p' hp' x hx hxa
        have hfr := runPackages_frame gd (stdGlob base) t
          (ensurePackage gd (stdGlob base) st aggName).1 aggName hagg_t
        rw [hfr.1] at hp'
        obtain ⟨q, hq, rfl⟩ := List.mem_map.mp hx
        exact hes.2 p' hp' q hq hxa
    · have hmemt : aggName ∈ t := by
        rcases List.mem_cons.mp hmem with h | h
        · exact absurd h.symm hmagg
        · exact h
      have hfr := ensurePackage_frame gd (stdGlob base) st m
      have hnameseq : (ensurePackage gd (stdGlob base) st m).1.mem.map
          Package.name = st.mem.map Package.name :=
        map_name_of_map_pair _ _ hfr.2.2.2.2.1
      have hidx1 : (ensurePackage gd (stdGlob base) st m).1.indexText =
          st.indexText := hfr.2.2.2.2.2 hmagg
      have hfind1 : findP (ensurePackage gd (stdGlob base) st m).1.mem aggName =
          some data := by
        rw [(hfr.1 aggName (fun h => hmagg h.symm)).1]
        exact hfdata
      have iht := ih (ensurePackage gd (stdGlob base) st m).1
        (List.nodup_cons.mp hnodup).2 hmemt
        (by rw [hnameseq]; exact hnames) data hfind1
      constructor
      · rw [iht.1, hidx1, hnameseq]
      · intro p' hp' x hx hxa
        refine iht.2 p' hp' x ?_ hxa
        rw [hnameseq]
        exact hx

/-- The per-package loop is the identity (and silent) when every package on
the processing list is settled. -/
theorem runPackages_settled (gd : String → String)
    (files : String → String → List (List String)) (hgd : ∀ m, gd m ≠ "") :
    ∀ (ns : List String) (st : WorkState),
    CacheWF gd st.cache →
    (∀ n ∈ ns, ∀ data, findP st.mem n = some data →
      findP st.disk n = some data ∧
      SettledPkg gd files st.indexText data ∧
      (n = aggName → SettledSync st.mem st.indexText data)) →
    (runPackages gd files st ns).1.mem = st.mem ∧
    (runPackages gd files st ns).1.disk = st.disk ∧
    (runPackages gd files st ns).1.indexText = st.indexText ∧
    (runPackages gd files st ns).1.rootDev = st.rootDev ∧
    (runPackages gd files st ns).1.rootDisk = st.rootDisk ∧
    (runPackages gd files st ns).2 = [] := by
  intro ns
  induction ns with
  | nil => intro st _ _; exact ⟨rfl, rfl, rfl, rfl, rfl, rfl⟩
  | cons m t ih =>
    intro st hc hsett
    have hstep : runPackages gd files st (m :: t) =
        ((runPackages gd files (ensurePackage gd files st m).1 t).1,
         (if (ensurePackage gd files st m).2.isEmpty then []
          else [(m, (ensurePackage gd files st m).2)]) ++
           (runPackages gd files (ensurePackage gd files st m).1 t).2) := rfl
    rw [hstep]
    cases hfind : findP st.mem m with
    | none =>
      rw [ensurePackage_none gd files st m hfind]
      have iht := ih st hc (fun n hn => hsett n (List.mem_cons_of_mem _ hn))
      refine ⟨iht.1, iht.2.1, iht.2.2.1, iht.2.2.2.1, iht.2.2.2.2.1, ?_⟩
      rw [iht.2.2.2.2.2]
      simp
    | some data =>
      obtain ⟨hdisk, hsp, hsync⟩ :=
        hsett m (List.mem_cons_self m t) data hfind
      have hES := ensurePackage_settled gd files st m data hgd hc hfind hdisk
        hsp hsync
      have hcache1 : CacheWF gd (ensurePackage gd files st m).1.cache :=
        (ensurePackage_frame gd files st m).2.2.2.1 hc
      have hsett1 : ∀ n ∈ t, ∀ data',
          findP (ensurePackage gd files st m).1.mem n = some data' →
          findP (ensurePackage gd files st m).1.disk n = some data' ∧
          SettledPkg gd files (ensurePackage gd files st m).1.indexText data' ∧
          (n = aggName → SettledSync (ensurePackage gd files st m).1.mem
            (ensurePackage gd files st m).1.indexText data') := by
        intro n hn data' hfd'
        rw [hES.1] at hfd'
        obtain ⟨hd1, hd2, hd3⟩ := hsett n (List.mem_cons_of_mem _ hn) data' hfd'
        refine ⟨?_, ?_, ?_⟩
        · rw [hES.2.1]
          exact hd1
        · rw [hES.2.2.1]
          exact hd2
        · rw [hES.1, hES.2.2.1]
          exact hd3
      have iht := ih (ensurePackage gd files st m).1 hcache1 hsett1
      refine ⟨iht.1.trans hES.1, iht.2.1.trans hES.2.1,
        iht.2.2.1.trans hES.2.2.1, iht.2.2.2.1.trans hES.2.2.2.1,
        iht.2.2.2.2.1.trans hES.2.2.2.2.1, ?_⟩
      rw [hES.2.2.2.2.2, iht.2.2.2.2.2]
      simp

/-- A full run on a settled on-disk state reports nothing. -/
theorem ensureIntegrity_settled (gd : String → String)
    (files : String → String → List (List String)) (ds : DiskState)
    (hgd : ∀ m, gd m ≠ "")
    (hsett : ∀ n rec, findP ds.pkgs n = some rec →
      SettledPkg gd files ds.indexText rec)
    (hsync : ∀ rec, findP ds.pkgs aggName = some rec →
      SettledSync ds.pkgs ds.indexText rec)
    (htop : topDev (initWork ds) = ds.rootDev) :
    (ensureIntegrity gd files ds).2 = ⟨none, []⟩ := by
  have htopn : (ensureTop (initWork ds)).2 = none :=
    (ensureTop_none_iff (initWork ds)).mpr htop
  have hst2 : (ensureTop (initWork ds)).1.mem = ds.pkgs :=
    ensureTop_mem (initWork ds)
  have hst2d : (ensureTop (initWork ds)).1.disk = ds.pkgs :=
    ensureTop_disk (initWork ds)
  have hst2i : (ensureTop (initWork ds)).1.indexText = ds.indexText :=
    ensureTop_indexText (initWork ds)
  have hc : CacheWF gd (ensureTop (initWork ds)).1.cache := by
    rw [ensureTop_cache]
    exact cacheWF_nil gd
  have hmsgs := (runPackages_settled gd files hgd (ds.pkgs.map Package.name)
    (ensureTop (initWork ds)).1 hc ?_).2.2.2.2.2
  · show (⟨(ensureTop (initWork ds)).2,
      (runPackages gd files (ensureTop (initWork ds)).1
        (ds.pkgs.map Package.name)).2⟩ : Report) = ⟨none, []⟩
    rw [htopn, hmsgs]
  · intro n _ data hfd
    rw [hst2] at hfd
    refine ⟨?_, ?_, ?_⟩
    · rw [hst2d]
      exact hfd
    · rw [hst2i]
      exact hsett n data hfd
    · intro hna
      rw [hst2, hst2i]
      subst hna
      exact hsync data hfd

/-- The working state and report of one full run (the loop part of
`ensureIntegrity`). -/
def run1 (gd : String → String) (base : String → List (List String))
    (ds : DiskState) : WorkState × List (String × List String) :=
  runPackages gd (stdGlob base) (ensureTop (initWork ds)).1
    (ds.pkgs.map Package.name)

theorem ensureIntegrity_run1 (gd : String → String)
    (base : String → List (List String)) (ds : DiskState) :
    ensureIntegrity gd (stdGlob base) ds =
      (⟨(run1 gd base ds).1.disk, (run1 gd base ds).1.rootDisk,
        (run1 gd base ds).1.indexText⟩,
       ⟨(ensureTop (initWork ds)).2, (run1 gd base ds).2⟩) := rfl

theorem run1_disk_names (gd : String → String)
    (base : String → List (List String)) (ds : DiskState) :
    (run1 gd base ds).1.disk.map Package.name = ds.pkgs.map Package.name := by
  show (runPackages gd (stdGlob base) (ensureTop (initWork ds)).1
    (ds.pkgs.map Package.name)).1.disk.map Package.name = _
  rw [(runPackages_state gd (stdGlob base) (ds.pkgs.map Package.name)
    (ensureTop (initWork ds)).1).2.2.2.1, ensureTop_disk]
  rfl

/-- After one full run every on-disk package record is settled. -/
theorem run1_pkgs_settled (gd : String → String)
    (base : String → List (List String)) (ds : DiskState)
    (hnames : (ds.pkgs.map Package.name).Nodup)
    (hkeys : ∀ p ∈ ds.pkgs,
      (keysA p.dependencies).Nodup ∧ (keysA p.devDependencies).Nodup)
    (hgd : ∀ m, gd m ≠ "")
    (hcaret : ∀ q ∈ ds.pkgs, gd q.name = "^" ++ q.version) :
    ∀ n rec, findP (run1 gd base ds).1.disk n = some rec →
      findP (run1 gd base ds).1.mem n = some rec ∧ rec.name = n ∧
      SettledPkg gd (stdGlob base) (run1 gd base ds).1.indexText rec := by
  intro n rec hrec
  have hrecmem := findP_mem _ _ _ hrec
  have hn : n ∈ ds.pkgs.map Package.name := by
    rw [← run1_disk_names gd base ds]
    exact hrecmem.2 ▸ List.mem_map.mpr ⟨rec, hrecmem.1, rfl⟩
  have hfind0 : (findP (ensureTop (initWork ds)).1.mem n).isSome = true := by
    rw [ensureTop_mem]
    exact findP_isSome_of_name_mem ds.pkgs n hn
  obtain ⟨data, hdata⟩ := Option.isSome_iff_exists.mp hfind0
  obtain ⟨p', h1, h2, h3, h4⟩ := runPackages_establish gd (stdGlob base)
    (ds.pkgs.map (fun q => (q.name, q.version))) hgd
    (by
      intro nv hnv
      obtain ⟨q, hq, rfl⟩ := List.mem_map.mp hnv
      exact hcaret q hq)
    (by
      intro i i' n' hn'
      simp [stdGlob, hn'])
    (ds.pkgs.map Package.name) (ensureTop (initWork ds)).1
    (by rw [ensureTop_cache]; exact cacheWF_nil gd)
    hnames
    (by
      intro k _ d hd
      rw [ensureTop_mem] at hd
      exact hkeys d (findP_mem ds.pkgs k d hd).1)
    (by
      intro k hk
      rw [ensureTop_disk]
      exact findP_isSome_of_name_mem ds.pkgs k hk)
    (by rw [ensureTop_mem]; rfl)
    n hn data hdata
  have hrp : rec = p' := by
    refine Option.some.inj (Eq.symm ?_)
    show some p' = some rec
    rw [← h2, ← hrec]
    rfl
  subst hrp
  exact ⟨h1, h3, h4⟩

/-- After one full run the aggregator (when present) is synchronized with the
on-disk workspace. -/
theorem run1_sync_settled (gd : String → String)
    (base : String → List (List String)) (ds : DiskState)
    (hnames : (ds.pkgs.map Package.name).Nodup)
    (hkeys : ∀ p ∈ ds.pkgs,
      (keysA p.dependencies).Nodup ∧ (keysA p.devDependencies).Nodup)
    (hgd : ∀ m, gd m ≠ "")
    (hcaret : ∀ q ∈ ds.pkgs, gd q.name = "^" ++ q.version)
    (hnl : ∀ q ∈ ds.pkgs, '\n' ∉ q.name.toList ∧
      normalizeImport q.name = q.name)
    (hheader : 3 ≤ (splitLines ds.indexText).length) :
    ∀ rec, findP (run1 gd base ds).1.disk aggName = some rec →
      SettledSync (run1 gd base ds).1.disk (run1 gd base ds).1.indexText rec := by
  intro rec hrec
  have hrecmem := findP_mem _ _ _ hrec
  have hagg_names : aggName ∈ ds.pkgs.map Package.name := by
    rw [← run1_disk_names gd base ds]
    exact hrecmem.2 ▸ List.mem_map.mpr ⟨rec, hrecmem.1, rfl⟩
  have hfind0 : (findP (ensureTop (initWork ds)).1.mem aggName).isSome = true := by
    rw [ensureTop_mem]
    exact findP_isSome_of_name_mem ds.pkgs aggName hagg_names
  obtain ⟨dataA, hdataA⟩ := Option.isSome_iff_exists.mp hfind0
  have hmem0names : (ensureTop (initWork ds)).1.mem.map Package.name =
      ds.pkgs.map Package.name := by
    rw [ensureTop_mem]
    rfl
  have hidx0 : (ensureTop (initWork ds)).1.indexText = ds.indexText := by
    rw [ensureTop_indexText]
    rfl
  have hAS := runPackages_agg_sync gd base (ds.pkgs.map Package.name)
    (ensureTop (initWork ds)).1 hnames hagg_names
    (by
      intro x hx _
      rw [hmem0names] at hx
      obtain ⟨q, hq, rfl⟩ := List.mem_map.mp hx
      exact hnl q hq)
    dataA hdataA
  have hsp := run1_pkgs_settled gd base ds hnames hkeys hgd hcaret aggName rec hrec
  have hidxF : (run1 gd base ds).1.indexText =
      joinLines ((splitLines ds.indexText).take 3 ++
        ((ds.pkgs.map Package.name).filter (fun s => s != aggName)).map
          importLine) := by
    show (runPackages gd (stdGlob base) (ensureTop (initWork ds)).1
      (ds.pkgs.map Package.name)).1.indexText = _
    rw [hAS.1, hidx0, hmem0names]
  constructor
  · intro q hq hqa
    have hqn_names0 : q.name ∈ ds.pkgs.map Package.name := by
      rw [← run1_disk_names gd base ds]
      exact List.mem_map.mpr ⟨q, hq, rfl⟩
    constructor
    · have hkeysq : q.name ∈ keysA rec.dependencies := by
        refine hAS.2 rec hsp.1 q.name ?_ hqa
        rw [hmem0names]
        exact hqn_names0
      exact lookupT_isSome_of_canon gd rec.dependencies q.name hkeysq
        hsp.2.2.1 (hgd q.name)
    · rw [hidxF]
      refine containsSub_of_mem_joinLines _ (importLine q.name) q.name ?_
        (containsL_importLine_name q.name)
      refine List.mem_append_right _ ?_
      exact List.mem_map.mpr ⟨q.name,
        List.mem_filter.mpr ⟨hqn_names0, bne_iff_ne.mpr hqa⟩, rfl⟩
  · rw [filter_map_importLine_names, run1_disk_names gd base ds, hidxF,
      take3_stability ((splitLines ds.indexText).take 3)
        ((ds.pkgs.map Package.name).filter (fun s => s != aggName))
        (fun g hg => splitLines_newline_free ds.indexText g
          (List.take_subset _ _ hg))
        (by rw [List.length_take]; exact min_eq_left hheader)]

/-- After one full run, re-hoisting the (unchanged, already-canonical)
devDependencies into the already-hoisted root map reproduces it. -/
theorem run1_top_fix (gd : String → String)
    (base : String → List (List String)) (ds : DiskState)
    (hnames : (ds.pkgs.map Package.name).Nodup)
    (hkeys : ∀ p ∈ ds.pkgs,
      (keysA p.dependencies).Nodup ∧ (keysA p.devDependencies).Nodup)
    (hroot : (keysA ds.rootDev).Nodup)
    (hdev : ∀ q ∈ ds.pkgs, ∀ kv ∈ q.devDependencies, kv.2 = gd kv.1) :
    topDev (initWork ⟨(run1 gd base ds).1.disk, (run1 gd base ds).1.rootDisk,
      (run1 gd base ds).1.indexText⟩) = (run1 gd base ds).1.rootDisk := by
  have h1 : (run1 gd base ds).1.rootDisk = topDev (initWork ds) := by
    show (runPackages gd (stdGlob base) (ensureTop (initWork ds)).1
      (ds.pkgs.map Package.name)).1.rootDisk = _
    rw [(runPackages_state gd (stdGlob base) (ds.pkgs.map Package.name)
      (ensureTop (initWork ds)).1).2.1, ensureTop_rootDisk]
  have h3 : (run1 gd base ds).1.disk.map (fun p => p.devDependencies) =
      ds.pkgs.map (fun p => p.devDependencies) := by
    refine (devDeps_pos_eq ds.pkgs (run1 gd base ds).1.disk
      (run1_disk_names gd base ds).symm hnames ?_).symm
    intro p hp
    obtain ⟨p', _, h2', _, _, h5', _, _⟩ := runPackages_post gd (stdGlob base)
      (ds.pkgs.map (fun q => (q.name, q.version)))
      (ds.pkgs.map Package.name) (ensureTop (initWork ds)).1
      (by rw [ensureTop_cache]; exact cacheWF_nil gd)
      hnames
      (by
        intro k _ d hd
        rw [ensureTop_mem] at hd
        exact hkeys d (findP_mem ds.pkgs k d hd).1)
      (by
        intro k hk
        rw [ensureTop_disk]
        exact findP_isSome_of_name_mem ds.pkgs k hk)
      (by rw [ensureTop_mem]; rfl)
      p.name (List.mem_map.mpr ⟨p, hp, rfl⟩) p
      (by rw [ensureTop_mem]; exact findP_of_mem_nodup ds.pkgs p hp hnames)
    refine ⟨p', h2', ?_⟩
    rw [h5']
    exact mapVals_eq_self gd p.devDependencies (hdev p hp)
  have h4 : topDev (initWork ds) =
      applyKVs ((ds.pkgs.map (fun p => p.devDependencies)).flatten)
        ds.rootDev := topDev_eq_applyKVs (initWork ds)
  have h2 : topDev (initWork ⟨(run1 gd base ds).1.disk,
      (run1 gd base ds).1.rootDisk, (run1 gd base ds).1.indexText⟩) =
      applyKVs ((ds.pkgs.map (fun p => p.devDependencies)).flatten)
        (topDev (initWork ds)) := by
    rw [topDev_eq_applyKVs]
    show applyKVs (((run1 gd base ds).1.disk.map
      (fun p => p.devDependencies)).flatten) (run1 gd base ds).1.rootDisk = _
    rw [h3, h1]
  rw [h2, h4, applyKVs_idem _ ds.rootDev hroot, ← h4, h1]

/-- C2 (amended): the second of two successive full runs reports nothing —
under duplicate-free package names, dependency keys and root devDependency
keys; a resolver that never returns an empty spec and resolves every
workspace package name to the caret range of its version; an index source of
at least three lines; package names that are newline-free and fixed by import
normalization; devDependency values that are already canonical; and the
repository's source layout (the aggregator's sources include its generated
index, other packages' sources ignore it). -/
theorem claim_C2_idempotence (gd : String → String)
    (base : String → List (List String)) (ds : DiskState)
    (hnames : (ds.pkgs.map Package.name).Nodup)
    (hkeys : ∀ p ∈ ds.pkgs,
      (keysA p.dependencies).Nodup ∧ (keysA p.devDependencies).Nodup)
    (hroot : (keysA ds.rootDev).Nodup)
    (hgd : ∀ m, gd m ≠ "")
    (hcaret : ∀ q ∈ ds.pkgs, gd q.name = "^" ++ q.version)
    (hheader : 3 ≤ (splitLines ds.indexText).length)
    (hnl : ∀ q ∈ ds.pkgs, '\n' ∉ q.name.toList ∧
      normalizeImport q.name = q.name)
    (hdev : ∀ q ∈ ds.pkgs, ∀ kv ∈ q.devDependencies, kv.2 = gd kv.1) :
    (ensureIntegrity gd (stdGlob base)
      (ensureIntegrity gd (stdGlob base) ds).1).2 = ⟨none, []⟩ := by
  refine ensureIntegrity_settled gd (stdGlob base)
    (ensureIntegrity gd (stdGlob base) ds).1 hgd ?_ ?_ ?_
  · exact fun n rec h =>
      (run1_pkgs_settled gd base ds hnames hkeys hgd hcaret n rec h).2.2
  · exact fun rec h =>
      run1_sync_settled gd base ds hnames hkeys hgd hcaret hnl hheader rec h
  · exact run1_top_fix gd base ds hnames hkeys hroot hdev

/-- Witness for the amended C2 (the first run on this workspace reports a
manifest rewrite; the theorem yields the clean second run). -/
theorem claim_C2_witness :
    (ensureIntegrity (fun _ => "^1.0") (stdGlob (fun _ => []))
      (ensureIntegrity (fun _ => "^1.0") (stdGlob (fun _ => []))
        ⟨[⟨"A", "1.0", [("x", "0.1")], []⟩], [], "h1\nh2\nh3"⟩).1).2 =
      ⟨none, []⟩ :=
  claim_C2_idempotence (fun _ => "^1.0") (fun _ => [])
    ⟨[⟨"A", "1.0", [("x", "0.1")], []⟩], [], "h1\nh2\nh3"⟩
    (by decide) (by intro p hp; simp at hp; rw [hp]; decide) (by decide)
    (fun m => show ("^1.0" : String) ≠ "" by decide)
    (by intro q hq; simp at hq; rw [hq]; decide)
    (by decide)
    (by intro q hq; simp at hq; rw [hq]; decide)
    (by intro q hq; simp at hq; rw [hq]; decide)

/-- Counterexample to C2 as stated: the hoister copies raw devDependency
values before normalization, so with one non-canonical devDependency the
root manifest converges one run late — the second run still reports a
`"top"` finding (`updated`), not an empty messages map. -/
theorem claim_C2_counterexample :
    (ensureIntegrity (fun _ => "9.9") (stdGlob (fun _ => []))
      (ensureIntegrity (fun _ => "9.9") (stdGlob (fun _ => []))
        ⟨[⟨"C", "1.0", [], [("d", "0.1")]⟩], [], "h1\nh2\nh3"⟩).1).2 =
      ⟨some "updated", []⟩ ∧
    (⟨some "updated", []⟩ : Report) ≠ ⟨none, []⟩ := by
  refine ⟨?_, ?_⟩ <;> decide

end EnsureIntegrity
